import Mathlib

/-!
# ComplexAlgebra.hpp: dense complex matrices, Gauss-Jordan elimination

A shallow embedding of `cpp/ComplexAlgebra.hpp`.

* A `Vec2d` is a pair of numbers; the doubles of the source are rationals here
  (exact arithmetic), so every definition is executable.
* A `Vec2d*` buffer is a `List Vec2d`; a read or a write through an index is
  checked, and a routine returns `none` as soon as one index falls outside
  its buffer.
* `int` sizes and indices are natural numbers (the loops of the source never
  run with a negative counter).
* Division is the total division of `ℚ` (`x / 0 = 0`), where IEEE doubles
  would give an infinity or a NaN.
-/

namespace ComplexAlgebra

/-! ## Complex scalars (`Vec2.h`) -/

/-- A complex value `(x, y) = x + y·i`, the `Vec2d` of the source. -/
@[ext] structure Vec2d where
  x : ℚ
  y : ℚ
deriving DecidableEq

namespace Vec2d

/-- Modelled from the spec: `Vec2.h` is not among the sources. The sum of two
complex values, component by component (`operator+`). -/
def add (a b : Vec2d) : Vec2d := ⟨a.x + b.x, a.y + b.y⟩

/-- Modelled from the spec: `Vec2.h` is not among the sources. The difference
of two complex values, component by component (`operator-`). -/
def sub (a b : Vec2d) : Vec2d := ⟨a.x - b.x, a.y - b.y⟩

/-- Modelled from the spec: `Vec2.h` is not among the sources. The product
`(a+bi)(c+di) = (ac−bd) + (ad+bc)i`, the value `set_mul_cmplx(a, b)` stores. -/
def set_mul_cmplx (a b : Vec2d) : Vec2d :=
  ⟨a.x * b.x - a.y * b.y, a.x * b.y + a.y * b.x⟩

/-- Modelled from the spec: `Vec2.h` is not among the sources. The magnitude
`norm()` that the pivot search and the threshold test use: the squared norm
`real² + imag²`. -/
def norm (a : Vec2d) : ℚ := a.x * a.x + a.y * a.y

end Vec2d

/-! ## Buffers and loops -/

/-- A caller-owned flat buffer of complex values. -/
abbrev Buf := List Vec2d

/-- The read `A[k]`; `none` outside the buffer. -/
def rd (A : Buf) (k : Nat) : Option Vec2d := A[k]?

/-- The write `A[k] = v`; `none` outside the buffer. -/
def wr (A : Buf) (k : Nat) (v : Vec2d) : Option Buf :=
  if k < A.length then some (A.set k v) else none

/-- The loop `for (j = start; j < start + count; j++) s = body(j, s)`, stopped
by the first failing iteration. -/
def forRange {σ : Type} (body : Nat → σ → Option σ) : Nat → Nat → σ → Option σ
  | 0, _, s => some s
  | count + 1, j, s => (body j s).bind (forRange body count (j + 1))

/-! ## The routines of `ComplexAlgebra.hpp` -/

/-- The product `C = A*B` of an `n×k` and a `k×m` matrix (lines 13-28): the
new contents of `C`. -/
def multiply_complex_matrices (n k m : Nat) (A B C : Buf) : Option Buf :=
  forRange (fun i C =>
    forRange (fun j C => do
      let sum ← forRange (fun p sum => do
        let a ← rd A (i * k + p)
        let b ← rd B (p * m + j)
        let prod := Vec2d.set_mul_cmplx a b
        some (Vec2d.add sum prod)) k 0 ⟨0, 0⟩
      wr C (i * m + j) sum) m 0 C) n 0 C

/-- The pivot search over rows only (lines 36-50): `(pivot_row, pivot_col)`.
The loop state is `(pivot_row, max_val)`. -/
def find_pivot_partial (n i : Nat) (A : Buf) (stride : Nat) : Option (Nat × Nat) := do
  let a0 ← rd A (i * stride + i)
  let st ← forRange (fun r (st : Nat × ℚ) => do
    let a ← rd A (r * stride + i)
    let val := a.norm
    if val > st.2 then some (r, val) else some st) (n - i) i (i, a0.norm)
  some (st.1, i)

/-- The exchange of two rows of the augmented matrix (lines 53-59). -/
def swap_rows (_n row1 row2 : Nat) (A : Buf) (stride : Nat) : Option Buf :=
  forRange (fun j A => do
    let temp ← rd A (row1 * stride + j)
    let a2 ← rd A (row2 * stride + j)
    let A ← wr A (row1 * stride + j) a2
    wr A (row2 * stride + j) temp) stride 0 A

/-- The exchange of two columns in each of the `n` rows (lines 62-69). -/
def swap_columns_and_rows (n col1 col2 : Nat) (A : Buf) (stride : Nat) : Option Buf :=
  forRange (fun i A => do
    let temp ← rd A (i * stride + col1)
    let a2 ← rd A (i * stride + col2)
    let A ← wr A (i * stride + col1) a2
    wr A (i * stride + col2) temp) n 0 A

/-- The zero fill of rows `i .. n-1` on a near-zero pivot (lines 90-94). -/
def zero_fill (n i stride : Nat) (aug : Buf) : Option Buf :=
  forRange (fun r aug =>
    forRange (fun c aug => wr aug (r * stride + c) ⟨0, 0⟩) stride 0 aug) (n - i) i aug

/-- The scaling of the pivot row `i` by `pivot_inv` (lines 102-106). -/
def scale_row (i stride : Nat) (pivot_inv : Vec2d) (aug : Buf) : Option Buf :=
  forRange (fun j aug => do
    let a ← rd aug (i * stride + j)
    let prod := Vec2d.set_mul_cmplx a pivot_inv
    wr aug (i * stride + j) prod) stride 0 aug

/-- The elimination of column `i` from every row but row `i` (lines 109-118). -/
def eliminate_column (n i stride : Nat) (aug : Buf) : Option Buf :=
  forRange (fun j aug =>
    if j ≠ i then do
      let factor ← rd aug (j * stride + i)
      forRange (fun k aug => do
        let a ← rd aug (i * stride + k)
        let prod := Vec2d.set_mul_cmplx factor a
        let b ← rd aug (j * stride + k)
        wr aug (j * stride + k) (Vec2d.sub b prod)) stride 0 aug
    else some aug) n 0 aug

/-- One pass of the loop body of `gauss_jordan_eliminate` (lines 80-118) at
step `i`. The flag is `true` when the near-zero-pivot branch was taken (the
message is printed and the routine returns). -/
def gauss_jordan_step (n m i : Nat) (aug : Buf) (pivot_threshold : ℚ) :
    Option (Buf × Bool) := do
  let stride := n + m
  let (pivot_row, _) ← find_pivot_partial n i aug stride
  let aug ← if pivot_row ≠ i then swap_rows n i pivot_row aug stride else some aug
  let pivot ← rd aug (i * stride + i)
  if pivot.norm < pivot_threshold then
    let aug ← zero_fill n i stride aug
    some (aug, true)
  else
    let denom := pivot.x * pivot.x + pivot.y * pivot.y
    let pivot_inv : Vec2d := ⟨pivot.x / denom, -pivot.y / denom⟩
    let aug ← scale_row i stride pivot_inv aug
    let aug ← eliminate_column n i stride aug
    some (aug, false)

/-- The outcome of an elimination: the buffer, and the step at which the
near-zero pivot was reported, if it was. -/
structure Outcome where
  aug : Buf
  singular_at : Option Nat
deriving DecidableEq

/-- The loop `for (i = ...; i < n; i++)` of `gauss_jordan_eliminate` with
`count` steps left, `i` the next one. -/
def gauss_jordan_loop (n m : Nat) (pivot_threshold : ℚ) : Nat → Nat → Buf → Option Outcome
  | 0, _, aug => some ⟨aug, none⟩
  | count + 1, i, aug =>
    (gauss_jordan_step n m i aug pivot_threshold).bind fun r =>
      if r.2 then some ⟨r.1, some i⟩
      else gauss_jordan_loop n m pivot_threshold count (i + 1) r.1

/-- Gauss-Jordan elimination on the augmented matrix `[A|B]` (lines 74-121). -/
def gauss_jordan_eliminate (n m : Nat) (aug : Buf) (pivot_threshold : ℚ) : Option Outcome :=
  gauss_jordan_loop n m pivot_threshold n 0 aug

/-- The default value `1e-10` of `pivot_threshold`. -/
def default_threshold : ℚ := 1 / 10000000000

/-- The outcome of an inversion or of a solve: the output buffer, the
workspace as it is left, and the step of the near-zero pivot, if any. -/
structure Solved where
  out : Buf
  workspace : Buf
  singular_at : Option Nat
deriving DecidableEq

/-- The assembly of `[A|I]` in the workspace (lines 129-134). -/
def augment_identity (n : Nat) (A workspace : Buf) : Option Buf :=
  forRange (fun i aug =>
    forRange (fun j aug => do
      let a ← rd A (i * n + j)
      let aug ← wr aug (i * (2 * n) + j) a
      wr aug (i * (2 * n) + (j + n)) ⟨if i = j then 1 else 0, 0⟩) n 0 aug) n 0 workspace

/-- The copy of the right half of the workspace into `Ainv` (lines 137-141). -/
def copy_inverse (n : Nat) (aug Ainv : Buf) : Option Buf :=
  forRange (fun i Ainv =>
    forRange (fun j Ainv => do
      let a ← rd aug (i * (2 * n) + (j + n))
      wr Ainv (i * n + j) a) n 0 Ainv) n 0 Ainv

/-- Matrix inversion (lines 125-143). -/
def invert_complex_matrix (n : Nat) (A Ainv workspace : Buf) (pivot_threshold : ℚ) :
    Option Solved := do
  let aug ← augment_identity n A workspace
  let r ← gauss_jordan_eliminate n n aug pivot_threshold
  let Ainv ← copy_inverse n r.aug Ainv
  some ⟨Ainv, r.aug, r.singular_at⟩

/-- The assembly of `[A|B]` in the workspace (lines 152-159). -/
def augment_rhs (n m : Nat) (A B workspace : Buf) : Option Buf :=
  forRange (fun i aug => do
    let aug ← forRange (fun j aug => do
      let a ← rd A (i * n + j)
      wr aug (i * (n + m) + j) a) n 0 aug
    forRange (fun j aug => do
      let b ← rd B (i * m + j)
      wr aug (i * (n + m) + (j + n)) b) m 0 aug) n 0 workspace

/-- The copy of the right block of the workspace into `X` (lines 165-169). -/
def copy_solution (n m : Nat) (aug X : Buf) : Option Buf :=
  forRange (fun i X =>
    forRange (fun j X => do
      let a ← rd aug (i * (n + m) + (j + n))
      wr X (i * m + j) a) m 0 X) n 0 X

/-- The solution of `A X = B` (lines 148-170). -/
def solve_complex_system (n m : Nat) (A B X workspace : Buf) (pivot_threshold : ℚ) :
    Option Solved := do
  let aug ← augment_rhs n m A B workspace
  let r ← gauss_jordan_eliminate n m aug pivot_threshold
  let X ← copy_solution n m r.aug X
  some ⟨X, r.aug, r.singular_at⟩

/-! ## The eliminator without pivoting

The comparison of the spec (§8, "the same final inverse as without pivoting"):
the eliminator above with the pivot search and the row swap removed. -/

/-- The loop body of `gauss_jordan_eliminate` without lines 80-84. -/
def gauss_jordan_step_unpivoted (n m i : Nat) (aug : Buf) (pivot_threshold : ℚ) :
    Option (Buf × Bool) := do
  let stride := n + m
  let pivot ← rd aug (i * stride + i)
  if pivot.norm < pivot_threshold then
    let aug ← zero_fill n i stride aug
    some (aug, true)
  else
    let denom := pivot.x * pivot.x + pivot.y * pivot.y
    let pivot_inv : Vec2d := ⟨pivot.x / denom, -pivot.y / denom⟩
    let aug ← scale_row i stride pivot_inv aug
    let aug ← eliminate_column n i stride aug
    some (aug, false)

/-- The loop over the steps, without pivoting. -/
def gauss_jordan_loop_unpivoted (n m : Nat) (pivot_threshold : ℚ) :
    Nat → Nat → Buf → Option Outcome
  | 0, _, aug => some ⟨aug, none⟩
  | count + 1, i, aug =>
    (gauss_jordan_step_unpivoted n m i aug pivot_threshold).bind fun r =>
      if r.2 then some ⟨r.1, some i⟩
      else gauss_jordan_loop_unpivoted n m pivot_threshold count (i + 1) r.1

/-- Gauss-Jordan elimination without pivoting. -/
def gauss_jordan_eliminate_unpivoted (n m : Nat) (aug : Buf) (pivot_threshold : ℚ) :
    Option Outcome :=
  gauss_jordan_loop_unpivoted n m pivot_threshold n 0 aug

/-- Matrix inversion through the eliminator without pivoting. -/
def invert_complex_matrix_unpivoted (n : Nat) (A Ainv workspace : Buf)
    (pivot_threshold : ℚ) : Option Solved := do
  let aug ← augment_identity n A workspace
  let r ← gauss_jordan_eliminate_unpivoted n n aug pivot_threshold
  let Ainv ← copy_inverse n r.aug Ainv
  some ⟨Ainv, r.aug, r.singular_at⟩

/-! ## Vocabulary of the proofs

Complex values as a field, the entries of a buffer, the buffer of row length
`s` read as a matrix, and the row operations of one elimination step as
functions on such matrices. -/

/-- The entry `A[k]` as a value, `(0,0)` outside the buffer. -/
def ent (A : Buf) (k : Nat) : Vec2d := (A[k]?).getD ⟨0, 0⟩

namespace Vec2d

/-! The operations of the field are those of the source: `+` is `add`, `-` is
`sub`, `*` is `set_mul_cmplx`, and the inverse is the reciprocal
`(x/denom, -y/denom)` of lines 99-100. -/

instance : Zero Vec2d := ⟨⟨0, 0⟩⟩
instance : One Vec2d := ⟨⟨1, 0⟩⟩
instance : Add Vec2d := ⟨Vec2d.add⟩
instance : Neg Vec2d := ⟨fun a => ⟨-a.x, -a.y⟩⟩
instance : Sub Vec2d := ⟨Vec2d.sub⟩
instance : Mul Vec2d := ⟨Vec2d.set_mul_cmplx⟩
instance : Inv Vec2d :=
  ⟨fun p => ⟨p.x / (p.x * p.x + p.y * p.y), -p.y / (p.x * p.x + p.y * p.y)⟩⟩

instance instAddCommGroup : AddCommGroup Vec2d where
  add_assoc a b c := Vec2d.ext (add_assoc a.x b.x c.x) (add_assoc a.y b.y c.y)
  zero_add a := Vec2d.ext (zero_add a.x) (zero_add a.y)
  add_zero a := Vec2d.ext (add_zero a.x) (add_zero a.y)
  nsmul := nsmulRec
  zsmul := zsmulRec
  neg_add_cancel a := Vec2d.ext (neg_add_cancel a.x) (neg_add_cancel a.y)
  sub_eq_add_neg a b := Vec2d.ext (sub_eq_add_neg a.x b.x) (sub_eq_add_neg a.y b.y)
  add_comm a b := Vec2d.ext (add_comm a.x b.x) (add_comm a.y b.y)

instance instCommRing : CommRing Vec2d where
  __ := instAddCommGroup
  mul_assoc a b c := Vec2d.ext
    (show (a.x * b.x - a.y * b.y) * c.x - (a.x * b.y + a.y * b.x) * c.y =
      a.x * (b.x * c.x - b.y * c.y) - a.y * (b.x * c.y + b.y * c.x) by ring)
    (show (a.x * b.x - a.y * b.y) * c.y + (a.x * b.y + a.y * b.x) * c.x =
      a.x * (b.x * c.y + b.y * c.x) + a.y * (b.x * c.x - b.y * c.y) by ring)
  one_mul a := Vec2d.ext (show 1 * a.x - 0 * a.y = a.x by ring)
    (show 1 * a.y + 0 * a.x = a.y by ring)
  mul_one a := Vec2d.ext (show a.x * 1 - a.y * 0 = a.x by ring)
    (show a.x * 0 + a.y * 1 = a.y by ring)
  left_distrib a b c := Vec2d.ext
    (show a.x * (b.x + c.x) - a.y * (b.y + c.y) =
      a.x * b.x - a.y * b.y + (a.x * c.x - a.y * c.y) by ring)
    (show a.x * (b.y + c.y) + a.y * (b.x + c.x) =
      a.x * b.y + a.y * b.x + (a.x * c.y + a.y * c.x) by ring)
  right_distrib a b c := Vec2d.ext
    (show (a.x + b.x) * c.x - (a.y + b.y) * c.y =
      a.x * c.x - a.y * c.y + (b.x * c.x - b.y * c.y) by ring)
    (show (a.x + b.x) * c.y + (a.y + b.y) * c.x =
      a.x * c.y + a.y * c.x + (b.x * c.y + b.y * c.x) by ring)
  zero_mul a := Vec2d.ext (show 0 * a.x - 0 * a.y = 0 by ring)
    (show 0 * a.y + 0 * a.x = 0 by ring)
  mul_zero a := Vec2d.ext (show a.x * 0 - a.y * 0 = 0 by ring)
    (show a.x * 0 + a.y * 0 = 0 by ring)
  mul_comm a b := Vec2d.ext
    (show a.x * b.x - a.y * b.y = b.x * a.x - b.y * a.y by ring)
    (show a.x * b.y + a.y * b.x = b.x * a.y + b.y * a.x by ring)

instance instField : Field Vec2d where
  __ := instCommRing
  exists_pair_ne := ⟨0, 1, fun h => zero_ne_one (congrArg Vec2d.x h)⟩
  inv_zero := Vec2d.ext (show (0 : ℚ) / (0 * 0 + 0 * 0) = 0 by norm_num)
    (show -(0 : ℚ) / (0 * 0 + 0 * 0) = 0 by norm_num)
  mul_inv_cancel a ha := by
    have hn : a.x * a.x + a.y * a.y ≠ 0 := fun h => ha (Vec2d.ext
      (show a.x = 0 by nlinarith [mul_self_nonneg a.x, mul_self_nonneg a.y])
      (show a.y = 0 by nlinarith [mul_self_nonneg a.x, mul_self_nonneg a.y]))
    exact Vec2d.ext
      (show a.x * (a.x / (a.x * a.x + a.y * a.y)) - a.y * (-a.y / (a.x * a.x + a.y * a.y)) = 1
        by field_simp)
      (show a.x * (-a.y / (a.x * a.x + a.y * a.y)) + a.y * (a.x / (a.x * a.x + a.y * a.y)) = 0
        by field_simp; ring)
  nnqsmul := _
  nnqsmul_def := fun _ _ => rfl
  qsmul := _
  qsmul_def := fun _ _ => rfl

end Vec2d

/-- The matrix a buffer of row length `s` holds: entry `(r, c)` is `A[r*s+c]`. -/
def cells (A : Buf) (s : Nat) : Nat → Nat → Vec2d := fun r c => ent A (r * s + c)

/-- Rows `i` and `pr` exchanged. -/
def swapM (i pr : Nat) (M : Nat → Nat → Vec2d) : Nat → Nat → Vec2d :=
  fun r c => if r = i then M pr c else if r = pr then M i c else M r c

/-- Row `i` multiplied by `p`. -/
def scaleM (i : Nat) (p : Vec2d) (M : Nat → Nat → Vec2d) : Nat → Nat → Vec2d :=
  fun r c => if r = i then M i c * p else M r c

/-- Row `i` times the entry in column `i` taken off every other row below `n`. -/
def elimM (n i : Nat) (M : Nat → Nat → Vec2d) : Nat → Nat → Vec2d :=
  fun r c => if r < n ∧ r ≠ i then M r c - M r i * M i c else M r c

/-- One completed step: exchange rows `i` and `pr`, scale row `i` by the
reciprocal of the pivot, eliminate column `i`. -/
def stepM (n i pr : Nat) (M : Nat → Nat → Vec2d) : Nat → Nat → Vec2d :=
  elimM n i (scaleM i (swapM i pr M i i)⁻¹ (swapM i pr M))

/-- Columns `0 .. k-1` of the first `n` rows are unit columns. -/
def UnitCols (n k : Nat) (M : Nat → Nat → Vec2d) : Prop :=
  ∀ c, c < k → ∀ r, r < n → M r c = if r = c then 1 else 0

/-- The vector `y` solves the system whose right-hand side is column `col`. -/
def Sat (n : Nat) (M : Nat → Nat → Vec2d) (col : Nat) (y : Nat → Vec2d) : Prop :=
  ∀ r, r < n → ∑ c ∈ Finset.range n, M r c * y c = M r col

/-- Two matrices agree on the first `n` rows and `s` columns. -/
def AgreeOn (n s : Nat) (M M' : Nat → Nat → Vec2d) : Prop :=
  ∀ r c, r < n → c < s → M r c = M' r c

/-- What a completed elimination leaves: the identity on the left, and on the
right a block `X` with `A·X = B` for the blocks `[A|B]` it started from. -/
def Reduced (n m : Nat) (aug out : Buf) : Prop :=
  UnitCols n n (cells out (n + m)) ∧
  ∀ r j, r < n → j < m →
    ∑ c ∈ Finset.range n, cells aug (n + m) r c * cells out (n + m) c (n + j) =
      cells aug (n + m) r (n + j)

/-- The `n × n` matrix a buffer holds in row-major order. -/
def toMatrix (n : Nat) (A : Buf) : Matrix (Fin n) (Fin n) Vec2d :=
  Matrix.of fun i j => ent A (i.val * n + j.val)

/-- The column of the wide buffer that column `c` of the one-column buffer
stands for: a coefficient column is itself, column `n` is column `n + j`. -/
def colMap (n j c : Nat) : Nat := if c < n then c else n + j

/-- The one-column buffer `augj` holds the coefficient block of `aug` and its
right-hand column `j`. -/
def ColumnOf (n m j : Nat) (aug augj : Buf) : Prop :=
  ∀ r c, r < n → c < n + 1 → cells augj (n + 1) r c = cells aug (n + m) r (colMap n j c)

/-- The vector `y` is in the kernel of the coefficient block. -/
def Ker (n : Nat) (M : Nat → Nat → Vec2d) (y : Nat → Vec2d) : Prop :=
  ∀ r, r < n → ∑ c ∈ Finset.range n, M r c * y c = 0

/-- The coefficient block has a trivial kernel. -/
def Inj (n : Nat) (M : Nat → Nat → Vec2d) : Prop :=
  ∀ y, Ker n M y → ∀ c, c < n → y c = 0

/-- Each row of the coefficient block is the combination of the rows of `a`
whose coefficients are the right block of that row: `L = R·a`. -/
def RowComb (n : Nat) (a M : Nat → Nat → Vec2d) : Prop :=
  ∀ r c, r < n → c < n → ∑ j ∈ Finset.range n, M r (n + j) * a j c = M r c

/-! ## Complex values -/

namespace Vec2d

theorem ext_iff2 (a b : Vec2d) : a = b ↔ a.x = b.x ∧ a.y = b.y := by
  cases a; cases b; simp

@[simp] theorem zero_x : (0 : Vec2d).x = 0 := rfl
@[simp] theorem zero_y : (0 : Vec2d).y = 0 := rfl
@[simp] theorem one_x : (1 : Vec2d).x = 1 := rfl
@[simp] theorem one_y : (1 : Vec2d).y = 0 := rfl
@[simp] theorem add_x (a b : Vec2d) : (a + b).x = a.x + b.x := rfl
@[simp] theorem add_y (a b : Vec2d) : (a + b).y = a.y + b.y := rfl
@[simp] theorem neg_x (a : Vec2d) : (-a).x = -a.x := rfl
@[simp] theorem neg_y (a : Vec2d) : (-a).y = -a.y := rfl
@[simp] theorem sub_x (a b : Vec2d) : (a - b).x = a.x - b.x := rfl
@[simp] theorem sub_y (a b : Vec2d) : (a - b).y = a.y - b.y := rfl
@[simp] theorem mul_x (a b : Vec2d) : (a * b).x = a.x * b.x - a.y * b.y := rfl
@[simp] theorem mul_y (a b : Vec2d) : (a * b).y = a.x * b.y + a.y * b.x := rfl
@[simp] theorem inv_x (a : Vec2d) : (a⁻¹).x = a.x / (a.x * a.x + a.y * a.y) := rfl
@[simp] theorem inv_y (a : Vec2d) : (a⁻¹).y = -a.y / (a.x * a.x + a.y * a.y) := rfl

theorem norm_nonneg (a : Vec2d) : 0 ≤ a.norm := by
  simp only [norm]
  nlinarith [mul_self_nonneg a.x, mul_self_nonneg a.y]

theorem norm_eq_zero_iff (a : Vec2d) : a.norm = 0 ↔ a = 0 := by
  rw [ext_iff2]
  simp only [norm, zero_x, zero_y]
  constructor
  · intro h
    constructor <;> nlinarith [mul_self_nonneg a.x, mul_self_nonneg a.y]
  · rintro ⟨h1, h2⟩; simp [h1, h2]

theorem add_def (a b : Vec2d) : Vec2d.add a b = a + b := rfl
theorem sub_def (a b : Vec2d) : Vec2d.sub a b = a - b := rfl
theorem mul_def (a b : Vec2d) : Vec2d.set_mul_cmplx a b = a * b := rfl
theorem zero_def : (⟨0, 0⟩ : Vec2d) = 0 := rfl
theorem one_def : (⟨1, 0⟩ : Vec2d) = 1 := rfl

/-- The reciprocal computed at lines 99-100 is the inverse of the field. -/
theorem pivot_inv_def (p : Vec2d) :
    (⟨p.x / (p.x * p.x + p.y * p.y), -p.y / (p.x * p.x + p.y * p.y)⟩ : Vec2d) = p⁻¹ := rfl

end Vec2d

/-! ## Reads, writes and loops -/

theorem rd_eq {A : Buf} {k : Nat} (h : k < A.length) : rd A k = some (ent A k) := by
  simp [rd, ent, List.getElem?_eq_getElem h]

theorem wr_eq {A : Buf} {k : Nat} (h : k < A.length) (v : Vec2d) :
    wr A k v = some (A.set k v) := by
  simp [wr, h]

theorem ent_set {A : Buf} {k : Nat} (h : k < A.length) (v : Vec2d) (j : Nat) :
    ent (A.set k v) j = if j = k then v else ent A j := by
  unfold ent
  by_cases hj : j = k
  · subst hj; simp [h]
  · have : k ≠ j := fun e => hj e.symm
    simp [hj, List.getElem?_set_ne this]

/-- The invariant rule for a loop: an invariant that holds at the start, that
every iteration re-establishes (returning a state), gives the final state. -/
theorem forRange_rule {σ : Type} (P : Nat → σ → Prop) {body : Nat → σ → Option σ}
    {count start : Nat} {s : σ} {Q : σ → Prop}
    (h0 : P start s)
    (hstep : ∀ j t, start ≤ j → j < start + count → P j t →
      ∃ t', body j t = some t' ∧ P (j + 1) t')
    (hQ : ∀ t, P (start + count) t → Q t) :
    ∃ t, forRange body count start s = some t ∧ Q t := by
  induction count generalizing start s with
  | zero => exact ⟨s, rfl, hQ s (by simpa using h0)⟩
  | succ c ih =>
    obtain ⟨t', ht', hP⟩ := hstep start s (le_refl _) (by omega) h0
    have := ih hP
      (fun j t hj hj2 hPj => hstep j t (by omega) (by omega) hPj)
      (fun t hPt => hQ t (by
        have e : start + 1 + c = start + (c + 1) := by omega
        rw [← e]; exact hPt))
    obtain ⟨t, ht, hQt⟩ := this
    exact ⟨t, by simp [forRange, ht', ht], hQt⟩

theorem idx_inj {s c c' : Nat} (r r' : Nat) (hc : c < s) (hc' : c' < s) :
    r * s + c = r' * s + c' ↔ r = r' ∧ c = c' := by
  constructor
  · intro h
    have h1 : (r * s + c) / s = (r' * s + c') / s := by rw [h]
    have h2 : (r * s + c) % s = (r' * s + c') % s := by rw [h]
    have hs : 0 < s := by omega
    rw [Nat.mul_comm r s, Nat.mul_comm r' s, Nat.mul_add_div hs, Nat.mul_add_div hs,
      Nat.div_eq_of_lt hc, Nat.div_eq_of_lt hc'] at h1
    rw [Nat.mul_comm r s, Nat.mul_comm r' s, Nat.mul_add_mod, Nat.mul_add_mod,
      Nat.mod_eq_of_lt hc, Nat.mod_eq_of_lt hc'] at h2
    exact ⟨by omega, h2⟩
  · rintro ⟨rfl, rfl⟩; rfl

theorem idx_lt {n s r c : Nat} (hr : r < n) (hc : c < s) : r * s + c < n * s := by
  have : (r + 1) * s ≤ n * s := Nat.mul_le_mul_right s hr
  have e : (r + 1) * s = r * s + s := by ring
  omega

/-! ## The matrix product -/

theorem ent_set2 {A : Buf} {s r0 c0 : Nat} (h : r0 * s + c0 < A.length) (hc0 : c0 < s)
    (v : Vec2d) (r c : Nat) (hc : c < s) :
    ent (A.set (r0 * s + c0) v) (r * s + c) = if r = r0 ∧ c = c0 then v else ent A (r * s + c) := by
  rw [ent_set h]
  simp only [idx_inj r r0 hc hc0]

theorem dot_loop (A B : Buf) (n k m i j : Nat) (hA : n * k ≤ A.length) (hB : k * m ≤ B.length)
    (hi : i < n) (hj : j < m) :
    ∃ t, forRange (fun p sum => do
        let a ← rd A (i * k + p)
        let b ← rd B (p * m + j)
        let prod := Vec2d.set_mul_cmplx a b
        some (Vec2d.add sum prod)) k 0 ⟨0, 0⟩ = some t ∧
      t = ∑ p ∈ Finset.range k, Vec2d.set_mul_cmplx (ent A (i * k + p)) (ent B (p * m + j)) := by
  refine forRange_rule
    (fun p (sum : Vec2d) =>
      sum = ∑ q ∈ Finset.range p, Vec2d.set_mul_cmplx (ent A (i * k + q)) (ent B (q * m + j)))
    ?_ ?_ ?_
  · simp; rfl
  · intro p t _ hp hP
    have h1 : i * k + p < A.length := lt_of_lt_of_le (idx_lt hi (by omega)) hA
    have h2 : p * m + j < B.length := lt_of_lt_of_le (idx_lt (by omega) hj) hB
    refine ⟨_, by simp only [rd_eq h1, rd_eq h2, Option.bind_eq_bind, Option.some_bind]; rfl, ?_⟩
    dsimp only at hP ⊢
    rw [Finset.sum_range_succ, ← hP, Vec2d.add_def]
  · intro t h; simpa using h

theorem multiply_spec (n k m : Nat) (A B C : Buf)
    (hA : n * k ≤ A.length) (hB : k * m ≤ B.length) (hC : n * m ≤ C.length) :
    ∃ C', multiply_complex_matrices n k m A B C = some C' ∧ C'.length = C.length ∧
      ∀ i j, i < n → j < m → ent C' (i * m + j) =
        ∑ p ∈ Finset.range k, Vec2d.set_mul_cmplx (ent A (i * k + p)) (ent B (p * m + j)) := by
  unfold multiply_complex_matrices
  refine forRange_rule
    (fun i' (D : Buf) => D.length = C.length ∧ ∀ i j, i < i' → j < m → ent D (i * m + j) =
        ∑ p ∈ Finset.range k, Vec2d.set_mul_cmplx (ent A (i * k + p)) (ent B (p * m + j)))
    ?_ ?_ ?_
  · exact ⟨rfl, fun i j hi => absurd hi (Nat.not_lt_zero _)⟩
  · intro i D _ hi hP
    dsimp only at hP ⊢
    obtain ⟨hlen, hD⟩ := hP
    refine forRange_rule
      (fun j' (E : Buf) => E.length = C.length ∧ ∀ r c, c < m → ent E (r * m + c) =
        if r = i ∧ c < j' then
          ∑ p ∈ Finset.range k, Vec2d.set_mul_cmplx (ent A (i * k + p)) (ent B (p * m + c))
        else ent D (r * m + c))
      ?_ ?_ ?_
    · exact ⟨hlen, fun r c _ => by simp⟩
    · intro j E _ hj hP
      dsimp only at hP ⊢
      obtain ⟨hlenE, hE⟩ := hP
      obtain ⟨t, ht, hsum⟩ := dot_loop A B n k m i j hA hB (by omega) (by omega)
      have h3 : i * m + j < E.length := by
        rw [hlenE]; exact lt_of_lt_of_le (idx_lt (by omega) (by omega)) hC
      refine ⟨E.set (i * m + j) t, ?_, ?_, ?_⟩
      · rw [ht]; simp only [Option.bind_eq_bind, Option.some_bind, wr_eq h3]
      · simp [hlenE]
      · intro r c hc
        rw [ent_set2 h3 (by omega) t r c hc, hE r c hc, hsum]
        by_cases h1 : r = i
        · by_cases h2 : c = j
          · subst h1 h2; simp
          · have : c < j + 1 ↔ c < j := by omega
            simp [h1, h2, this]
        · simp [h1]
    · intro E hP
      dsimp only at hP ⊢
      obtain ⟨hlenE, hE⟩ := hP
      refine ⟨hlenE, ?_⟩
      intro r c hr hc
      rw [hE r c hc]
      by_cases h : r = i
      · subst h; simp [hc]
      · have : r < i := by omega
        simp [h, hD r c this hc]
  · intro D hP
    dsimp only at hP ⊢
    exact ⟨hP.1, fun i j hi hj => hP.2 i j (by omega) hj⟩


/-! ## The helpers of the eliminator -/

theorem row_le {n s r : Nat} (hr : r < n) : r * s ≤ (n - 1) * s :=
  Nat.mul_le_mul_right s (by omega)

theorem find_pivot_spec (n i s : Nat) (A : Buf) (hi : i < n) (hlen : (n - 1) * s + i < A.length) :
    ∃ pr, find_pivot_partial n i A s = some (pr, i) ∧ i ≤ pr ∧ pr < n ∧
      (∀ r, i ≤ r → r < n → (ent A (r * s + i)).norm ≤ (ent A (pr * s + i)).norm) ∧
      (∀ r, i ≤ r → r < pr → (ent A (r * s + i)).norm < (ent A (pr * s + i)).norm) := by
  have hb : ∀ r, r < n → r * s + i < A.length := fun r hr => by
    have := @row_le n s r hr
    omega
  unfold find_pivot_partial
  rw [rd_eq (hb i hi)]
  simp only [Option.bind_eq_bind, Option.some_bind]
  have key : ∃ st, forRange (fun r (st : Nat × ℚ) => (rd A (r * s + i)).bind fun a =>
        if a.norm > st.2 then some (r, a.norm) else some st) (n - i) i (i, (ent A (i * s + i)).norm)
        = some st ∧
      (i ≤ st.1 ∧ st.1 < n ∧
      (∀ r, i ≤ r → r < n → (ent A (r * s + i)).norm ≤ (ent A (st.1 * s + i)).norm) ∧
      (∀ r, i ≤ r → r < st.1 → (ent A (r * s + i)).norm < (ent A (st.1 * s + i)).norm)) := by
    refine forRange_rule
      (fun r (st : Nat × ℚ) => i ≤ st.1 ∧ (st.1 = i ∨ st.1 < r) ∧
        st.2 = (ent A (st.1 * s + i)).norm ∧
        (∀ r', i ≤ r' → r' < r → (ent A (r' * s + i)).norm ≤ st.2) ∧
        (∀ r', i ≤ r' → r' < st.1 → (ent A (r' * s + i)).norm < st.2))
      ?_ ?_ ?_
    · exact ⟨le_refl _, Or.inl rfl, rfl, fun r' h1 h2 => by omega, fun r' h1 h2 => by
        simp only at h2; omega⟩
    · intro r st hr1 hr2 hP
      dsimp only at hP ⊢
      obtain ⟨h1, h2, h3, h4, h5⟩ := hP
      rw [rd_eq (hb r (by omega))]
      simp only [Option.some_bind]
      by_cases hv : (ent A (r * s + i)).norm > st.2
      · refine ⟨(r, (ent A (r * s + i)).norm), by simp [hv], hr1, Or.inr (by simp), rfl, ?_, ?_⟩
        · intro r' h6 h7
          simp only
          rcases Nat.lt_succ_iff_lt_or_eq.1 h7 with h8 | h8
          · exact le_of_lt (lt_of_le_of_lt (h4 r' h6 h8) hv)
          · rw [h8]
        · intro r' h6 h7
          exact lt_of_le_of_lt (h4 r' h6 h7) hv
      · refine ⟨st, by simp [hv], h1, ?_, h3, ?_, h5⟩
        · rcases h2 with h2 | h2
          · exact Or.inl h2
          · exact Or.inr (by omega)
        · intro r' h6 h7
          rcases Nat.lt_succ_iff_lt_or_eq.1 h7 with h8 | h8
          · exact h4 r' h6 h8
          · rw [h8]; exact not_lt.1 hv
    · intro st hP
      dsimp only at hP ⊢
      obtain ⟨h1, h2, h3, h4, h5⟩ := hP
      refine ⟨h1, by omega, ?_, ?_⟩
      · intro r h6 h7
        rw [← h3]; exact h4 r h6 (by omega)
      · intro r h6 h7
        rw [← h3]; exact h5 r h6 h7
  obtain ⟨st, hst, hP⟩ := key
  exact ⟨st.1, by rw [hst]; rfl, hP⟩

theorem swap_rows_spec (n r1 r2 s : Nat) (A : Buf) (h1 : r1 < n) (h2 : r2 < n)
    (hlen : n * s ≤ A.length) :
    ∃ A', swap_rows n r1 r2 A s = some A' ∧ A'.length = A.length ∧
      ∀ r c, c < s → ent A' (r * s + c) =
        if r = r1 then ent A (r2 * s + c) else if r = r2 then ent A (r1 * s + c)
        else ent A (r * s + c) := by
  unfold swap_rows
  refine forRange_rule
    (fun j (D : Buf) => D.length = A.length ∧ ∀ r c, c < s → ent D (r * s + c) =
      if c < j then
        (if r = r1 then ent A (r2 * s + c) else if r = r2 then ent A (r1 * s + c)
          else ent A (r * s + c))
      else ent A (r * s + c))
    ?_ ?_ ?_
  · exact ⟨rfl, fun r c _ => by simp⟩
  · intro j D _ hj hP
    dsimp only at hP ⊢
    obtain ⟨hl, hD⟩ := hP
    have hj' : j < s := by omega
    have b1 : r1 * s + j < D.length := by rw [hl]; exact lt_of_lt_of_le (idx_lt h1 hj') hlen
    have b2 : r2 * s + j < D.length := by rw [hl]; exact lt_of_lt_of_le (idx_lt h2 hj') hlen
    have b2' : r2 * s + j < (D.set (r1 * s + j) (ent D (r2 * s + j))).length := by simpa using b2
    refine ⟨(D.set (r1 * s + j) (ent D (r2 * s + j))).set (r2 * s + j) (ent D (r1 * s + j)),
      by simp only [rd_eq b1, rd_eq b2, Option.bind_eq_bind, Option.some_bind,
        wr_eq b1, wr_eq b2'], by simp [hl], ?_⟩
    intro r c hc
    rw [ent_set2 b2' hj' _ r c hc, ent_set2 b1 hj' _ r c hc, hD r c hc, hD r1 j hj', hD r2 j hj']
    by_cases e : c = j
    · subst e
      by_cases e1 : r = r1
      · by_cases e2 : r = r2
        · simp [e1, e2]; simp [← e1, ← e2]
        · subst e1; simp [e2]
      · by_cases e2 : r = r2
        · subst e2; simp [e1]
        · simp [e1, e2]
    · have : c < j + 1 ↔ c < j := by omega
      simp [e, this]
  · intro D hP
    dsimp only at hP ⊢
    exact ⟨hP.1, fun r c hc => by rw [hP.2 r c hc]; simp [hc]⟩


theorem zero_fill_spec (n i s : Nat) (A : Buf) (hi : i ≤ n) (hlen : n * s ≤ A.length) :
    ∃ A', zero_fill n i s A = some A' ∧ A'.length = A.length ∧
      ∀ r c, c < s → ent A' (r * s + c) =
        if i ≤ r ∧ r < n then 0 else ent A (r * s + c) := by
  unfold zero_fill
  refine forRange_rule
    (fun r' (D : Buf) => D.length = A.length ∧ ∀ r c, c < s → ent D (r * s + c) =
      if i ≤ r ∧ r < r' then 0 else ent A (r * s + c))
    ?_ ?_ ?_
  · exact ⟨rfl, fun r c _ => by
      have : ¬ (i ≤ r ∧ r < i) := by omega
      simp [this]⟩
  · intro r' D hr1 hr2 hP
    dsimp only at hP ⊢
    obtain ⟨hl, hD⟩ := hP
    refine forRange_rule
      (fun c' (E : Buf) => E.length = A.length ∧ ∀ r c, c < s → ent E (r * s + c) =
        if r = r' ∧ c < c' then 0 else ent D (r * s + c))
      ?_ ?_ ?_
    · exact ⟨hl, fun r c _ => by simp⟩
    · intro c' E _ hc' hP
      dsimp only at hP ⊢
      obtain ⟨hlE, hE⟩ := hP
      have hc2 : c' < s := by omega
      have b : r' * s + c' < E.length := by
        rw [hlE]; exact lt_of_lt_of_le (idx_lt (by omega) hc2) hlen
      refine ⟨E.set (r' * s + c') ⟨0, 0⟩, wr_eq b _, by simp [hlE], ?_⟩
      intro r c hc
      rw [ent_set2 b hc2 _ r c hc, hE r c hc]
      by_cases e1 : r = r'
      · by_cases e2 : c = c'
        · subst e1 e2; simp; rfl
        · have : c < c' + 1 ↔ c < c' := by omega
          simp [e1, e2, this]
      · simp [e1]
    · intro E hP
      dsimp only at hP ⊢
      obtain ⟨hlE, hE⟩ := hP
      refine ⟨hlE, fun r c hc => ?_⟩
      rw [hE r c hc, hD r c hc]
      by_cases e1 : r = r'
      · subst e1
        have : i ≤ r ∧ r < r + 1 := ⟨hr1, by omega⟩
        simp [hc, this]
      · have : (i ≤ r ∧ r < r' + 1) ↔ (i ≤ r ∧ r < r') := by omega
        simp [e1, this]
  · intro D hP
    dsimp only at hP ⊢
    refine ⟨hP.1, fun r c hc => ?_⟩
    rw [hP.2 r c hc]
    have : (i ≤ r ∧ r < i + (n - i)) ↔ (i ≤ r ∧ r < n) := by omega
    simp [this]

theorem scale_row_spec (n i s : Nat) (p : Vec2d) (A : Buf) (hi : i < n) (hlen : n * s ≤ A.length) :
    ∃ A', scale_row i s p A = some A' ∧ A'.length = A.length ∧
      ∀ r c, c < s → ent A' (r * s + c) =
        if r = i then ent A (i * s + c) * p else ent A (r * s + c) := by
  unfold scale_row
  refine forRange_rule
    (fun j (D : Buf) => D.length = A.length ∧ ∀ r c, c < s → ent D (r * s + c) =
      if r = i ∧ c < j then ent A (i * s + c) * p else ent A (r * s + c))
    ?_ ?_ ?_
  · exact ⟨rfl, fun r c _ => by simp⟩
  · intro j D _ hj hP
    dsimp only at hP ⊢
    obtain ⟨hl, hD⟩ := hP
    have hj' : j < s := by omega
    have b : i * s + j < D.length := by rw [hl]; exact lt_of_lt_of_le (idx_lt hi hj') hlen
    refine ⟨D.set (i * s + j) (Vec2d.set_mul_cmplx (ent D (i * s + j)) p),
      by simp only [rd_eq b, Option.bind_eq_bind, Option.some_bind, wr_eq b], by simp [hl], ?_⟩
    intro r c hc
    rw [ent_set2 b hj' _ r c hc, hD r c hc, hD i j hj', Vec2d.mul_def]
    by_cases e1 : r = i
    · by_cases e2 : c = j
      · subst e1 e2; simp
      · have : c < j + 1 ↔ c < j := by omega
        simp [e1, e2, this]
    · simp [e1]
  · intro D hP
    dsimp only at hP ⊢
    exact ⟨hP.1, fun r c hc => by rw [hP.2 r c hc]; simp [hc]⟩

theorem eliminate_column_spec (n i s : Nat) (A : Buf) (hi : i < n) (his : i < s)
    (hlen : n * s ≤ A.length) :
    ∃ A', eliminate_column n i s A = some A' ∧ A'.length = A.length ∧
      ∀ r c, c < s → ent A' (r * s + c) =
        if r < n ∧ r ≠ i then ent A (r * s + c) - ent A (r * s + i) * ent A (i * s + c)
        else ent A (r * s + c) := by
  unfold eliminate_column
  refine forRange_rule
    (fun j (D : Buf) => D.length = A.length ∧ ∀ r c, c < s → ent D (r * s + c) =
      if r < j ∧ r ≠ i then ent A (r * s + c) - ent A (r * s + i) * ent A (i * s + c)
      else ent A (r * s + c))
    ?_ ?_ ?_
  · exact ⟨rfl, fun r c _ => by simp⟩
  · intro j D _ hj hP
    dsimp only at hP ⊢
    obtain ⟨hl, hD⟩ := hP
    have hj' : j < n := by omega
    by_cases hji : j = i
    · subst hji
      refine ⟨D, by simp, hl, fun r c hc => ?_⟩
      rw [hD r c hc]
      have : (r < j + 1 ∧ r ≠ j) ↔ (r < j ∧ r ≠ j) := by omega
      simp only [this]
    · have bf : j * s + i < D.length := by rw [hl]; exact lt_of_lt_of_le (idx_lt hj' his) hlen
      simp only [ne_eq, hji, not_false_eq_true, if_true, rd_eq bf, Option.bind_eq_bind,
        Option.some_bind]
      have hf : ent D (j * s + i) = ent A (j * s + i) := by
        rw [hD j i his]; simp
      refine forRange_rule
        (fun k (E : Buf) => E.length = A.length ∧ ∀ r c, c < s → ent E (r * s + c) =
          if r = j ∧ c < k then ent A (r * s + c) - ent A (r * s + i) * ent A (i * s + c)
          else ent D (r * s + c))
        ?_ ?_ ?_
      · exact ⟨hl, fun r c _ => by simp⟩
      · intro k E _ hk hP
        dsimp only at hP ⊢
        obtain ⟨hlE, hE⟩ := hP
        have hk' : k < s := by omega
        have b1 : i * s + k < E.length := by rw [hlE]; exact lt_of_lt_of_le (idx_lt hi hk') hlen
        have b2 : j * s + k < E.length := by rw [hlE]; exact lt_of_lt_of_le (idx_lt hj' hk') hlen
        refine ⟨E.set (j * s + k) (Vec2d.sub (ent E (j * s + k))
            (Vec2d.set_mul_cmplx (ent D (j * s + i)) (ent E (i * s + k)))),
          by simp only [rd_eq b1, rd_eq b2, Option.bind_eq_bind, Option.some_bind, wr_eq b2],
          by simp [hlE], ?_⟩
        intro r c hc
        rw [ent_set2 b2 hk' _ r c hc, hE r c hc, hE j k hk', hE i k hk', hf, Vec2d.mul_def,
          Vec2d.sub_def, hD j k hk', hD i k hk']
        have hij : ¬ (i = j) := fun e => hji e.symm
        by_cases e1 : r = j
        · by_cases e2 : c = k
          · subst e1 e2; simp [hij]
          · have : c < k + 1 ↔ c < k := by omega
            simp [e1, e2, this]
        · simp [e1]
      · intro E hP
        dsimp only at hP ⊢
        obtain ⟨hlE, hE⟩ := hP
        refine ⟨hlE, fun r c hc => ?_⟩
        rw [hE r c hc, hD r c hc]
        by_cases e1 : r = j
        · subst e1; simp [hc, hji]
        · have : (r < j + 1 ∧ r ≠ i) ↔ (r < j ∧ r ≠ i) := by omega
          simp only [this]; simp [e1]
  · intro D hP
    dsimp only at hP ⊢
    exact ⟨hP.1, fun r c hc => by rw [hP.2 r c hc]; simp⟩


/-! ## Row operations on matrices -/

theorem Sat_congr {n s col : Nat} {M M' : Nat → Nat → Vec2d} {y : Nat → Vec2d}
    (h : AgreeOn n s M M') (hns : n ≤ s) (hcol : col < s) (hS : Sat n M col y) :
    Sat n M' col y := by
  intro r hr
  rw [← h r col hr hcol, ← hS r hr]
  refine Finset.sum_congr rfl fun c hc => ?_
  rw [h r c hr (lt_of_lt_of_le (Finset.mem_range.1 hc) hns)]

theorem UnitCols_congr {n s k : Nat} {M M' : Nat → Nat → Vec2d}
    (h : AgreeOn n s M M') (hks : k ≤ s) (hU : UnitCols n k M) : UnitCols n k M' := by
  intro c hc r hr
  rw [← h r c hr (by omega)]; exact hU c hc r hr

theorem Sat_swapM {n i pr col : Nat} {M : Nat → Nat → Vec2d} {y : Nat → Vec2d}
    (hi : i < n) (hpr : pr < n) (hS : Sat n (swapM i pr M) col y) : Sat n M col y := by
  intro r hr
  by_cases e1 : r = i
  · subst e1
    have := hS pr hpr
    by_cases e2 : pr = r
    · subst e2; simpa [swapM] using this
    · simpa [swapM, e2] using this
  · by_cases e2 : r = pr
    · subst e2
      have := hS i hi
      simpa [swapM] using this
    · have := hS r hr
      simpa [swapM, e1, e2] using this

theorem Sat_scaleM {n i col : Nat} {p : Vec2d} {M : Nat → Nat → Vec2d} {y : Nat → Vec2d}
    (hp : p ≠ 0) (hS : Sat n (scaleM i p⁻¹ M) col y) : Sat n M col y := by
  intro r hr
  have := hS r hr
  by_cases e1 : r = i
  · subst e1
    simp only [scaleM, if_true] at this
    have h2 : ∑ c ∈ Finset.range n, M r c * y c =
        p * ∑ c ∈ Finset.range n, M r c * p⁻¹ * y c := by
      rw [Finset.mul_sum]
      refine Finset.sum_congr rfl fun c _ => ?_
      field_simp
    rw [h2, this]; field_simp
  · simpa [scaleM, e1] using this

theorem Sat_elimM {n i col : Nat} {M : Nat → Nat → Vec2d} {y : Nat → Vec2d}
    (hi : i < n) (hS : Sat n (elimM n i M) col y) : Sat n M col y := by
  have hrow : ∑ c ∈ Finset.range n, M i c * y c = M i col := by
    have := hS i hi
    simpa [elimM] using this
  intro r hr
  by_cases e1 : r = i
  · subst e1; exact hrow
  · have := hS r hr
    simp only [elimM, hr, e1, ne_eq, not_false_eq_true, and_self, if_true] at this
    have h2 : ∑ c ∈ Finset.range n, M r c * y c =
        ∑ c ∈ Finset.range n, (M r c - M r i * M i c) * y c +
          M r i * ∑ c ∈ Finset.range n, M i c * y c := by
      rw [Finset.mul_sum, ← Finset.sum_add_distrib]
      refine Finset.sum_congr rfl fun c _ => ?_
      ring
    rw [h2, this, hrow]; ring

theorem Sat_stepM {n i pr col : Nat} {M : Nat → Nat → Vec2d} {y : Nat → Vec2d}
    (hi : i < n) (hpr : pr < n) (hp : swapM i pr M i i ≠ 0)
    (hS : Sat n (stepM n i pr M) col y) : Sat n M col y :=
  Sat_swapM hi hpr (Sat_scaleM hp (Sat_elimM hi hS))

theorem UnitCols_stepM {n i pr : Nat} {M : Nat → Nat → Vec2d}
    (hi : i < n) (hpr1 : i ≤ pr) (hpr : pr < n) (hp : swapM i pr M i i ≠ 0)
    (hU : UnitCols n i M) : UnitCols n (i + 1) (stepM n i pr M) := by
  have h1 : UnitCols n i (swapM i pr M) := by
    intro c hc r hr
    simp only [swapM]
    by_cases e1 : r = i
    · subst e1
      rw [if_pos rfl, hU c hc pr hpr]
      have a1 : pr ≠ c := by omega
      have a2 : r ≠ c := by omega
      simp [a1, a2]
    · by_cases e2 : r = pr
      · subst e2
        rw [if_neg e1, if_pos rfl, hU c hc i hi]
        have a1 : i ≠ c := by omega
        have a2 : r ≠ c := by omega
        simp [a1, a2]
      · rw [if_neg e1, if_neg e2, hU c hc r hr]
  intro c hc r hr
  simp only [stepM]
  generalize swapM i pr M = M1 at hp h1 ⊢
  have hii : M1 i i * (M1 i i)⁻¹ = 1 := mul_inv_cancel₀ hp
  rcases Nat.lt_succ_iff_lt_or_eq.1 hc with hc' | hc'
  · have hic : M1 i c = 0 := by
      rw [h1 c hc' i hi]
      have : i ≠ c := by omega
      simp [this]
    by_cases e1 : r = i
    · subst e1
      have : r ≠ c := by omega
      simp [elimM, scaleM, hic, this]
    · simp [elimM, scaleM, e1, hr, hic, h1 c hc' r hr]
  · subst hc'
    by_cases e1 : r = c
    · subst e1
      simp [elimM, scaleM, hii]
    · simp [elimM, scaleM, e1, hr, hii]


/-! ## One step of the eliminator -/

theorem pivot_swap_spec (n i pr s : Nat) (aug : Buf) (hi : i < n) (hpr : pr < n)
    (hlen : n * s ≤ aug.length) :
    ∃ aug1, (if pr ≠ i then swap_rows n i pr aug s else some aug) = some aug1 ∧
      aug1.length = aug.length ∧
      ∀ r c, c < s → ent aug1 (r * s + c) = swapM i pr (cells aug s) r c := by
  by_cases e : pr = i
  · subst e
    refine ⟨aug, by simp, rfl, fun r c _ => ?_⟩
    simp only [swapM, cells]
    by_cases e1 : r = pr
    · simp [e1]
    · simp [e1]
  · obtain ⟨aug1, h1, h2, h3⟩ := swap_rows_spec n i pr s aug hi hpr hlen
    exact ⟨aug1, by simp [e, h1], h2, fun r c hc => by rw [h3 r c hc]; rfl⟩

theorem step_tail_spec (n m i : Nat) (aug1 : Buf) (thr : ℚ) (hi : i < n)
    (hlen : n * (n + m) ≤ aug1.length) :
    ∃ aug', aug'.length = aug1.length ∧
      (((cells aug1 (n + m) i i).norm < thr →
        gauss_jordan_step_unpivoted n m i aug1 thr = some (aug', true) ∧
        ∀ r c, c < n + m → ent aug' (r * (n + m) + c) =
          if i ≤ r ∧ r < n then 0 else cells aug1 (n + m) r c) ∧
      (¬ (cells aug1 (n + m) i i).norm < thr →
        gauss_jordan_step_unpivoted n m i aug1 thr = some (aug', false) ∧
        ∀ r c, c < n + m → ent aug' (r * (n + m) + c) =
          elimM n i (scaleM i (cells aug1 (n + m) i i)⁻¹ (cells aug1 (n + m))) r c)) := by
  have his : i < n + m := by omega
  have b : i * (n + m) + i < aug1.length := lt_of_lt_of_le (idx_lt hi his) hlen
  unfold gauss_jordan_step_unpivoted
  simp only [rd_eq b, Option.bind_eq_bind, Option.some_bind]
  by_cases hs : (cells aug1 (n + m) i i).norm < thr
  · obtain ⟨aug', h1, h2, h3⟩ := zero_fill_spec n i (n + m) aug1 (le_of_lt hi) hlen
    refine ⟨aug', h2, fun _ => ⟨?_, fun r c hc => by rw [h3 r c hc]; rfl⟩,
      fun h => absurd hs h⟩
    have hs' : (ent aug1 (i * (n + m) + i)).norm < thr := hs
    simp [hs', h1]
  · obtain ⟨aug2, h1, h2, h3⟩ :=
      scale_row_spec n i (n + m) (cells aug1 (n + m) i i)⁻¹ aug1 hi hlen
    obtain ⟨aug3, k1, k2, k3⟩ :=
      eliminate_column_spec n i (n + m) aug2 hi his (by rw [h2]; exact hlen)
    refine ⟨aug3, by rw [k2, h2], fun h => absurd h hs, fun _ => ⟨?_, fun r c hc => ?_⟩⟩
    · have hs' : ¬ (ent aug1 (i * (n + m) + i)).norm < thr := hs
      have e : (⟨(ent aug1 (i * (n + m) + i)).x /
            ((ent aug1 (i * (n + m) + i)).x * (ent aug1 (i * (n + m) + i)).x +
              (ent aug1 (i * (n + m) + i)).y * (ent aug1 (i * (n + m) + i)).y),
          -(ent aug1 (i * (n + m) + i)).y /
            ((ent aug1 (i * (n + m) + i)).x * (ent aug1 (i * (n + m) + i)).x +
              (ent aug1 (i * (n + m) + i)).y * (ent aug1 (i * (n + m) + i)).y)⟩ : Vec2d) =
          (cells aug1 (n + m) i i)⁻¹ := rfl
      simp only [hs', if_false, e, h1, Option.some_bind, k1]
    · rw [k3 r c hc]
      simp only [elimM, scaleM, cells, h3 r c hc, h3 r i his, h3 i c hc]

theorem gauss_jordan_step_eq (n m i : Nat) (aug : Buf) (thr : ℚ) (pr : Nat) (aug1 : Buf)
    (h1 : find_pivot_partial n i aug (n + m) = some (pr, i))
    (h2 : (if pr ≠ i then swap_rows n i pr aug (n + m) else some aug) = some aug1) :
    gauss_jordan_step n m i aug thr = gauss_jordan_step_unpivoted n m i aug1 thr := by
  unfold gauss_jordan_step gauss_jordan_step_unpivoted
  by_cases e : pr = i
  · simp only [e, ne_eq, not_true_eq_false, if_false, Option.some.injEq] at h2
    subst h2
    simp only [h1, Option.bind_eq_bind, Option.some_bind, e, ne_eq, not_true_eq_false,
      if_false]
  · simp only [ne_eq, e, not_false_eq_true, if_true] at h2
    simp only [h1, Option.bind_eq_bind, Option.some_bind, e, ne_eq, not_false_eq_true,
      if_true, h2]


theorem swapM_self (i : Nat) (M : Nat → Nat → Vec2d) : swapM i i M = M := by
  funext r c
  simp only [swapM]
  by_cases e : r = i
  · simp [e]
  · simp [e]

theorem swapM_above {i pr r : Nat} (M : Nat → Nat → Vec2d) (c : Nat) (h1 : r < i)
    (h2 : i ≤ pr) : swapM i pr M r c = M r c := by
  have a1 : r ≠ i := by omega
  have a2 : r ≠ pr := by omega
  simp [swapM, a1, a2]

theorem ne_zero_of_norm {p : Vec2d} {thr : ℚ} (hthr : 0 < thr) (h : ¬ p.norm < thr) :
    p ≠ 0 := by
  intro e
  apply h
  rw [(Vec2d.norm_eq_zero_iff p).2 e]
  exact hthr

/-- One pass of the loop body at step `i < n` on a buffer that holds the
`n × (n+m)` matrix: the pivot row, and the buffer the pass leaves, in its two
branches. -/
theorem gauss_jordan_step_spec (n m i : Nat) (aug : Buf) (thr : ℚ) (hi : i < n)
    (hlen : n * (n + m) ≤ aug.length) :
    ∃ pr aug', find_pivot_partial n i aug (n + m) = some (pr, i) ∧ i ≤ pr ∧ pr < n ∧
      aug'.length = aug.length ∧
      ((swapM i pr (cells aug (n + m)) i i).norm < thr →
        gauss_jordan_step n m i aug thr = some (aug', true) ∧
        ∀ r c, c < n + m → ent aug' (r * (n + m) + c) =
          if i ≤ r ∧ r < n then 0 else cells aug (n + m) r c) ∧
      (¬ (swapM i pr (cells aug (n + m)) i i).norm < thr →
        gauss_jordan_step n m i aug thr = some (aug', false) ∧
        ∀ r c, c < n + m → ent aug' (r * (n + m) + c) =
          stepM n i pr (cells aug (n + m)) r c) := by
  have his : i < n + m := by omega
  have hb : (n - 1) * (n + m) + i < aug.length :=
    lt_of_lt_of_le (idx_lt (by omega) his) hlen
  obtain ⟨pr, f1, f2, f3, _, _⟩ := find_pivot_spec n i (n + m) aug hi hb
  obtain ⟨aug1, s1, s2, s3⟩ := pivot_swap_spec n i pr (n + m) aug hi f3 hlen
  obtain ⟨aug', t1, t2, t3⟩ := step_tail_spec n m i aug1 thr hi (by rw [s2]; exact hlen)
  have hpiv : cells aug1 (n + m) i i = swapM i pr (cells aug (n + m)) i i := s3 i i his
  rw [hpiv] at t2 t3
  rw [← gauss_jordan_step_eq n m i aug thr pr aug1 f1 s1] at t2 t3
  refine ⟨pr, aug', f1, f2, f3, by rw [t1, s2], fun h => ⟨(t2 h).1, fun r c hc => ?_⟩,
    fun h => ⟨(t3 h).1, fun r c hc => ?_⟩⟩
  · rw [(t2 h).2 r c hc]
    by_cases e : i ≤ r ∧ r < n
    · simp [e]
    · have hr : r < i ∨ n ≤ r := by omega
      have a1 : r ≠ i := by omega
      have a2 : r ≠ pr := by omega
      simp only [e, if_false]
      show ent aug1 (r * (n + m) + c) = _
      rw [s3 r c hc]
      simp [swapM, a1, a2]
  · rw [(t3 h).2 r c hc]
    simp only [stepM, elimM, scaleM]
    have e1 : ∀ r c, c < n + m → cells aug1 (n + m) r c = swapM i pr (cells aug (n + m)) r c :=
      fun r c hc => s3 r c hc
    rw [e1 r c hc, e1 r i his, e1 i c hc, e1 i i his]

/-- The same for the loop body without pivoting. -/
theorem gauss_jordan_step_unpivoted_spec (n m i : Nat) (aug : Buf) (thr : ℚ) (hi : i < n)
    (hlen : n * (n + m) ≤ aug.length) :
    ∃ aug', aug'.length = aug.length ∧
      ((cells aug (n + m) i i).norm < thr →
        gauss_jordan_step_unpivoted n m i aug thr = some (aug', true)) ∧
      (¬ (cells aug (n + m) i i).norm < thr →
        gauss_jordan_step_unpivoted n m i aug thr = some (aug', false) ∧
        ∀ r c, c < n + m → ent aug' (r * (n + m) + c) =
          stepM n i i (cells aug (n + m)) r c) := by
  obtain ⟨aug', t1, t2, t3⟩ := step_tail_spec n m i aug thr hi hlen
  refine ⟨aug', t1, fun h => (t2 h).1, fun h => ⟨(t3 h).1, fun r c hc => ?_⟩⟩
  rw [(t3 h).2 r c hc, stepM, swapM_self]


/-! ## The loop over the steps -/

theorem gauss_jordan_loop_succ (n m : Nat) (thr : ℚ) (count i : Nat) (aug aug' : Buf) (b : Bool)
    (h : gauss_jordan_step n m i aug thr = some (aug', b)) :
    gauss_jordan_loop n m thr (count + 1) i aug =
      if b then some ⟨aug', some i⟩ else gauss_jordan_loop n m thr count (i + 1) aug' := by
  simp only [gauss_jordan_loop, h, Option.some_bind]

/-- The run of `count` steps from step `i` on a buffer that holds the
`n × (n+m)` matrix returns. When it completes (and the threshold is
positive), unit columns are kept and extended to all `n` columns, and every
solution of the final system solves the system it started from. When it stops
at step `k`, rows `k .. n-1` are zero and the rows above are those of the run
of the steps before `k`. -/
theorem gauss_jordan_loop_spec (n m : Nat) (thr : ℚ) :
    ∀ (count i : Nat) (aug : Buf), i + count = n → n * (n + m) ≤ aug.length →
    ∃ out, gauss_jordan_loop n m thr count i aug = some out ∧
      out.aug.length = aug.length ∧
      (0 < thr → out.singular_at = none →
        (UnitCols n i (cells aug (n + m)) → UnitCols n n (cells out.aug (n + m))) ∧
        ∀ col y, col < n + m → Sat n (cells out.aug (n + m)) col y →
          Sat n (cells aug (n + m)) col y) ∧
      (∀ k, out.singular_at = some k → i ≤ k ∧ k < n ∧
        ∃ prev, gauss_jordan_loop n m thr (k - i) i aug = some ⟨prev, none⟩ ∧
          prev.length = aug.length ∧
          (∀ r c, k ≤ r → r < n → c < n + m → ent out.aug (r * (n + m) + c) = 0) ∧
          (∀ r c, r < k → c < n + m →
            ent out.aug (r * (n + m) + c) = ent prev (r * (n + m) + c))) := by
  intro count
  induction count with
  | zero =>
    intro i aug hin hlen
    refine ⟨⟨aug, none⟩, rfl, rfl, fun _ _ => ⟨fun h => ?_, fun col y _ h => h⟩,
      fun k hk => by simp at hk⟩
    have : i = n := by omega
    subst this; exact h
  | succ count ih =>
    intro i aug hin hlen
    have hi : i < n := by omega
    obtain ⟨pr, aug', f1, f2, f3, hl, hsing, hok⟩ := gauss_jordan_step_spec n m i aug thr hi hlen
    by_cases hs : (swapM i pr (cells aug (n + m)) i i).norm < thr
    · obtain ⟨e1, e2⟩ := hsing hs
      refine ⟨⟨aug', some i⟩, ?_, hl, fun _ h => by simp at h, fun k hk => ?_⟩
      · rw [gauss_jordan_loop_succ n m thr count i aug aug' true e1]; rfl
      · simp only [Option.some.injEq] at hk
        subst hk
        refine ⟨le_refl _, hi, aug, by rw [Nat.sub_self]; rfl, rfl, fun r c h1 h2 hc => ?_,
          fun r c h1 hc => ?_⟩
        · rw [e2 r c hc]; simp [h1, h2]
        · rw [e2 r c hc]
          have : ¬ (i ≤ r ∧ r < n) := by omega
          simp [this, cells]
    · obtain ⟨e1, e2⟩ := hok hs
      obtain ⟨out, o1, o2, o3, o4⟩ := ih (i + 1) aug' (by omega) (by rw [hl]; exact hlen)
      have hag : AgreeOn n (n + m) (stepM n i pr (cells aug (n + m))) (cells aug' (n + m)) :=
        fun r c _ hc => (e2 r c hc).symm
      have hag' : AgreeOn n (n + m) (cells aug' (n + m)) (stepM n i pr (cells aug (n + m))) :=
        fun r c _ hc => e2 r c hc
      refine ⟨out, ?_, by rw [o2, hl], fun hthr hnone => ⟨fun hU => ?_, fun col y hcol hS => ?_⟩,
        fun k hk => ?_⟩
      · rw [gauss_jordan_loop_succ n m thr count i aug aug' false e1]; exact o1
      · have hp := ne_zero_of_norm hthr hs
        exact (o3 hthr hnone).1 (UnitCols_congr hag (by omega) (UnitCols_stepM hi f2 f3 hp hU))
      · have hp := ne_zero_of_norm hthr hs
        exact Sat_stepM hi f3 hp
          (Sat_congr hag' (by omega) hcol ((o3 hthr hnone).2 col y hcol hS))
      · obtain ⟨k1, k2, prev, k3, kl, k4, k5⟩ := o4 k hk
        refine ⟨by omega, k2, prev, ?_, by rw [kl, hl], k4, k5⟩
        have : k - i = (k - (i + 1)) + 1 := by omega
        rw [this, gauss_jordan_loop_succ n m thr _ i aug aug' false e1]
        exact k3


theorem gauss_jordan_loop_unpivoted_succ (n m : Nat) (thr : ℚ) (count i : Nat)
    (aug aug' : Buf) (b : Bool)
    (h : gauss_jordan_step_unpivoted n m i aug thr = some (aug', b)) :
    gauss_jordan_loop_unpivoted n m thr (count + 1) i aug =
      if b then some ⟨aug', some i⟩
      else gauss_jordan_loop_unpivoted n m thr count (i + 1) aug' := by
  simp only [gauss_jordan_loop_unpivoted, h, Option.some_bind]

/-- The run without pivoting returns as well, and when it completes under a
positive threshold it has the two properties of the pivoted run. -/
theorem gauss_jordan_loop_unpivoted_spec (n m : Nat) (thr : ℚ) :
    ∀ (count i : Nat) (aug : Buf), i + count = n → n * (n + m) ≤ aug.length →
    ∃ out, gauss_jordan_loop_unpivoted n m thr count i aug = some out ∧
      out.aug.length = aug.length ∧
      (0 < thr → out.singular_at = none →
        (UnitCols n i (cells aug (n + m)) → UnitCols n n (cells out.aug (n + m))) ∧
        ∀ col y, col < n + m → Sat n (cells out.aug (n + m)) col y →
          Sat n (cells aug (n + m)) col y) := by
  intro count
  induction count with
  | zero =>
    intro i aug hin hlen
    refine ⟨⟨aug, none⟩, rfl, rfl, fun _ _ => ⟨fun h => ?_, fun col y _ h => h⟩⟩
    have : i = n := by omega
    subst this; exact h
  | succ count ih =>
    intro i aug hin hlen
    have hi : i < n := by omega
    obtain ⟨aug', hl, hsing, hok⟩ := gauss_jordan_step_unpivoted_spec n m i aug thr hi hlen
    by_cases hs : (cells aug (n + m) i i).norm < thr
    · refine ⟨⟨aug', some i⟩, ?_, hl, fun _ h => by simp at h⟩
      rw [gauss_jordan_loop_unpivoted_succ n m thr count i aug aug' true (hsing hs)]; rfl
    · obtain ⟨e1, e2⟩ := hok hs
      obtain ⟨out, o1, o2, o3⟩ := ih (i + 1) aug' (by omega) (by rw [hl]; exact hlen)
      have hag : AgreeOn n (n + m) (stepM n i i (cells aug (n + m))) (cells aug' (n + m)) :=
        fun r c _ hc => (e2 r c hc).symm
      have hag' : AgreeOn n (n + m) (cells aug' (n + m)) (stepM n i i (cells aug (n + m))) :=
        fun r c _ hc => e2 r c hc
      have hp' : ∀ hthr : 0 < thr, swapM i i (cells aug (n + m)) i i ≠ 0 := fun hthr => by
        rw [swapM_self]; exact ne_zero_of_norm hthr hs
      refine ⟨out, ?_, by rw [o2, hl], fun hthr hnone => ⟨fun hU => ?_, fun col y hcol hS => ?_⟩⟩
      · rw [gauss_jordan_loop_unpivoted_succ n m thr count i aug aug' false e1]; exact o1
      · exact (o3 hthr hnone).1
          (UnitCols_congr hag (by omega) (UnitCols_stepM hi (le_refl _) hi (hp' hthr) hU))
      · exact Sat_stepM hi hi (hp' hthr)
          (Sat_congr hag' (by omega) hcol ((o3 hthr hnone).2 col y hcol hS))

/-! ## Loading and unloading the workspace -/

theorem augment_identity_spec (n : Nat) (A ws : Buf) (hA : n * n ≤ A.length)
    (hws : n * (n + n) ≤ ws.length) :
    ∃ aug, augment_identity n A ws = some aug ∧ aug.length = ws.length ∧
      ∀ r c, r < n → c < n + n → ent aug (r * (n + n) + c) =
        if c < n then ent A (r * n + c) else if r = c - n then 1 else 0 := by
  unfold augment_identity
  simp only [two_mul]
  refine forRange_rule
    (fun i' (D : Buf) => D.length = ws.length ∧ ∀ r c, r < i' → c < n + n →
      ent D (r * (n + n) + c) =
        if c < n then ent A (r * n + c) else if r = c - n then 1 else 0)
    ?_ ?_ ?_
  · exact ⟨rfl, fun r c hr => absurd hr (Nat.not_lt_zero _)⟩
  · intro i D _ hi hP
    dsimp only at hP ⊢
    obtain ⟨hl, hD⟩ := hP
    have hi' : i < n := by omega
    refine forRange_rule
      (fun j' (E : Buf) => E.length = ws.length ∧ ∀ r c, c < n + n →
        ent E (r * (n + n) + c) =
          if r = i ∧ (c < j' ∨ (n ≤ c ∧ c < n + j')) then
            (if c < n then ent A (r * n + c) else if r = c - n then 1 else 0)
          else ent D (r * (n + n) + c))
      ?_ ?_ ?_
    · refine ⟨hl, fun r c _ => ?_⟩
      have : ¬ (r = i ∧ (c < 0 ∨ (n ≤ c ∧ c < n + 0))) := by omega
      rw [if_neg this]
    · intro j E _ hj hP
      dsimp only at hP ⊢
      obtain ⟨hlE, hE⟩ := hP
      have hj' : j < n := by omega
      have bA : i * n + j < A.length := lt_of_lt_of_le (idx_lt hi' hj') hA
      have b1 : i * (n + n) + j < E.length := by
        rw [hlE]; exact lt_of_lt_of_le (idx_lt hi' (by omega)) hws
      have b2 : i * (n + n) + (j + n) <
          (E.set (i * (n + n) + j) (ent A (i * n + j))).length := by
        rw [List.length_set, hlE]; exact lt_of_lt_of_le (idx_lt hi' (by omega)) hws
      refine ⟨(E.set (i * (n + n) + j) (ent A (i * n + j))).set (i * (n + n) + (j + n))
          ⟨if i = j then 1 else 0, 0⟩,
        by simp only [rd_eq bA, Option.bind_eq_bind, Option.some_bind, wr_eq b1, wr_eq b2],
        by simp [hlE], ?_⟩
      intro r c hc
      rw [ent_set2 b2 (by omega) _ r c hc, ent_set2 b1 (by omega) _ r c hc, hE r c hc]
      have hone : (⟨if i = j then 1 else 0, 0⟩ : Vec2d) = if i = j then 1 else 0 := by
        by_cases e : i = j
        · simp [e]; rfl
        · simp [e]; rfl
      rw [hone]
      by_cases e1 : r = i
      · subst e1
        by_cases e2 : c = j + n
        · subst e2
          have a1 : ¬ (j + n < n) := by omega
          have a2 : j + n - n = j := by omega
          have q1 : r = r ∧ j + n = j + n := ⟨rfl, rfl⟩
          have q2 : r = r ∧ (j + n < j + 1 ∨ (n ≤ j + n ∧ j + n < n + (j + 1))) :=
            ⟨rfl, Or.inr (by omega)⟩
          rw [if_pos q1, if_pos q2, if_neg a1, a2]
        · by_cases e3 : c = j
          · subst e3
            have q0 : ¬ (r = r ∧ c = c + n) := fun h => e2 h.2
            have q1 : r = r ∧ c = c := ⟨rfl, rfl⟩
            have q2 : r = r ∧ (c < c + 1 ∨ (n ≤ c ∧ c < n + (c + 1))) :=
              ⟨rfl, Or.inl (by omega)⟩
            rw [if_neg q0, if_pos q1, if_pos q2, if_pos hj']
          · have : (c < j + 1 ∨ (n ≤ c ∧ c < n + (j + 1))) ↔ (c < j ∨ (n ≤ c ∧ c < n + j)) := by
              omega
            have q0 : ¬ (r = r ∧ c = j + n) := fun h => e2 h.2
            have q1 : ¬ (r = r ∧ c = j) := fun h => e3 h.2
            rw [if_neg q0, if_neg q1]
            simp only [this]
      · simp [e1]
    · intro E hP
      dsimp only at hP ⊢
      obtain ⟨hlE, hE⟩ := hP
      refine ⟨hlE, fun r c hr hc => ?_⟩
      rw [hE r c hc]
      by_cases e1 : r = i
      · subst e1
        have : c < 0 + n ∨ (n ≤ c ∧ c < n + (0 + n)) := by omega
        have q1 : r = r ∧ (c < 0 + n ∨ (n ≤ c ∧ c < n + (0 + n))) := ⟨rfl, this⟩
        rw [if_pos q1]
      · simp only [e1, false_and, if_false]
        exact hD r c (by omega) hc
  · intro D hP
    dsimp only at hP ⊢
    exact ⟨hP.1, fun r c hr hc => hP.2 r c (by omega) hc⟩

theorem augment_rhs_spec (n m : Nat) (A B ws : Buf) (hA : n * n ≤ A.length)
    (hB : n * m ≤ B.length) (hws : n * (n + m) ≤ ws.length) :
    ∃ aug, augment_rhs n m A B ws = some aug ∧ aug.length = ws.length ∧
      ∀ r c, r < n → c < n + m → ent aug (r * (n + m) + c) =
        if c < n then ent A (r * n + c) else ent B (r * m + (c - n)) := by
  unfold augment_rhs
  refine forRange_rule
    (fun i' (D : Buf) => D.length = ws.length ∧ ∀ r c, r < i' → c < n + m →
      ent D (r * (n + m) + c) =
        if c < n then ent A (r * n + c) else ent B (r * m + (c - n)))
    ?_ ?_ ?_
  · exact ⟨rfl, fun r c hr => absurd hr (Nat.not_lt_zero _)⟩
  · intro i D _ hi hP
    dsimp only at hP ⊢
    obtain ⟨hl, hD⟩ := hP
    have hi' : i < n := by omega
    have first : ∃ E, forRange (fun j aug => do
          let a ← rd A (i * n + j)
          wr aug (i * (n + m) + j) a) n 0 D = some E ∧
        (E.length = ws.length ∧ ∀ r c, c < n + m → ent E (r * (n + m) + c) =
          if r = i ∧ c < n then ent A (r * n + c) else ent D (r * (n + m) + c)) := by
      refine forRange_rule
        (fun j' (E : Buf) => E.length = ws.length ∧ ∀ r c, c < n + m →
          ent E (r * (n + m) + c) =
            if r = i ∧ c < j' then ent A (r * n + c) else ent D (r * (n + m) + c))
        ?_ ?_ ?_
      · exact ⟨hl, fun r c _ => by simp⟩
      · intro j E _ hj hP
        dsimp only at hP ⊢
        obtain ⟨hlE, hE⟩ := hP
        have hj' : j < n := by omega
        have bA : i * n + j < A.length := lt_of_lt_of_le (idx_lt hi' hj') hA
        have b1 : i * (n + m) + j < E.length := by
          rw [hlE]; exact lt_of_lt_of_le (idx_lt hi' (by omega)) hws
        refine ⟨E.set (i * (n + m) + j) (ent A (i * n + j)),
          by simp only [rd_eq bA, Option.bind_eq_bind, Option.some_bind, wr_eq b1],
          by simp [hlE], ?_⟩
        intro r c hc
        rw [ent_set2 b1 (by omega) _ r c hc, hE r c hc]
        by_cases e1 : r = i
        · by_cases e2 : c = j
          · subst e1 e2; simp
          · have : c < j + 1 ↔ c < j := by omega
            simp [e1, e2, this]
        · simp [e1]
      · intro E hP
        dsimp only at hP ⊢
        exact ⟨hP.1, fun r c hc => by rw [hP.2 r c hc]; simp⟩
    obtain ⟨E, hE1, hlE, hE⟩ := first
    rw [hE1]
    simp only [Option.bind_eq_bind, Option.some_bind]
    refine forRange_rule
      (fun j' (F : Buf) => F.length = ws.length ∧ ∀ r c, c < n + m →
        ent F (r * (n + m) + c) =
          if r = i ∧ n ≤ c ∧ c < n + j' then ent B (r * m + (c - n))
          else ent E (r * (n + m) + c))
      ?_ ?_ ?_
    · refine ⟨hlE, fun r c _ => ?_⟩
      have : ¬ (r = i ∧ n ≤ c ∧ c < n + 0) := by omega
      rw [if_neg this]
    · intro j F _ hj hP
      dsimp only at hP ⊢
      obtain ⟨hlF, hF⟩ := hP
      have hj' : j < m := by omega
      have bB : i * m + j < B.length := lt_of_lt_of_le (idx_lt hi' hj') hB
      have b1 : i * (n + m) + (j + n) < F.length := by
        rw [hlF]; exact lt_of_lt_of_le (idx_lt hi' (by omega)) hws
      refine ⟨F.set (i * (n + m) + (j + n)) (ent B (i * m + j)),
        by simp only [rd_eq bB, Option.some_bind, wr_eq b1],
        by simp [hlF], ?_⟩
      intro r c hc
      rw [ent_set2 b1 (by omega) _ r c hc, hF r c hc]
      by_cases e1 : r = i
      · by_cases e2 : c = j + n
        · subst e1 e2
          have a1 : n ≤ j + n ∧ j + n < n + (j + 1) := by omega
          have a2 : j + n - n = j := by omega
          have q1 : r = r ∧ j + n = j + n := ⟨rfl, rfl⟩
          have q2 : r = r ∧ n ≤ j + n ∧ j + n < n + (j + 1) := ⟨rfl, a1⟩
          rw [if_pos q1, if_pos q2, a2]
        · have : (n ≤ c ∧ c < n + (j + 1)) ↔ (n ≤ c ∧ c < n + j) := by omega
          have q0 : ¬ (r = i ∧ c = j + n) := fun h => e2 h.2
          rw [if_neg q0]
          simp only [this]
      · simp [e1]
    · intro F hP
      dsimp only at hP ⊢
      obtain ⟨hlF, hF⟩ := hP
      refine ⟨hlF, fun r c hr hc => ?_⟩
      rw [hF r c hc, hE r c hc]
      by_cases e1 : r = i
      · subst e1
        by_cases e2 : c < n
        · have : ¬ (n ≤ c ∧ c < n + (0 + m)) := by omega
          have q0 : ¬ (r = r ∧ n ≤ c ∧ c < n + (0 + m)) := fun h => this h.2
          have q1 : r = r ∧ c < n := ⟨rfl, e2⟩
          rw [if_neg q0, if_pos q1, if_pos e2]
        · have : n ≤ c ∧ c < n + (0 + m) := by omega
          have q1 : r = r ∧ n ≤ c ∧ c < n + (0 + m) := ⟨rfl, this⟩
          rw [if_pos q1, if_neg e2]
      · simp only [e1, false_and, if_false]
        exact hD r c (by omega) hc
  · intro D hP
    dsimp only at hP ⊢
    exact ⟨hP.1, fun r c hr hc => hP.2 r c (by omega) hc⟩

theorem copy_solution_spec (n m : Nat) (aug X : Buf) (haug : n * (n + m) ≤ aug.length)
    (hX : n * m ≤ X.length) :
    ∃ X', copy_solution n m aug X = some X' ∧ X'.length = X.length ∧
      ∀ r c, r < n → c < m → ent X' (r * m + c) = ent aug (r * (n + m) + (c + n)) := by
  unfold copy_solution
  refine forRange_rule
    (fun i' (D : Buf) => D.length = X.length ∧ ∀ r c, r < i' → c < m →
      ent D (r * m + c) = ent aug (r * (n + m) + (c + n)))
    ?_ ?_ ?_
  · exact ⟨rfl, fun r c hr => absurd hr (Nat.not_lt_zero _)⟩
  · intro i D _ hi hP
    dsimp only at hP ⊢
    obtain ⟨hl, hD⟩ := hP
    have hi' : i < n := by omega
    refine forRange_rule
      (fun j' (E : Buf) => E.length = X.length ∧ ∀ r c, c < m →
        ent E (r * m + c) =
          if r = i ∧ c < j' then ent aug (r * (n + m) + (c + n)) else ent D (r * m + c))
      ?_ ?_ ?_
    · exact ⟨hl, fun r c _ => by simp⟩
    · intro j E _ hj hP
      dsimp only at hP ⊢
      obtain ⟨hlE, hE⟩ := hP
      have hj' : j < m := by omega
      have ba : i * (n + m) + (j + n) < aug.length :=
        lt_of_lt_of_le (idx_lt hi' (by omega)) haug
      have b1 : i * m + j < E.length := by
        rw [hlE]; exact lt_of_lt_of_le (idx_lt hi' hj') hX
      refine ⟨E.set (i * m + j) (ent aug (i * (n + m) + (j + n))),
        by simp only [rd_eq ba, Option.bind_eq_bind, Option.some_bind, wr_eq b1],
        by simp [hlE], ?_⟩
      intro r c hc
      rw [ent_set2 b1 hj' _ r c hc, hE r c hc]
      by_cases e1 : r = i
      · by_cases e2 : c = j
        · subst e1 e2; simp
        · have : c < j + 1 ↔ c < j := by omega
          simp [e1, e2, this]
      · simp [e1]
    · intro E hP
      dsimp only at hP ⊢
      obtain ⟨hlE, hE⟩ := hP
      refine ⟨hlE, fun r c hr hc => ?_⟩
      rw [hE r c hc]
      by_cases e1 : r = i
      · subst e1; simp [hc]
      · simp only [e1, false_and, if_false]
        exact hD r c (by omega) hc
  · intro D hP
    dsimp only at hP ⊢
    exact ⟨hP.1, fun r c hr hc => hP.2 r c (by omega) hc⟩

theorem copy_inverse_eq (n : Nat) (aug Ainv : Buf) :
    copy_inverse n aug Ainv = copy_solution n n aug Ainv := by
  unfold copy_inverse copy_solution
  simp only [two_mul]


/-! ## The eliminator as a whole -/

theorem Sat_of_UnitCols {n : Nat} {M : Nat → Nat → Vec2d} (col : Nat)
    (hU : UnitCols n n M) : Sat n M col (fun c => M c col) := by
  intro r hr
  have : ∀ c ∈ Finset.range n, M r c * M c col = if r = c then M c col else 0 := by
    intro c hc
    rw [hU c (Finset.mem_range.1 hc) r hr]
    by_cases e : r = c
    · simp [e]
    · simp [e]
  rw [Finset.sum_congr rfl this, Finset.sum_ite_eq]
  simp [hr]

theorem Reduced_of_loop {n m : Nat} {aug out : Buf}
    (hU : UnitCols n n (cells out (n + m)))
    (hS : ∀ col y, col < n + m → Sat n (cells out (n + m)) col y →
      Sat n (cells aug (n + m)) col y) : Reduced n m aug out :=
  ⟨hU, fun r j hr hj => hS (n + j) _ (by omega) (Sat_of_UnitCols (n + j) hU) r hr⟩

theorem gauss_jordan_eliminate_spec (n m : Nat) (aug : Buf) (thr : ℚ)
    (hlen : n * (n + m) ≤ aug.length) :
    ∃ out, gauss_jordan_eliminate n m aug thr = some out ∧
      out.aug.length = aug.length ∧
      (0 < thr → out.singular_at = none → Reduced n m aug out.aug) ∧
      (∀ k, out.singular_at = some k → k < n ∧
        ∃ prev, gauss_jordan_loop n m thr k 0 aug = some ⟨prev, none⟩ ∧
          prev.length = aug.length ∧
          (∀ r c, k ≤ r → r < n → c < n + m → ent out.aug (r * (n + m) + c) = 0) ∧
          (∀ r c, r < k → c < n + m →
            ent out.aug (r * (n + m) + c) = ent prev (r * (n + m) + c))) := by
  obtain ⟨out, h1, h2, h3, h4⟩ := gauss_jordan_loop_spec n m thr n 0 aug (by omega) hlen
  refine ⟨out, h1, h2, fun hthr hnone => ?_, fun k hk => ?_⟩
  · obtain ⟨a, b⟩ := h3 hthr hnone
    exact Reduced_of_loop (a (fun c hc => absurd hc (Nat.not_lt_zero _))) b
  · obtain ⟨_, k2, prev, k3, kl, k4, k5⟩ := h4 k hk
    exact ⟨k2, prev, by simpa using k3, kl, k4, k5⟩

theorem gauss_jordan_eliminate_unpivoted_spec (n m : Nat) (aug : Buf) (thr : ℚ)
    (hlen : n * (n + m) ≤ aug.length) :
    ∃ out, gauss_jordan_eliminate_unpivoted n m aug thr = some out ∧
      out.aug.length = aug.length ∧
      (0 < thr → out.singular_at = none → Reduced n m aug out.aug) := by
  obtain ⟨out, h1, h2, h3⟩ := gauss_jordan_loop_unpivoted_spec n m thr n 0 aug (by omega) hlen
  refine ⟨out, h1, h2, fun hthr hnone => ?_⟩
  obtain ⟨a, b⟩ := h3 hthr hnone
  exact Reduced_of_loop (a (fun c hc => absurd hc (Nat.not_lt_zero _))) b

/-! ## Inversion and solve -/

theorem solve_complex_system_spec (n m : Nat) (A B X ws : Buf) (thr : ℚ)
    (hA : n * n ≤ A.length) (hB : n * m ≤ B.length) (hX : n * m ≤ X.length)
    (hws : n * (n + m) ≤ ws.length) :
    ∃ r, solve_complex_system n m A B X ws thr = some r ∧ r.out.length = X.length ∧
      (0 < thr → r.singular_at = none → ∀ i j, i < n → j < m →
        ∑ p ∈ Finset.range n, ent A (i * n + p) * ent r.out (p * m + j) = ent B (i * m + j)) ∧
      (∀ k, r.singular_at = some k → k < n ∧
        ∀ i j, k ≤ i → i < n → j < m → ent r.out (i * m + j) = 0) := by
  obtain ⟨aug, a1, a2, a3⟩ := augment_rhs_spec n m A B ws hA hB hws
  obtain ⟨out, g1, g2, g3, g4⟩ := gauss_jordan_eliminate_spec n m aug thr (by rw [a2]; exact hws)
  obtain ⟨X', c1, c2, c3⟩ := copy_solution_spec n m out.aug X (by rw [g2, a2]; exact hws) hX
  refine ⟨⟨X', out.aug, out.singular_at⟩, ?_, c2, fun hthr hnone i j hi hj => ?_,
    fun k hk => ?_⟩
  · simp only [solve_complex_system, a1, g1, c1, Option.bind_eq_bind, Option.some_bind]
  · obtain ⟨_, hR⟩ := g3 hthr hnone
    have := hR i j hi hj
    simp only [cells] at this
    rw [a3 i (n + j) hi (by omega)] at this
    have e0 : ¬ (n + j < n) := by omega
    have e1 : n + j - n = j := by omega
    rw [if_neg e0, e1] at this
    rw [← this]
    refine Finset.sum_congr rfl fun p hp => ?_
    have hp' : p < n := Finset.mem_range.1 hp
    rw [a3 i p hi (by omega), if_pos hp', c3 p j hp' hj, Nat.add_comm j n]
  · obtain ⟨k1, prev, _, _, k3, _⟩ := g4 k hk
    refine ⟨k1, fun i j h1 h2 hj => ?_⟩
    rw [c3 i j h2 hj]
    exact k3 i (j + n) h1 h2 (by omega)

theorem invert_complex_matrix_spec (n : Nat) (A Ainv ws : Buf) (thr : ℚ)
    (hA : n * n ≤ A.length) (hAinv : n * n ≤ Ainv.length) (hws : n * (n + n) ≤ ws.length) :
    ∃ r, invert_complex_matrix n A Ainv ws thr = some r ∧ r.out.length = Ainv.length ∧
      (0 < thr → r.singular_at = none → ∀ i j, i < n → j < n →
        ∑ p ∈ Finset.range n, ent A (i * n + p) * ent r.out (p * n + j) =
          if i = j then 1 else 0) ∧
      (∀ k, r.singular_at = some k → k < n ∧
        ∀ i j, k ≤ i → i < n → j < n → ent r.out (i * n + j) = 0) := by
  obtain ⟨aug, a1, a2, a3⟩ := augment_identity_spec n A ws hA hws
  obtain ⟨out, g1, g2, g3, g4⟩ := gauss_jordan_eliminate_spec n n aug thr (by rw [a2]; exact hws)
  obtain ⟨X', c1, c2, c3⟩ := copy_solution_spec n n out.aug Ainv (by rw [g2, a2]; exact hws) hAinv
  rw [← copy_inverse_eq] at c1
  refine ⟨⟨X', out.aug, out.singular_at⟩, ?_, c2, fun hthr hnone i j hi hj => ?_,
    fun k hk => ?_⟩
  · simp only [invert_complex_matrix, a1, g1, c1, Option.bind_eq_bind, Option.some_bind]
  · obtain ⟨_, hR⟩ := g3 hthr hnone
    have := hR i j hi hj
    simp only [cells] at this
    rw [a3 i (n + j) hi (by omega)] at this
    have e0 : ¬ (n + j < n) := by omega
    have e1 : n + j - n = j := by omega
    rw [if_neg e0, e1] at this
    rw [← this]
    refine Finset.sum_congr rfl fun p hp => ?_
    have hp' : p < n := Finset.mem_range.1 hp
    rw [a3 i p hi (by omega), if_pos hp', c3 p j hp' hj, Nat.add_comm j n]
  · obtain ⟨k1, prev, _, _, k3, _⟩ := g4 k hk
    refine ⟨k1, fun i j h1 h2 hj => ?_⟩
    rw [c3 i j h2 hj]
    exact k3 i (j + n) h1 h2 (by omega)

theorem invert_complex_matrix_unpivoted_spec (n : Nat) (A Ainv ws : Buf) (thr : ℚ)
    (hA : n * n ≤ A.length) (hAinv : n * n ≤ Ainv.length) (hws : n * (n + n) ≤ ws.length) :
    ∃ r, invert_complex_matrix_unpivoted n A Ainv ws thr = some r ∧
      r.out.length = Ainv.length ∧
      (0 < thr → r.singular_at = none → ∀ i j, i < n → j < n →
        ∑ p ∈ Finset.range n, ent A (i * n + p) * ent r.out (p * n + j) =
          if i = j then 1 else 0) := by
  obtain ⟨aug, a1, a2, a3⟩ := augment_identity_spec n A ws hA hws
  obtain ⟨out, g1, g2, g3⟩ :=
    gauss_jordan_eliminate_unpivoted_spec n n aug thr (by rw [a2]; exact hws)
  obtain ⟨X', c1, c2, c3⟩ := copy_solution_spec n n out.aug Ainv (by rw [g2, a2]; exact hws) hAinv
  rw [← copy_inverse_eq] at c1
  refine ⟨⟨X', out.aug, out.singular_at⟩, ?_, c2, fun hthr hnone i j hi hj => ?_⟩
  · simp only [invert_complex_matrix_unpivoted, a1, g1, c1, Option.bind_eq_bind,
      Option.some_bind]
  · obtain ⟨_, hR⟩ := g3 hthr hnone
    have := hR i j hi hj
    simp only [cells] at this
    rw [a3 i (n + j) hi (by omega)] at this
    have e0 : ¬ (n + j < n) := by omega
    have e1 : n + j - n = j := by omega
    rw [if_neg e0, e1] at this
    rw [← this]
    refine Finset.sum_congr rfl fun p hp => ?_
    have hp' : p < n := Finset.mem_range.1 hp
    rw [a3 i p hi (by omega), if_pos hp', c3 p j hp' hj, Nat.add_comm j n]


/-! ## Buffers as matrices of Mathlib -/

theorem toMatrix_mul_eq_one {n : Nat} {A X : Buf}
    (h : ∀ i j, i < n → j < n →
      ∑ p ∈ Finset.range n, ent A (i * n + p) * ent X (p * n + j) = if i = j then 1 else 0) :
    toMatrix n A * toMatrix n X = 1 := by
  apply Matrix.ext
  intro i j
  rw [Matrix.mul_apply, Matrix.one_apply]
  have := h i.val j.val i.isLt j.isLt
  rw [← Fin.sum_univ_eq_sum_range (fun p => ent A (i.val * n + p) * ent X (p * n + j.val)) n]
    at this
  simp only [toMatrix, Matrix.of_apply]
  rw [this]
  by_cases e : i = j
  · simp [e]
  · have : ¬ (i.val = j.val) := fun h => e (Fin.ext h)
    simp [e, this]

theorem toMatrix_ext {n : Nat} {A B : Buf} (h : toMatrix n A = toMatrix n B) :
    ∀ i j, i < n → j < n → ent A (i * n + j) = ent B (i * n + j) := by
  intro i j hi hj
  have := congrFun (congrFun h ⟨i, hi⟩) ⟨j, hj⟩
  simpa [toMatrix] using this

theorem toMatrix_entries_of_mul_eq_one {n : Nat} {A X : Buf}
    (h : toMatrix n A * toMatrix n X = 1) :
    ∀ i j, i < n → j < n →
      ∑ p ∈ Finset.range n, ent A (i * n + p) * ent X (p * n + j) = if i = j then 1 else 0 := by
  intro i j hi hj
  have := congrFun (congrFun h ⟨i, hi⟩) ⟨j, hj⟩
  rw [Matrix.mul_apply, Matrix.one_apply] at this
  simp only [toMatrix, Matrix.of_apply] at this
  rw [← Fin.sum_univ_eq_sum_range (fun p => ent A (i * n + p) * ent X (p * n + j)) n, this]
  by_cases e : i = j
  · simp [e]
  · have : ¬ ((⟨i, hi⟩ : Fin n) = ⟨j, hj⟩) := fun h => e (Fin.mk.inj h)
    simp [e]

theorem det_ne_zero_of_mul_eq_one {n : Nat} {A X : Buf}
    (h : toMatrix n A * toMatrix n X = 1) : (toMatrix n A).det ≠ 0 := by
  intro e
  have := congrArg Matrix.det h
  rw [Matrix.det_mul, e, zero_mul, Matrix.det_one] at this
  exact zero_ne_one this

/-- The entries `multiply_complex_matrices` returns, once the sums are known. -/
theorem multiply_eq_of_sums (n m : Nat) (A X C : Buf) (V : Nat → Nat → Vec2d)
    (hA : n * n ≤ A.length) (hX : n * m ≤ X.length) (hC : n * m ≤ C.length)
    (h : ∀ i j, i < n → j < m →
      ∑ p ∈ Finset.range n, ent A (i * n + p) * ent X (p * m + j) = V i j) :
    ∃ C', multiply_complex_matrices n n m A X C = some C' ∧
      ∀ i j, i < n → j < m → rd C' (i * m + j) = some (V i j) := by
  obtain ⟨C', h1, h2, h3⟩ := multiply_spec n n m A X C hA hX hC
  refine ⟨C', h1, fun i j hi hj => ?_⟩
  have b : i * m + j < C'.length := by rw [h2]; exact lt_of_lt_of_le (idx_lt hi hj) hC
  rw [rd_eq b, h3 i j hi hj]
  simp only [Vec2d.mul_def]
  rw [h i j hi hj]

theorem ws_size (n : Nat) : n * (n + n) = 2 * n * n := by ring


/-! ## Inversion and solve, stage by stage -/

/-- The three stages of `solve_complex_system` on buffers of the documented
sizes: each returns, and the entries it leaves. -/
theorem solve_complex_system_unfold (n m : Nat) (A B X ws : Buf) (thr : ℚ)
    (hA : n * n ≤ A.length) (hB : n * m ≤ B.length) (hX : n * m ≤ X.length)
    (hws : n * (n + m) ≤ ws.length) :
    ∃ aug out X', augment_rhs n m A B ws = some aug ∧ aug.length = ws.length ∧
      (∀ r c, r < n → c < n + m → ent aug (r * (n + m) + c) =
        if c < n then ent A (r * n + c) else ent B (r * m + (c - n))) ∧
      gauss_jordan_eliminate n m aug thr = some out ∧ out.aug.length = ws.length ∧
      copy_solution n m out.aug X = some X' ∧ X'.length = X.length ∧
      (∀ r c, r < n → c < m → ent X' (r * m + c) = ent out.aug (r * (n + m) + (c + n))) ∧
      solve_complex_system n m A B X ws thr = some ⟨X', out.aug, out.singular_at⟩ := by
  obtain ⟨aug, a1, a2, a3⟩ := augment_rhs_spec n m A B ws hA hB hws
  obtain ⟨out, g1, g2, _, _⟩ := gauss_jordan_eliminate_spec n m aug thr (by rw [a2]; exact hws)
  obtain ⟨X', c1, c2, c3⟩ := copy_solution_spec n m out.aug X (by rw [g2, a2]; exact hws) hX
  refine ⟨aug, out, X', a1, a2, a3, g1, by rw [g2, a2], c1, c2, c3, ?_⟩
  simp only [solve_complex_system, a1, g1, c1, Option.bind_eq_bind, Option.some_bind]

/-- The three stages of `invert_complex_matrix`, in the same way. -/
theorem invert_complex_matrix_unfold (n : Nat) (A Ainv ws : Buf) (thr : ℚ)
    (hA : n * n ≤ A.length) (hAinv : n * n ≤ Ainv.length) (hws : n * (n + n) ≤ ws.length) :
    ∃ aug out X', augment_identity n A ws = some aug ∧ aug.length = ws.length ∧
      (∀ r c, r < n → c < n + n → ent aug (r * (n + n) + c) =
        if c < n then ent A (r * n + c) else if r = c - n then 1 else 0) ∧
      gauss_jordan_eliminate n n aug thr = some out ∧ out.aug.length = ws.length ∧
      copy_inverse n out.aug Ainv = some X' ∧ X'.length = Ainv.length ∧
      (∀ r c, r < n → c < n → ent X' (r * n + c) = ent out.aug (r * (n + n) + (c + n))) ∧
      invert_complex_matrix n A Ainv ws thr = some ⟨X', out.aug, out.singular_at⟩ := by
  obtain ⟨aug, a1, a2, a3⟩ := augment_identity_spec n A ws hA hws
  obtain ⟨out, g1, g2, _, _⟩ := gauss_jordan_eliminate_spec n n aug thr (by rw [a2]; exact hws)
  obtain ⟨X', c1, c2, c3⟩ := copy_solution_spec n n out.aug Ainv (by rw [g2, a2]; exact hws) hAinv
  rw [← copy_inverse_eq] at c1
  refine ⟨aug, out, X', a1, a2, a3, g1, by rw [g2, a2], c1, c2, c3, ?_⟩
  simp only [invert_complex_matrix, a1, g1, c1, Option.bind_eq_bind, Option.some_bind]

theorem rd_congr {A B : Buf} {k : Nat} (hl : A.length = B.length) (h : ent A k = ent B k) :
    rd A k = rd B k := by
  by_cases hk : k < A.length
  · rw [rd_eq hk, rd_eq (by rw [← hl]; exact hk), h]
  · have hk' : ¬ k < B.length := by rw [← hl]; exact hk
    simp only [rd]
    rw [List.getElem?_eq_none (by omega), List.getElem?_eq_none (by omega)]

theorem buf_eq_of_ent {A B : Buf} (hl : A.length = B.length) (h : ∀ k, ent A k = ent B k) :
    A = B := by
  apply List.ext_getElem? 
  intro k
  exact rd_congr hl (h k)

theorem buf_eq_of_cells {A B : Buf} {s : Nat} (hs : 0 < s) (hl : A.length = B.length)
    (h : ∀ r c, c < s → ent A (r * s + c) = ent B (r * s + c)) : A = B := by
  apply buf_eq_of_ent hl
  intro k
  have := h (k / s) (k % s) (Nat.mod_lt _ hs)
  rwa [Nat.div_add_mod' k s] at this

/-! ## The pivot of a step -/

/-- The step of `gauss_jordan_step_spec` together with what the pivot search
guarantees for the row it returns. -/
theorem gauss_jordan_step_pivot (n m i : Nat) (aug : Buf) (thr : ℚ) (hi : i < n)
    (hlen : n * (n + m) ≤ aug.length) :
    ∃ pr aug', find_pivot_partial n i aug (n + m) = some (pr, i) ∧ i ≤ pr ∧ pr < n ∧
      (∀ r, i ≤ r → r < n →
        (cells aug (n + m) r i).norm ≤ (cells aug (n + m) pr i).norm) ∧
      (∀ r, i ≤ r → r < pr →
        (cells aug (n + m) r i).norm < (cells aug (n + m) pr i).norm) ∧
      aug'.length = aug.length ∧
      ((swapM i pr (cells aug (n + m)) i i).norm < thr →
        gauss_jordan_step n m i aug thr = some (aug', true) ∧
        ∀ r c, c < n + m → ent aug' (r * (n + m) + c) =
          if i ≤ r ∧ r < n then 0 else cells aug (n + m) r c) ∧
      (¬ (swapM i pr (cells aug (n + m)) i i).norm < thr →
        gauss_jordan_step n m i aug thr = some (aug', false) ∧
        ∀ r c, c < n + m → ent aug' (r * (n + m) + c) =
          stepM n i pr (cells aug (n + m)) r c) := by
  have his : i < n + m := by omega
  have hb : (n - 1) * (n + m) + i < aug.length :=
    lt_of_lt_of_le (idx_lt (by omega) his) hlen
  obtain ⟨pr, aug', f1, f2, f3, f4, f5, f6⟩ := gauss_jordan_step_spec n m i aug thr hi hlen
  obtain ⟨pr2, g1, _, _, g4, g5⟩ := find_pivot_spec n i (n + m) aug hi hb
  rw [f1] at g1
  simp only [Option.some.injEq, Prod.mk.injEq, and_true] at g1
  subst g1
  exact ⟨pr, aug', f1, f2, f3, g4, g5, f4, f5, f6⟩

/-- The pivot read after the swap is the entry the search selected. -/
theorem swapM_pivot (i pr : Nat) (M : Nat → Nat → Vec2d) : swapM i pr M i i = M pr i := by
  simp [swapM]

/-- The row the search returns is determined by the magnitudes in the column. -/
theorem pivot_row_unique {i n pr pr' : Nat} {f : Nat → ℚ}
    (h1 : i ≤ pr) (h2 : pr < n) (h3 : ∀ r, i ≤ r → r < n → f r ≤ f pr)
    (h4 : ∀ r, i ≤ r → r < pr → f r < f pr)
    (k1 : i ≤ pr') (k2 : pr' < n) (k3 : ∀ r, i ≤ r → r < n → f r ≤ f pr')
    (k4 : ∀ r, i ≤ r → r < pr' → f r < f pr') : pr = pr' := by
  rcases Nat.lt_trichotomy pr pr' with h | h | h
  · exact absurd (k4 pr h1 h) (not_lt.2 (h3 pr' k1 k2))
  · exact h
  · exact absurd (h4 pr' k1 h) (not_lt.2 (k3 pr h1 h2))

/-- A completed step gives the same buffer at every threshold that lets it
complete. -/
theorem gauss_jordan_step_of_le (n m i : Nat) (aug aug' : Buf) (t t' : ℚ) (hi : i < n)
    (hlen : n * (n + m) ≤ aug.length) (htt : t' ≤ t)
    (h : gauss_jordan_step n m i aug t = some (aug', false)) :
    gauss_jordan_step n m i aug t' = some (aug', false) := by
  obtain ⟨pr, a1, f1, _, _, l1, hsing, hok⟩ := gauss_jordan_step_spec n m i aug t hi hlen
  obtain ⟨pr', a2, g1, _, _, l2, _, hok'⟩ := gauss_jordan_step_spec n m i aug t' hi hlen
  rw [f1] at g1
  simp only [Option.some.injEq, Prod.mk.injEq, and_true] at g1
  subst g1
  by_cases hs : (swapM i pr (cells aug (n + m)) i i).norm < t
  · rw [(hsing hs).1] at h
    simp at h
  · obtain ⟨e1, e2⟩ := hok hs
    rw [e1] at h
    simp only [Option.some.injEq, Prod.mk.injEq, and_true] at h
    subst h
    have hs' : ¬ (swapM i pr (cells aug (n + m)) i i).norm < t' :=
      fun h' => hs (lt_of_lt_of_le h' htt)
    obtain ⟨e1', e2'⟩ := hok' hs'
    have : a2 = a1 := by
      apply buf_eq_of_cells (by omega : 0 < n + m) (by rw [l1, l2])
      intro r c hc
      rw [e2 r c hc, e2' r c hc]
    rw [e1', this]

/-! ## Runs on special buffers -/

theorem norm_one : (1 : Vec2d).norm = 1 := by
  simp [Vec2d.norm]

theorem norm_zero : (0 : Vec2d).norm = 0 := by
  simp [Vec2d.norm]

/-- A step on a buffer whose left block is the identity leaves the matrix as
it is, for a threshold of at most `1`. -/
theorem stepM_fixed {n i : Nat} {M : Nat → Nat → Vec2d} (hi : i < n)
    (hU : UnitCols n n M) (r c : Nat) (hr : r < n) : stepM n i i M r c = M r c := by
  have hii : M i i = 1 := by rw [hU i hi i hi]; simp
  rw [stepM, swapM_self, hii, inv_one]
  by_cases e : r = i
  · subst e
    simp [elimM, scaleM]
  · have hri : M r i = 0 := by rw [hU i hi r hr]; simp [e]
    simp [elimM, scaleM, e, hr, hri]

/-- The elimination of `[I|B]` completes and leaves `[I|B]`. -/
theorem gauss_jordan_loop_fixed (n m : Nat) (thr : ℚ) (hthr : thr ≤ 1) :
    ∀ (count i : Nat) (aug : Buf), i + count = n → n * (n + m) ≤ aug.length →
      UnitCols n n (cells aug (n + m)) →
      ∃ out, gauss_jordan_loop n m thr count i aug = some out ∧ out.singular_at = none ∧
        out.aug.length = aug.length ∧
        ∀ r c, r < n → c < n + m →
          ent out.aug (r * (n + m) + c) = ent aug (r * (n + m) + c) := by
  intro count
  induction count with
  | zero =>
    intro i aug _ _ _
    exact ⟨⟨aug, none⟩, rfl, rfl, rfl, fun _ _ _ _ => rfl⟩
  | succ count ih =>
    intro i aug hin hlen hU
    have hi : i < n := by omega
    obtain ⟨pr, aug', _, f2, f3, _, f5, hl, _, hok⟩ :=
      gauss_jordan_step_pivot n m i aug thr hi hlen
    have hii : cells aug (n + m) i i = 1 := by rw [hU i hi i hi]; simp
    have hpr : pr = i := by
      rcases Nat.lt_or_ge i pr with h | h
      · have := f5 i (le_refl _) h
        have hz : cells aug (n + m) pr i = 0 := by
          rw [hU i hi pr f3]
          have : pr ≠ i := by omega
          simp [this]
        rw [hii, hz, norm_one, norm_zero] at this
        exact absurd this (by norm_num)
      · omega
    subst hpr
    have hs : ¬ (swapM pr pr (cells aug (n + m)) pr pr).norm < thr := by
      rw [swapM_pivot, hii, norm_one]
      exact not_lt.2 hthr
    obtain ⟨e1, e2⟩ := hok hs
    have hsame : ∀ r c, r < n → c < n + m →
        ent aug' (r * (n + m) + c) = ent aug (r * (n + m) + c) := fun r c hr hc => by
      rw [e2 r c hc, stepM_fixed hi hU r c hr]; rfl
    have hU' : UnitCols n n (cells aug' (n + m)) :=
      UnitCols_congr (fun r c hr hc => (hsame r c hr hc).symm) (by omega) hU
    obtain ⟨out, o1, o2, o3, o4⟩ := ih (pr + 1) aug' (by omega) (by rw [hl]; exact hlen) hU'
    refine ⟨out, ?_, o2, by rw [o3, hl], fun r c hr hc => ?_⟩
    · rw [gauss_jordan_loop_succ n m thr count pr aug aug' false e1]; exact o1
    · rw [o4 r c hr hc, hsame r c hr hc]

/-- The run of the first `count` steps from step `i`: it returns, and when it
completes under a positive threshold the unit columns `0 .. i-1` are kept and
columns `i .. i+count-1` are made unit columns. -/
theorem gauss_jordan_loop_prefix (n m : Nat) (thr : ℚ) (hthr : 0 < thr) :
    ∀ (count i : Nat) (aug : Buf), i + count ≤ n → n * (n + m) ≤ aug.length →
    ∃ out, gauss_jordan_loop n m thr count i aug = some out ∧
      out.aug.length = aug.length ∧
      (out.singular_at = none → UnitCols n i (cells aug (n + m)) →
        UnitCols n (i + count) (cells out.aug (n + m))) := by
  intro count
  induction count with
  | zero =>
    intro i aug _ _
    exact ⟨⟨aug, none⟩, rfl, rfl, fun _ h => h⟩
  | succ count ih =>
    intro i aug hin hlen
    have hi : i < n := by omega
    obtain ⟨pr, aug', _, f2, f3, hl, hsing, hok⟩ := gauss_jordan_step_spec n m i aug thr hi hlen
    by_cases hs : (swapM i pr (cells aug (n + m)) i i).norm < thr
    · refine ⟨⟨aug', some i⟩, ?_, hl, fun h => by simp at h⟩
      rw [gauss_jordan_loop_succ n m thr count i aug aug' true (hsing hs).1]; rfl
    · obtain ⟨e1, e2⟩ := hok hs
      obtain ⟨out, o1, o2, o3⟩ := ih (i + 1) aug' (by omega) (by rw [hl]; exact hlen)
      have hag : AgreeOn n (n + m) (stepM n i pr (cells aug (n + m))) (cells aug' (n + m)) :=
        fun r c _ hc => (e2 r c hc).symm
      refine ⟨out, ?_, by rw [o2, hl], fun hnone hU => ?_⟩
      · rw [gauss_jordan_loop_succ n m thr count i aug aug' false e1]; exact o1
      · have hp := ne_zero_of_norm hthr hs
        have := o3 hnone (UnitCols_congr hag (by omega) (UnitCols_stepM hi f2 f3 hp hU))
        have e : i + (count + 1) = i + 1 + count := by omega
        rw [e]; exact this

/-- At step 0 a column of zeros gives a zero pivot, and under a positive
threshold the whole `n × (n+m)` matrix is zeroed. -/
theorem gauss_jordan_eliminate_zero_column (n m : Nat) (aug : Buf) (thr : ℚ) (hthr : 0 < thr)
    (hn : 0 < n) (hlen : n * (n + m) ≤ aug.length)
    (hZ : ∀ r, r < n → ent aug (r * (n + m) + 0) = 0) :
    ∃ out, gauss_jordan_eliminate n m aug thr = some out ∧ out.singular_at = some 0 ∧
      out.aug.length = aug.length ∧
      ∀ r c, r < n → c < n + m → ent out.aug (r * (n + m) + c) = 0 := by
  obtain ⟨pr, aug', _, _, f3, hl, hsing, _⟩ := gauss_jordan_step_spec n m 0 aug thr hn hlen
  have hs : (swapM 0 pr (cells aug (n + m)) 0 0).norm < thr := by
    rw [swapM_pivot]
    show (ent aug (pr * (n + m) + 0)).norm < thr
    rw [hZ pr f3, norm_zero]; exact hthr
  obtain ⟨e1, e2⟩ := hsing hs
  refine ⟨⟨aug', some 0⟩, ?_, rfl, hl, fun r c hr hc => ?_⟩
  · obtain ⟨k, hk⟩ : ∃ k, n = k + 1 := ⟨n - 1, by omega⟩
    unfold gauss_jordan_eliminate
    rw [hk, gauss_jordan_loop_succ (k + 1) m thr k 0 aug aug' true (by rw [← hk]; exact e1)]
    rfl
  · rw [e2 r c hc]
    simp [hr]

theorem ent_of_rd {A : Buf} {k : Nat} {v : Vec2d} (h : rd A k = some v) : ent A k = v := by
  simp only [rd] at h
  simp [ent, h]

/-! ## One right-hand side at a time -/

theorem swapM_col {n i pr s : Nat} {M M' : Nat → Nat → Vec2d} {φ : Nat → Nat}
    (hi : i < n) (hpr : pr < n)
    (h : ∀ r c, r < n → c < s → M' r c = M r (φ c)) :
    ∀ r c, r < n → c < s → swapM i pr M' r c = swapM i pr M r (φ c) := by
  intro r c hr hc
  simp only [swapM]
  by_cases e1 : r = i
  · rw [if_pos e1, if_pos e1, h pr c hpr hc]
  · rw [if_neg e1, if_neg e1]
    by_cases e2 : r = pr
    · rw [if_pos e2, if_pos e2, h i c hi hc]
    · rw [if_neg e2, if_neg e2, h r c hr hc]

theorem stepM_col {n i pr s : Nat} {M M' : Nat → Nat → Vec2d} {φ : Nat → Nat}
    (hi : i < n) (hpr : pr < n) (his : i < s) (hφ : φ i = i)
    (h : ∀ r c, r < n → c < s → M' r c = M r (φ c)) :
    ∀ r c, r < n → c < s → stepM n i pr M' r c = stepM n i pr M r (φ c) := by
  intro r c hr hc
  have hs := swapM_col hi hpr h
  have hp : swapM i pr M' i i = swapM i pr M i i := by rw [hs i i hi his, hφ]
  simp only [stepM, elimM, scaleM, hp]
  by_cases e1 : r = i
  · subst e1
    simp only [ne_eq, not_true_eq_false, and_false, if_false, if_true]
    rw [hs r c hr hc]
  · simp only [hr, ne_eq, e1, not_false_eq_true, and_self, if_true, if_false]
    rw [hs r c hr hc, hs r i hr his, hs i c hi hc, hφ]

theorem colMap_lt {n m j : Nat} (c : Nat) (hj : j < m) : colMap n j c < n + m := by
  unfold colMap
  split_ifs <;> omega

theorem colMap_coef {n j c : Nat} (hc : c < n) : colMap n j c = c := by
  simp [colMap, hc]

/-- One step on the two buffers: the same branch, and the one-column buffer
still holds the coefficient block and column `j` of the wide one. -/
theorem gauss_jordan_step_sim (n m j i : Nat) (aug augj : Buf) (thr : ℚ) (hi : i < n)
    (hj : j < m) (hlen : n * (n + m) ≤ aug.length) (hlenj : n * (n + 1) ≤ augj.length)
    (hR : ColumnOf n m j aug augj) :
    ∃ a a' b, gauss_jordan_step n m i aug thr = some (a, b) ∧
      gauss_jordan_step n 1 i augj thr = some (a', b) ∧
      a.length = aug.length ∧ a'.length = augj.length ∧ ColumnOf n m j a a' := by
  obtain ⟨pr, a, _, f2, f3, f4, f5, fl, fsing, fok⟩ :=
    gauss_jordan_step_pivot n m i aug thr hi hlen
  obtain ⟨pr', a', _, g2, g3, g4, g5, gl, gsing, gok⟩ :=
    gauss_jordan_step_pivot n 1 i augj thr hi hlenj
  have hcol : ∀ r, r < n → cells augj (n + 1) r i = cells aug (n + m) r i := fun r hr => by
    rw [hR r i hr (by omega), colMap_coef hi]
  have hpr : pr = pr' := by
    apply pivot_row_unique (f := fun r => (cells aug (n + m) r i).norm) f2 f3 f4 f5 g2 g3
    · intro r h1 h2
      have := g4 r h1 h2
      rw [hcol r h2, hcol pr' g3] at this
      exact this
    · intro r h1 h2
      have := g5 r h1 h2
      rw [hcol r (by omega), hcol pr' g3] at this
      exact this
  subst hpr
  have hpiv : swapM i pr (cells augj (n + 1)) i i = swapM i pr (cells aug (n + m)) i i := by
    rw [swapM_pivot, swapM_pivot, hcol pr f3]
  rw [hpiv] at gsing gok
  by_cases hs : (swapM i pr (cells aug (n + m)) i i).norm < thr
  · obtain ⟨e1, e2⟩ := fsing hs
    obtain ⟨e1', e2'⟩ := gsing hs
    refine ⟨a, a', true, e1, e1', fl, gl, fun r c hr hc => ?_⟩
    show ent a' (r * (n + 1) + c) = ent a (r * (n + m) + colMap n j c)
    rw [e2' r c hc, e2 r (colMap n j c) (colMap_lt c hj)]
    by_cases e : i ≤ r ∧ r < n
    · rw [if_pos e, if_pos e]
    · rw [if_neg e, if_neg e]; exact hR r c hr hc
  · obtain ⟨e1, e2⟩ := fok hs
    obtain ⟨e1', e2'⟩ := gok hs
    refine ⟨a, a', false, e1, e1', fl, gl, fun r c hr hc => ?_⟩
    show ent a' (r * (n + 1) + c) = ent a (r * (n + m) + colMap n j c)
    rw [e2' r c hc, e2 r (colMap n j c) (colMap_lt c hj)]
    exact stepM_col hi f3 (by omega) (colMap_coef hi) hR r c hr hc

theorem gauss_jordan_loop_sim (n m j : Nat) (thr : ℚ) (hj : j < m) :
    ∀ (count i : Nat) (aug augj : Buf), i + count = n → n * (n + m) ≤ aug.length →
      n * (n + 1) ≤ augj.length → ColumnOf n m j aug augj →
      ∃ out outj, gauss_jordan_loop n m thr count i aug = some out ∧
        gauss_jordan_loop n 1 thr count i augj = some outj ∧
        out.singular_at = outj.singular_at ∧ ColumnOf n m j out.aug outj.aug := by
  intro count
  induction count with
  | zero =>
    intro i aug augj _ _ _ hR
    exact ⟨⟨aug, none⟩, ⟨augj, none⟩, rfl, rfl, rfl, hR⟩
  | succ count ih =>
    intro i aug augj hin hlen hlenj hR
    have hi : i < n := by omega
    obtain ⟨a, a', b, e1, e2, l1, l2, hR'⟩ :=
      gauss_jordan_step_sim n m j i aug augj thr hi hj hlen hlenj hR
    cases b with
    | true =>
      refine ⟨⟨a, some i⟩, ⟨a', some i⟩, ?_, ?_, rfl, hR'⟩
      · rw [gauss_jordan_loop_succ n m thr count i aug a true e1]; rfl
      · rw [gauss_jordan_loop_succ n 1 thr count i augj a' true e2]; rfl
    | false =>
      obtain ⟨out, outj, o1, o2, o3, o4⟩ := ih (i + 1) a a' (by omega) (by rw [l1]; exact hlen)
        (by rw [l2]; exact hlenj) hR'
      refine ⟨out, outj, ?_, ?_, o3, o4⟩
      · rw [gauss_jordan_loop_succ n m thr count i aug a false e1]; exact o1
      · rw [gauss_jordan_loop_succ n 1 thr count i augj a' false e2]; exact o2

/-! ## Pivots of an invertible matrix -/

theorem Ker_congr {n s : Nat} {M M' : Nat → Nat → Vec2d} {y : Nat → Vec2d}
    (h : AgreeOn n s M M') (hns : n ≤ s) (hK : Ker n M y) : Ker n M' y := by
  intro r hr
  rw [← hK r hr]
  refine Finset.sum_congr rfl fun c hc => ?_
  rw [h r c hr (lt_of_lt_of_le (Finset.mem_range.1 hc) hns)]

theorem Ker_swapM {n i pr : Nat} {M : Nat → Nat → Vec2d} {y : Nat → Vec2d}
    (hi : i < n) (hpr : pr < n) (hK : Ker n (swapM i pr M) y) : Ker n M y := by
  intro r hr
  by_cases e1 : r = i
  · subst e1
    have := hK pr hpr
    by_cases e2 : pr = r
    · subst e2; simpa [swapM] using this
    · simpa [swapM, e2] using this
  · by_cases e2 : r = pr
    · subst e2
      have := hK i hi
      simpa [swapM] using this
    · have := hK r hr
      simpa [swapM, e1, e2] using this

theorem Ker_scaleM {n i : Nat} {p : Vec2d} {M : Nat → Nat → Vec2d} {y : Nat → Vec2d}
    (hp : p ≠ 0) (hK : Ker n (scaleM i p⁻¹ M) y) : Ker n M y := by
  intro r hr
  have := hK r hr
  by_cases e1 : r = i
  · subst e1
    simp only [scaleM, if_true] at this
    have h2 : ∑ c ∈ Finset.range n, M r c * y c =
        p * ∑ c ∈ Finset.range n, M r c * p⁻¹ * y c := by
      rw [Finset.mul_sum]
      refine Finset.sum_congr rfl fun c _ => ?_
      field_simp
    rw [h2, this, mul_zero]
  · simpa [scaleM, e1] using this

theorem Ker_elimM {n i : Nat} {M : Nat → Nat → Vec2d} {y : Nat → Vec2d}
    (hi : i < n) (hK : Ker n (elimM n i M) y) : Ker n M y := by
  have hrow : ∑ c ∈ Finset.range n, M i c * y c = 0 := by
    have := hK i hi
    simpa [elimM] using this
  intro r hr
  by_cases e1 : r = i
  · subst e1; exact hrow
  · have := hK r hr
    simp only [elimM, hr, e1, ne_eq, not_false_eq_true, and_self, if_true] at this
    have h2 : ∑ c ∈ Finset.range n, M r c * y c =
        ∑ c ∈ Finset.range n, (M r c - M r i * M i c) * y c +
          M r i * ∑ c ∈ Finset.range n, M i c * y c := by
      rw [Finset.mul_sum, ← Finset.sum_add_distrib]
      refine Finset.sum_congr rfl fun c _ => ?_
      ring
    rw [h2, this, hrow]; ring

theorem Inj_stepM {n i pr : Nat} {M : Nat → Nat → Vec2d}
    (hi : i < n) (hpr : pr < n) (hp : swapM i pr M i i ≠ 0) (hI : Inj n M) :
    Inj n (stepM n i pr M) :=
  fun y hK => hI y (Ker_swapM hi hpr (Ker_scaleM hp (Ker_elimM hi hK)))

/-- With unit columns `0 .. i-1` and a trivial kernel, column `i` cannot be
zero from row `i` down: the entry of largest magnitude there is not zero. -/
theorem pivot_ne_zero {n i pr : Nat} {M : Nat → Nat → Vec2d} (hi : i < n)
    (hmax : ∀ r, i ≤ r → r < n → (M r i).norm ≤ (M pr i).norm)
    (hU : UnitCols n i M) (hI : Inj n M) : M pr i ≠ 0 := by
  intro hz
  have hcol : ∀ r, i ≤ r → r < n → M r i = 0 := fun r h1 h2 => by
    have := hmax r h1 h2
    rw [hz, norm_zero] at this
    exact (Vec2d.norm_eq_zero_iff _).1 (le_antisymm this (Vec2d.norm_nonneg _))
  have hK : Ker n M (fun c => if c = i then 1 else if c < i then -M c i else 0) := by
    intro r hr
    have hterm : ∀ c ∈ Finset.range n,
        M r c * (if c = i then 1 else if c < i then -M c i else 0) =
          (if i = c then M r i else 0) + (if r = c then (if c < i then -M r i else 0) else 0) := by
      intro c hc
      by_cases e1 : c = i
      · subst e1
        simp
      · have e1' : ¬ (i = c) := fun h => e1 h.symm
        rw [if_neg e1, if_neg e1', zero_add]
        by_cases e2 : c < i
        · rw [if_pos e2, hU c e2 r hr]
          by_cases e3 : r = c
          · subst e3; simp [e2]
          · simp [e3]
        · rw [if_neg e2]
          by_cases e3 : r = c
          · simp [e3, e2]
          · simp [e3]
    rw [Finset.sum_congr rfl hterm, Finset.sum_add_distrib, Finset.sum_ite_eq,
      Finset.sum_ite_eq]
    simp only [Finset.mem_range, hi, hr, if_true]
    by_cases e : r < i
    · simp [e]
    · simp [e, hcol r (by omega) hr]
  have := hI _ hK i hi
  simp at this

/-- An invertible matrix has a trivial kernel. -/
theorem Inj_of_det_ne_zero {n : Nat} {A : Buf} (hdet : (toMatrix n A).det ≠ 0)
    {M : Nat → Nat → Vec2d} (hM : ∀ r c, r < n → c < n → M r c = ent A (r * n + c)) :
    Inj n M := by
  intro y hK
  have hv : (toMatrix n A).mulVec (fun c : Fin n => y c.val) = 0 := by
    funext r
    have := hK r.val r.isLt
    rw [← Fin.sum_univ_eq_sum_range (fun c => M r.val c * y c) n] at this
    simp only [Matrix.mulVec, Matrix.dotProduct, toMatrix, Matrix.of_apply, Pi.zero_apply]
    rw [← this]
    refine Finset.sum_congr rfl fun c _ => ?_
    rw [hM r.val c.val r.isLt c.isLt]
  have h0 := Matrix.eq_zero_of_mulVec_eq_zero hdet hv
  intro c hc
  have := congrFun h0 ⟨c, hc⟩
  simpa using this

theorem norm_pos_of_ne_zero {p : Vec2d} (hp : p ≠ 0) : 0 < p.norm :=
  lt_of_le_of_ne (Vec2d.norm_nonneg p) (fun h => hp ((Vec2d.norm_eq_zero_iff p).1 h.symm))

/-- On a buffer whose coefficient block has unit columns `0 .. i-1` and a
trivial kernel, every pivot of the remaining steps is nonzero: below some
positive threshold the run never takes the near-zero-pivot branch. -/
theorem gauss_jordan_loop_floor (n m : Nat) :
    ∀ (count i : Nat) (aug : Buf), i + count = n → n * (n + m) ≤ aug.length →
      UnitCols n i (cells aug (n + m)) → Inj n (cells aug (n + m)) →
      ∃ t0 : ℚ, 0 < t0 ∧ ∀ t, 0 < t → t ≤ t0 →
        ∃ out, gauss_jordan_loop n m t count i aug = some out ∧ out.singular_at = none := by
  intro count
  induction count with
  | zero =>
    intro i aug _ _ _ _
    exact ⟨1, one_pos, fun t _ _ => ⟨⟨aug, none⟩, rfl, rfl⟩⟩
  | succ count ih =>
    intro i aug hin hlen hU hI
    have hi : i < n := by omega
    obtain ⟨pr, _, f1, f2, f3, f4, _, _, _, _⟩ := gauss_jordan_step_pivot n m i aug 0 hi hlen
    have hp : cells aug (n + m) pr i ≠ 0 := pivot_ne_zero hi f4 hU hI
    have hp' : swapM i pr (cells aug (n + m)) i i ≠ 0 := by rw [swapM_pivot]; exact hp
    obtain ⟨pr2, aug', g1, _, _, _, _, hl, _, hok⟩ :=
      gauss_jordan_step_pivot n m i aug (cells aug (n + m) pr i).norm hi hlen
    rw [f1] at g1
    simp only [Option.some.injEq, Prod.mk.injEq, and_true] at g1
    subst g1
    have hs : ¬ (swapM i pr (cells aug (n + m)) i i).norm < (cells aug (n + m) pr i).norm := by
      rw [swapM_pivot]; exact lt_irrefl _
    obtain ⟨e1, e2⟩ := hok hs
    have hag : AgreeOn n (n + m) (stepM n i pr (cells aug (n + m))) (cells aug' (n + m)) :=
      fun r c _ hc => (e2 r c hc).symm
    have hag' : AgreeOn n (n + m) (cells aug' (n + m)) (stepM n i pr (cells aug (n + m))) :=
      fun r c _ hc => e2 r c hc
    have hU' : UnitCols n (i + 1) (cells aug' (n + m)) :=
      UnitCols_congr hag (by omega) (UnitCols_stepM hi f2 f3 hp' hU)
    have hI' : Inj n (cells aug' (n + m)) :=
      fun y hK => Inj_stepM hi f3 hp' hI y (Ker_congr hag' (by omega) hK)
    obtain ⟨t0, ht0, hrun⟩ := ih (i + 1) aug' (by omega) (by rw [hl]; exact hlen) hU' hI'
    refine ⟨min (cells aug (n + m) pr i).norm t0, lt_min (norm_pos_of_ne_zero hp) ht0,
      fun t ht htle => ?_⟩
    obtain ⟨out, o1, o2⟩ := hrun t ht (le_trans htle (min_le_right _ _))
    have hstep := gauss_jordan_step_of_le n m i aug aug' _ t hi hlen
      (le_trans htle (min_le_left _ _)) e1
    exact ⟨out, by rw [gauss_jordan_loop_succ n m t count i aug aug' false hstep]; exact o1, o2⟩

/-! ## Rows as combinations of the rows of the input -/

theorem RowComb_congr {n : Nat} {a M M' : Nat → Nat → Vec2d}
    (h : AgreeOn n (n + n) M M') (hR : RowComb n a M) : RowComb n a M' := by
  intro r c hr hc
  rw [← h r c hr (by omega), ← hR r c hr hc]
  refine Finset.sum_congr rfl fun j hj => ?_
  rw [h r (n + j) hr (by have := Finset.mem_range.1 hj; omega)]

theorem RowComb_swapM {n i pr : Nat} {a M : Nat → Nat → Vec2d}
    (hi : i < n) (hpr : pr < n) (hR : RowComb n a M) : RowComb n a (swapM i pr M) := by
  intro r c hr hc
  by_cases e1 : r = i
  · have := hR pr c hpr hc
    simpa [swapM, e1] using this
  · by_cases e2 : r = pr
    · subst e2
      have := hR i c hi hc
      simpa [swapM, e1] using this
    · have := hR r c hr hc
      simpa [swapM, e1, e2] using this

theorem RowComb_scaleM {n i : Nat} {p : Vec2d} {a M : Nat → Nat → Vec2d}
    (hR : RowComb n a M) : RowComb n a (scaleM i p M) := by
  intro r c hr hc
  by_cases e1 : r = i
  · subst e1
    simp only [scaleM, if_true]
    rw [← hR r c hr hc, Finset.sum_mul]
    refine Finset.sum_congr rfl fun j _ => ?_
    ring
  · have := hR r c hr hc
    simpa [scaleM, e1] using this

theorem RowComb_elimM {n i : Nat} {a M : Nat → Nat → Vec2d}
    (hi : i < n) (hR : RowComb n a M) : RowComb n a (elimM n i M) := by
  intro r c hr hc
  by_cases e1 : r = i
  · subst e1
    have := hR r c hr hc
    simpa [elimM] using this
  · simp only [elimM, hr, e1, ne_eq, not_false_eq_true, and_self, if_true]
    rw [← hR r c hr hc, ← hR i c hi hc, Finset.mul_sum, ← Finset.sum_sub_distrib]
    refine Finset.sum_congr rfl fun j _ => ?_
    ring

theorem RowComb_stepM {n i pr : Nat} {a M : Nat → Nat → Vec2d}
    (hi : i < n) (hpr : pr < n) (hR : RowComb n a M) : RowComb n a (stepM n i pr M) :=
  RowComb_elimM hi (RowComb_scaleM (RowComb_swapM hi hpr hR))

/-- A completed run of steps keeps every row of the coefficient block the
combination of the rows of `a` that its right block names. -/
theorem gauss_jordan_loop_rowcomb (n : Nat) (thr : ℚ) (a : Nat → Nat → Vec2d) :
    ∀ (count i : Nat) (aug prev : Buf), i + count ≤ n → n * (n + n) ≤ aug.length →
      gauss_jordan_loop n n thr count i aug = some ⟨prev, none⟩ →
      RowComb n a (cells aug (n + n)) → RowComb n a (cells prev (n + n)) := by
  intro count
  induction count with
  | zero =>
    intro i aug prev _ _ h hR
    simp only [gauss_jordan_loop, Option.some.injEq, Outcome.mk.injEq, and_true] at h
    subst h; exact hR
  | succ count ih =>
    intro i aug prev hin hlen h hR
    have hi : i < n := by omega
    obtain ⟨pr, aug', _, _, f3, hl, hsing, hok⟩ := gauss_jordan_step_spec n n i aug thr hi hlen
    by_cases hs : (swapM i pr (cells aug (n + n)) i i).norm < thr
    · rw [gauss_jordan_loop_succ n n thr count i aug aug' true (hsing hs).1] at h
      simp at h
    · obtain ⟨e1, e2⟩ := hok hs
      rw [gauss_jordan_loop_succ n n thr count i aug aug' false e1] at h
      have hag : AgreeOn n (n + n) (stepM n i pr (cells aug (n + n))) (cells aug' (n + n)) :=
        fun r c _ hc => (e2 r c hc).symm
      exact ih (i + 1) aug' prev (by omega) (by rw [hl]; exact hlen) (by simpa using h)
        (RowComb_congr hag (RowComb_stepM hi f3 hR))

/-- The buffer `[A|I]` has the property: the rows of `A` are themselves. -/
theorem RowComb_augment {n : Nat} {A aug : Buf}
    (h : ∀ r c, r < n → c < n + n → ent aug (r * (n + n) + c) =
      if c < n then ent A (r * n + c) else if r = c - n then 1 else 0) :
    RowComb n (cells A n) (cells aug (n + n)) := by
  intro r c hr hc
  simp only [cells]
  rw [h r c hr (by omega), if_pos hc]
  have : ∀ j ∈ Finset.range n, ent aug (r * (n + n) + (n + j)) * ent A (j * n + c) =
      if r = j then ent A (j * n + c) else 0 := by
    intro j hj
    have hj' : j < n := Finset.mem_range.1 hj
    rw [h r (n + j) hr (by omega)]
    have e0 : ¬ (n + j < n) := by omega
    have e1 : n + j - n = j := by omega
    rw [if_neg e0, e1]
    by_cases e : r = j
    · simp [e]
    · simp [e]
  rw [Finset.sum_congr rfl this, Finset.sum_ite_eq]
  simp [hr]

/-- A row with a unit column in the coefficient block has a right block that
is not all zero. -/
theorem RowComb_row_ne_zero {n k i : Nat} {a M : Nat → Nat → Vec2d}
    (hR : RowComb n a M) (hU : UnitCols n k M) (hi : i < k) (hin : i < n) :
    ∃ j, j < n ∧ M i (n + j) ≠ 0 := by
  by_contra hcon
  push_neg at hcon
  have h1 := hR i i hin hin
  rw [hU i hi i hin, if_pos rfl] at h1
  have hz : ∑ j ∈ Finset.range n, M i (n + j) * a j i = 0 := by
    apply Finset.sum_eq_zero
    intro j hj
    rw [hcon j (Finset.mem_range.1 hj), zero_mul]
  rw [hz] at h1
  exact zero_ne_one h1

/-- An inversion under a positive threshold, with the run that came before the
near-zero pivot: the rows from the step on are zero, the rows above it are the
right halves the completed steps left, and none of these is all zero. -/
theorem invert_complex_matrix_stopped (n : Nat) (A Ainv ws : Buf) (thr : ℚ) (hthr : 0 < thr)
    (hA : n * n ≤ A.length) (hAinv : n * n ≤ Ainv.length) (hws : n * (n + n) ≤ ws.length) :
    ∃ r aug, invert_complex_matrix n A Ainv ws thr = some r ∧ r.out.length = Ainv.length ∧
      augment_identity n A ws = some aug ∧
      (r.singular_at = none → toMatrix n A * toMatrix n r.out = 1) ∧
      ∀ k, r.singular_at = some k → k < n ∧
        (∀ i j, k ≤ i → i < n → j < n → ent r.out (i * n + j) = 0) ∧
        ∃ prev, gauss_jordan_loop n n thr k 0 aug = some ⟨prev, none⟩ ∧
          prev.length = ws.length ∧
          (∀ i j, i < k → j < n →
            ent r.out (i * n + j) = ent prev (i * (n + n) + (j + n))) ∧
          ∀ i, i < k → ∃ j, j < n ∧ ent r.out (i * n + j) ≠ 0 := by
  obtain ⟨aug, a1, a2, a3⟩ := augment_identity_spec n A ws hA hws
  have hlen : n * (n + n) ≤ aug.length := by rw [a2]; exact hws
  obtain ⟨out, g1, g2, g3, g4⟩ := gauss_jordan_eliminate_spec n n aug thr hlen
  obtain ⟨X', c1, c2, c3⟩ := copy_solution_spec n n out.aug Ainv (by rw [g2, a2]; exact hws) hAinv
  rw [← copy_inverse_eq] at c1
  have hrun : invert_complex_matrix n A Ainv ws thr = some ⟨X', out.aug, out.singular_at⟩ := by
    simp only [invert_complex_matrix, a1, g1, c1, Option.bind_eq_bind, Option.some_bind]
  obtain ⟨r', s1, _, s3, _⟩ := invert_complex_matrix_spec n A Ainv ws thr hA hAinv hws
  rw [hrun] at s1
  simp only [Option.some.injEq] at s1
  subst s1
  refine ⟨⟨X', out.aug, out.singular_at⟩, aug, hrun, c2, a1,
    fun hnone => toMatrix_mul_eq_one (s3 hthr hnone), fun k hk => ?_⟩
  obtain ⟨k1, prev, k2, kl, k3, k4⟩ := g4 k hk
  have hsame : ∀ i j, i < k → j < n → ent X' (i * n + j) = ent prev (i * (n + n) + (j + n)) :=
    fun i j hi hj => by rw [c3 i j (by omega) hj, k4 i (j + n) hi (by omega)]
  refine ⟨k1, fun i j h1 h2 hj => ?_, prev, k2, by rw [kl, a2], hsame, fun i hi => ?_⟩
  · show ent X' (i * n + j) = 0
    rw [c3 i j h2 hj]
    exact k3 i (j + n) h1 h2 (by omega)
  · obtain ⟨out', p1, _, p3⟩ := gauss_jordan_loop_prefix n n thr hthr k 0 aug (by omega) hlen
    rw [k2] at p1
    simp only [Option.some.injEq] at p1
    subst p1
    have hU : UnitCols n (0 + k) (cells prev (n + n)) :=
      p3 rfl (fun c hc => absurd hc (Nat.not_lt_zero _))
    rw [Nat.zero_add] at hU
    have hR := gauss_jordan_loop_rowcomb n thr (cells A n) k 0 aug prev (by omega) hlen k2
      (RowComb_augment a3)
    obtain ⟨j, hj, hne⟩ := RowComb_row_ne_zero hR hU hi (by omega)
    refine ⟨j, hj, ?_⟩
    show ent X' (i * n + j) ≠ 0
    rw [hsame i j hi hj, Nat.add_comm j n]
    exact hne

/-! ## The column exchange -/

/-- What `swap_columns_and_rows` does: in each of the rows `0 .. n-1` the
entries in columns `col1` and `col2` are exchanged, and every other entry of
the buffer, the right part included, is left as it was. -/
theorem swap_columns_and_rows_spec (n col1 col2 s : Nat) (A : Buf) (h1 : col1 < s)
    (h2 : col2 < s) (hlen : n * s ≤ A.length) :
    ∃ A', swap_columns_and_rows n col1 col2 A s = some A' ∧ A'.length = A.length ∧
      ∀ r c, c < s → ent A' (r * s + c) =
        if r < n then
          (if c = col1 then ent A (r * s + col2) else if c = col2 then ent A (r * s + col1)
            else ent A (r * s + c))
        else ent A (r * s + c) := by
  unfold swap_columns_and_rows
  refine forRange_rule
    (fun i (D : Buf) => D.length = A.length ∧ ∀ r c, c < s → ent D (r * s + c) =
      if r < i then
        (if c = col1 then ent A (r * s + col2) else if c = col2 then ent A (r * s + col1)
          else ent A (r * s + c))
      else ent A (r * s + c))
    ?_ ?_ ?_
  · exact ⟨rfl, fun r c _ => by simp⟩
  · intro i D _ hi hP
    dsimp only at hP ⊢
    obtain ⟨hl, hD⟩ := hP
    have hi' : i < n := by omega
    have b1 : i * s + col1 < D.length := by rw [hl]; exact lt_of_lt_of_le (idx_lt hi' h1) hlen
    have b2 : i * s + col2 < D.length := by rw [hl]; exact lt_of_lt_of_le (idx_lt hi' h2) hlen
    have b2' : i * s + col2 < (D.set (i * s + col1) (ent D (i * s + col2))).length := by
      simpa using b2
    refine ⟨(D.set (i * s + col1) (ent D (i * s + col2))).set (i * s + col2)
        (ent D (i * s + col1)),
      by simp only [rd_eq b1, rd_eq b2, Option.bind_eq_bind, Option.some_bind,
        wr_eq b1, wr_eq b2'], by simp [hl], ?_⟩
    intro r c hc
    have hii : ¬ (i < i) := lt_irrefl i
    rw [ent_set2 b2' h2 _ r c hc, ent_set2 b1 h1 _ r c hc, hD r c hc, hD i col1 h1,
      hD i col2 h2, if_neg hii, if_neg hii]
    by_cases e : r = i
    · subst e
      have q : r < r + 1 := by omega
      rw [if_neg hii, if_pos q]
      by_cases e1 : c = col1
      · by_cases e2 : c = col2
        · simp [e1, e2]; simp [← e1, ← e2]
        · subst e1; simp [e2]
      · by_cases e2 : c = col2
        · subst e2; simp [e1]
        · simp [e1, e2]
    · have : r < i + 1 ↔ r < i := by omega
      simp [e, this]
  · intro D hP
    dsimp only at hP ⊢
    exact ⟨hP.1, fun r c hc => by rw [hP.2 r c hc]; simp⟩

/-! ## Claims -/

/-- C1, as stated, fails for a threshold that is not positive: with threshold
`0` the `1×1` zero matrix never takes the near-zero-pivot branch (its pivot
has norm `0`, which is not below `0`), and the product of `A` with the output
is `(0,0)`, not the identity `(1,0)`. -/
theorem invert_complex_matrix_zero_threshold :
    ∃ r, invert_complex_matrix 1 [⟨0, 0⟩] [⟨0, 0⟩] [⟨0, 0⟩, ⟨0, 0⟩] 0 = some r ∧
      r.singular_at = none ∧
      multiply_complex_matrices 1 1 1 [⟨0, 0⟩] r.out [⟨0, 0⟩] = some [⟨0, 0⟩] ∧
      (⟨0, 0⟩ : Vec2d) ≠ ⟨1, 0⟩ :=
  ⟨⟨[⟨0, 0⟩], [⟨0, 0⟩, ⟨0, 0⟩], none⟩, by decide!, rfl, by decide!, by decide!⟩

/-- C1 (amended): inversion is sound for every positive threshold. For every
`n`, every `n×n` matrix `A`, output buffers of `n·n` entries and a workspace
of `2·n·n` entries, `invert_complex_matrix` returns, and if the elimination
never took the near-zero-pivot branch then
`multiply_complex_matrices(n,n,n,A,Ainv)` is the identity, entry for entry. -/
theorem invert_complex_matrix_sound (n : Nat) (A Ainv workspace C : Buf)
    (pivot_threshold : ℚ) (hthr : 0 < pivot_threshold)
    (hA : n * n ≤ A.length) (hAinv : n * n ≤ Ainv.length)
    (hws : 2 * n * n ≤ workspace.length) (hC : n * n ≤ C.length) :
    ∃ r, invert_complex_matrix n A Ainv workspace pivot_threshold = some r ∧
      (r.singular_at = none →
        ∃ C', multiply_complex_matrices n n n A r.out C = some C' ∧
          ∀ i j, i < n → j < n →
            rd C' (i * n + j) = some (if i = j then ⟨1, 0⟩ else ⟨0, 0⟩)) := by
  obtain ⟨r, h1, h2, h3, _⟩ := invert_complex_matrix_spec n A Ainv workspace pivot_threshold
    hA hAinv (by rw [ws_size]; exact hws)
  refine ⟨r, h1, fun hnone => ?_⟩
  obtain ⟨C', c1, c2⟩ := multiply_eq_of_sums n n A r.out C
    (fun i j => if i = j then ⟨1, 0⟩ else ⟨0, 0⟩) hA (by rw [h2]; exact hAinv) hC
    (fun i j hi hj => by
      rw [h3 hthr hnone i j hi hj]
      by_cases e : i = j
      · simp [e]; rfl
      · simp [e]; rfl)
  exact ⟨C', c1, c2⟩

/-- C1, witness: the matrix `[[(0,1),(1,0)],[(1,0),(0,0)]]` of the spec, at
the default threshold; it completes without a near-zero pivot. -/
theorem invert_complex_matrix_sound_witness :
    (0 < default_threshold ∧
      2 * 2 ≤ ([⟨0, 1⟩, ⟨1, 0⟩, ⟨1, 0⟩, ⟨0, 0⟩] : Buf).length ∧
      2 * 2 ≤ (List.replicate 4 ⟨0, 0⟩ : Buf).length ∧
      2 * 2 * 2 ≤ (List.replicate 8 ⟨0, 0⟩ : Buf).length) ∧
    (invert_complex_matrix 2 [⟨0, 1⟩, ⟨1, 0⟩, ⟨1, 0⟩, ⟨0, 0⟩] (List.replicate 4 ⟨0, 0⟩)
      (List.replicate 8 ⟨0, 0⟩) default_threshold).map (fun r => (r.out, r.singular_at)) =
        some ([⟨0, 0⟩, ⟨1, 0⟩, ⟨1, 0⟩, ⟨0, -1⟩], none) ∧
    ∃ r, invert_complex_matrix 2 [⟨0, 1⟩, ⟨1, 0⟩, ⟨1, 0⟩, ⟨0, 0⟩] (List.replicate 4 ⟨0, 0⟩)
        (List.replicate 8 ⟨0, 0⟩) default_threshold = some r ∧
      (r.singular_at = none →
        ∃ C', multiply_complex_matrices 2 2 2 [⟨0, 1⟩, ⟨1, 0⟩, ⟨1, 0⟩, ⟨0, 0⟩] r.out
            (List.replicate 4 ⟨0, 0⟩) = some C' ∧
          ∀ i j, i < 2 → j < 2 →
            rd C' (i * 2 + j) = some (if i = j then ⟨1, 0⟩ else ⟨0, 0⟩)) :=
  ⟨⟨by decide!, by decide, by decide, by decide⟩, by decide!,
    invert_complex_matrix_sound 2 _ _ _ _ default_threshold (by decide!) (by decide)
      (by decide) (by decide) (by decide)⟩

/-- C2: solving is sound. For every `n`, `m`, every `n×n` matrix `A`, `n×m`
matrix `B`, an output buffer of `n·m` entries, a workspace of `n·(n+m)`
entries and a positive threshold (the default `1e-10` is one),
`solve_complex_system` returns, and if the elimination never took the
near-zero-pivot branch then `multiply_complex_matrices(n,n,m,A,X)` equals `B`
entry for entry. -/
theorem solve_complex_system_sound (n m : Nat) (A B X workspace C : Buf)
    (pivot_threshold : ℚ) (hthr : 0 < pivot_threshold)
    (hA : n * n ≤ A.length) (hB : n * m ≤ B.length) (hX : n * m ≤ X.length)
    (hws : n * (n + m) ≤ workspace.length) (hC : n * m ≤ C.length) :
    ∃ r, solve_complex_system n m A B X workspace pivot_threshold = some r ∧
      (r.singular_at = none →
        ∃ C', multiply_complex_matrices n n m A r.out C = some C' ∧
          ∀ i j, i < n → j < m → rd C' (i * m + j) = rd B (i * m + j)) := by
  obtain ⟨r, h1, h2, h3, _⟩ := solve_complex_system_spec n m A B X workspace pivot_threshold
    hA hB hX hws
  refine ⟨r, h1, fun hnone => ?_⟩
  obtain ⟨C', c1, c2⟩ := multiply_eq_of_sums n m A r.out C
    (fun i j => ent B (i * m + j)) hA (by rw [h2]; exact hX) hC
    (fun i j hi hj => h3 hthr hnone i j hi hj)
  refine ⟨C', c1, fun i j hi hj => ?_⟩
  rw [c2 i j hi hj, rd_eq (lt_of_lt_of_le (idx_lt hi hj) hB)]

/-- C2, witness: `A = [[(0,1),(1,0)],[(1,0),(0,0)]]`, `B = [(1,0),(0,1)]`, the
default threshold; the solve completes and `X = [(0,1),(2,0)]`. -/
theorem solve_complex_system_sound_witness :
    (0 < default_threshold ∧
      2 * 2 ≤ ([⟨0, 1⟩, ⟨1, 0⟩, ⟨1, 0⟩, ⟨0, 0⟩] : Buf).length ∧
      2 * 1 ≤ ([⟨1, 0⟩, ⟨0, 1⟩] : Buf).length ∧
      2 * 1 ≤ (List.replicate 2 ⟨0, 0⟩ : Buf).length ∧
      2 * (2 + 1) ≤ (List.replicate 6 ⟨0, 0⟩ : Buf).length) ∧
    (solve_complex_system 2 1 [⟨0, 1⟩, ⟨1, 0⟩, ⟨1, 0⟩, ⟨0, 0⟩] [⟨1, 0⟩, ⟨0, 1⟩]
      (List.replicate 2 ⟨0, 0⟩) (List.replicate 6 ⟨0, 0⟩) default_threshold).map
        (fun r => (r.out, r.singular_at)) = some ([⟨0, 1⟩, ⟨2, 0⟩], none) ∧
    ∃ r, solve_complex_system 2 1 [⟨0, 1⟩, ⟨1, 0⟩, ⟨1, 0⟩, ⟨0, 0⟩] [⟨1, 0⟩, ⟨0, 1⟩]
        (List.replicate 2 ⟨0, 0⟩) (List.replicate 6 ⟨0, 0⟩) default_threshold = some r ∧
      (r.singular_at = none →
        ∃ C', multiply_complex_matrices 2 2 1 [⟨0, 1⟩, ⟨1, 0⟩, ⟨1, 0⟩, ⟨0, 0⟩] r.out
            (List.replicate 2 ⟨0, 0⟩) = some C' ∧
          ∀ i j, i < 2 → j < 1 → rd C' (i * 1 + j) = rd [⟨1, 0⟩, ⟨0, 1⟩] (i * 1 + j)) :=
  ⟨⟨by decide!, by decide, by decide, by decide, by decide⟩, by decide!,
    solve_complex_system_sound 2 1 _ _ _ _ _ default_threshold (by decide!) (by decide)
      (by decide) (by decide) (by decide) (by decide)⟩


/-- C4, as stated, fails: `[[(1,0),(2,0)],[(0,0),(0,0)]]` has an all-zero row
and determinant zero; the near-zero pivot is met at step 1, only row 1 of the
output is zeroed, and row 0 keeps `(1,0)` in its first entry. -/
theorem invert_complex_matrix_zero_row :
    (toMatrix 2 [⟨1, 0⟩, ⟨2, 0⟩, ⟨0, 0⟩, ⟨0, 0⟩]).det = 0 ∧
    (invert_complex_matrix 2 [⟨1, 0⟩, ⟨2, 0⟩, ⟨0, 0⟩, ⟨0, 0⟩] (List.replicate 4 ⟨0, 0⟩)
      (List.replicate 8 ⟨0, 0⟩) default_threshold).map (fun r => (r.out, r.singular_at)) =
        some ([⟨1, 0⟩, ⟨0, 0⟩, ⟨0, 0⟩, ⟨0, 0⟩], some 1) ∧
    (⟨1, 0⟩ : Vec2d) ≠ ⟨0, 0⟩ := by
  refine ⟨?_, by decide!, by decide!⟩
  rw [Matrix.det_fin_two]
  simp only [toMatrix, Matrix.of_apply]
  decide!

/-- C4 (amended), in exact arithmetic: for every `n` and every singular `n×n`
matrix `A` (`det A = 0`; then `n ≥ 1`), `invert_complex_matrix` with the default
threshold takes the near-zero-pivot branch at some step `k < n`, and every
entry of rows `k .. n-1` of the output is `(0,0)`. The rows above `k` keep the
partial reduction: row `i < k` of the output is the right half of row `i` of
the buffer that the completed steps `0 .. k-1` left from `[A|I]`, and it is
not all zero. So the output is all zero exactly when the branch is taken at
step 0. -/
theorem invert_complex_matrix_singular (n : Nat) (A Ainv workspace : Buf)
    (hA : n * n ≤ A.length) (hAinv : n * n ≤ Ainv.length)
    (hws : 2 * n * n ≤ workspace.length) (hdet : (toMatrix n A).det = 0) :
    ∃ r k aug prev, invert_complex_matrix n A Ainv workspace default_threshold = some r ∧
      r.singular_at = some k ∧ k < n ∧
      (∀ i j, k ≤ i → i < n → j < n → rd r.out (i * n + j) = some ⟨0, 0⟩) ∧
      augment_identity n A workspace = some aug ∧
      gauss_jordan_loop n n default_threshold k 0 aug = some ⟨prev, none⟩ ∧
      (∀ i j, i < k → j < n →
        rd r.out (i * n + j) = rd prev (i * (2 * n) + (j + n))) ∧
      (∀ i, i < k → ∃ j, j < n ∧ rd r.out (i * n + j) ≠ some ⟨0, 0⟩) ∧
      ((∀ i j, i < n → j < n → rd r.out (i * n + j) = some ⟨0, 0⟩) ↔ k = 0) := by
  have hthr : 0 < default_threshold := by norm_num [default_threshold]
  have hws' : n * (n + n) ≤ workspace.length := by rw [ws_size]; exact hws
  obtain ⟨r, aug, h1, h2, h3, h4, h5⟩ := invert_complex_matrix_stopped n A Ainv workspace
    default_threshold hthr hA hAinv hws'
  have hb : ∀ i j, i < n → j < n → i * n + j < r.out.length := fun i j hi hj => by
    rw [h2]; exact lt_of_lt_of_le (idx_lt hi hj) hAinv
  cases hs : r.singular_at with
  | none => exact absurd hdet (det_ne_zero_of_mul_eq_one (h4 hs))
  | some k =>
    obtain ⟨k1, k2, prev, k3, k4, k5, k6⟩ := h5 k hs
    have hzero : ∀ i j, k ≤ i → i < n → j < n → rd r.out (i * n + j) = some ⟨0, 0⟩ :=
      fun i j hki hi hj => by rw [rd_eq (hb i j hi hj), k2 i j hki hi hj]; rfl
    have hne : ∀ i, i < k → ∃ j, j < n ∧ rd r.out (i * n + j) ≠ some ⟨0, 0⟩ := fun i hi => by
      obtain ⟨j, hj, e⟩ := k6 i hi
      refine ⟨j, hj, fun h => e ?_⟩
      rw [ent_of_rd h]; rfl
    refine ⟨r, k, aug, prev, h1, hs, k1, hzero, h3, k3, fun i j hi hj => ?_, hne,
      fun hall => ?_, fun hk0 i j hi hj => hzero i j (by omega) hi hj⟩
    · have hp : i * (n + n) + (j + n) < prev.length := by
        rw [k4]; exact lt_of_lt_of_le (idx_lt (by omega) (by omega)) hws'
      rw [two_mul, rd_eq (hb i j (by omega) hj), rd_eq hp, k5 i j hi hj]
    · rcases Nat.eq_zero_or_pos k with h0 | h0
      · exact h0
      · obtain ⟨j, hj, e⟩ := hne 0 h0
        exact absurd (hall 0 j (by omega) hj) e

/-- C4, witness: `[[(0,0),(0,0)],[(1,0),(2,0)]]`, whose zero row comes first;
the rows are exchanged at step 0, the branch is taken at step 1, row 1 of the
output is zero and row 0 is the right half `[(0,0),(1,0)]` that step 0 left. -/
theorem invert_complex_matrix_singular_witness :
    (2 * 2 ≤ ([⟨0, 0⟩, ⟨0, 0⟩, ⟨1, 0⟩, ⟨2, 0⟩] : Buf).length ∧
      2 * 2 ≤ (List.replicate 4 ⟨0, 0⟩ : Buf).length ∧
      2 * 2 * 2 ≤ (List.replicate 8 ⟨0, 0⟩ : Buf).length ∧
      (toMatrix 2 [⟨0, 0⟩, ⟨0, 0⟩, ⟨1, 0⟩, ⟨2, 0⟩]).det = 0) ∧
    (invert_complex_matrix 2 [⟨0, 0⟩, ⟨0, 0⟩, ⟨1, 0⟩, ⟨2, 0⟩] (List.replicate 4 ⟨0, 0⟩)
      (List.replicate 8 ⟨0, 0⟩) default_threshold).map (fun r => (r.out, r.singular_at)) =
        some ([⟨0, 0⟩, ⟨1, 0⟩, ⟨0, 0⟩, ⟨0, 0⟩], some 1) ∧
    gauss_jordan_loop 2 2 default_threshold 1 0
        [⟨0, 0⟩, ⟨0, 0⟩, ⟨1, 0⟩, ⟨0, 0⟩, ⟨1, 0⟩, ⟨2, 0⟩, ⟨0, 0⟩, ⟨1, 0⟩] =
      some ⟨[⟨1, 0⟩, ⟨2, 0⟩, ⟨0, 0⟩, ⟨1, 0⟩, ⟨0, 0⟩, ⟨0, 0⟩, ⟨1, 0⟩, ⟨0, 0⟩], none⟩ ∧
    ∃ r k aug prev,
      invert_complex_matrix 2 [⟨0, 0⟩, ⟨0, 0⟩, ⟨1, 0⟩, ⟨2, 0⟩] (List.replicate 4 ⟨0, 0⟩)
        (List.replicate 8 ⟨0, 0⟩) default_threshold = some r ∧
      r.singular_at = some k ∧ k < 2 ∧
      (∀ i j, k ≤ i → i < 2 → j < 2 → rd r.out (i * 2 + j) = some ⟨0, 0⟩) ∧
      augment_identity 2 [⟨0, 0⟩, ⟨0, 0⟩, ⟨1, 0⟩, ⟨2, 0⟩] (List.replicate 8 ⟨0, 0⟩) = some aug ∧
      gauss_jordan_loop 2 2 default_threshold k 0 aug = some ⟨prev, none⟩ ∧
      (∀ i j, i < k → j < 2 →
        rd r.out (i * 2 + j) = rd prev (i * (2 * 2) + (j + 2))) ∧
      (∀ i, i < k → ∃ j, j < 2 ∧ rd r.out (i * 2 + j) ≠ some ⟨0, 0⟩) ∧
      ((∀ i j, i < 2 → j < 2 → rd r.out (i * 2 + j) = some ⟨0, 0⟩) ↔ k = 0) :=
  have hdet : (toMatrix 2 [⟨0, 0⟩, ⟨0, 0⟩, ⟨1, 0⟩, ⟨2, 0⟩]).det = 0 := by
    rw [Matrix.det_fin_two]
    simp only [toMatrix, Matrix.of_apply]
    decide!
  ⟨⟨by decide, by decide, by decide, hdet⟩, by decide!, by decide!,
    invert_complex_matrix_singular 2 _ _ _ (by decide) (by decide) (by decide) hdet⟩


/-- C5, as stated, fails in its witness: for `A = 1×2 [(1,0),(0,1)]` and
`B = 2×1 [[(1,0)],[(0,1)]]` the product is `(1,0)·(1,0) + (0,1)·(0,1) =
(1,0) + (-1,0) = (0,0)`, not `(-1,0)`. -/
theorem multiply_complex_matrices_scenario :
    multiply_complex_matrices 1 2 1 [⟨1, 0⟩, ⟨0, 1⟩] [⟨1, 0⟩, ⟨0, 1⟩] [⟨0, 0⟩] =
      some [⟨0, 0⟩] ∧
    multiply_complex_matrices 1 2 1 [⟨1, 0⟩, ⟨0, 1⟩] [⟨1, 0⟩, ⟨0, 1⟩] [⟨0, 0⟩] ≠
      some [⟨-1, 0⟩] :=
  ⟨by decide!, by decide!⟩

/-- C5 (amended): `multiply_complex_matrices(n,k,m,A,B,C)` computes the matrix
product. For row-major `A` (`n×k`), `B` (`k×m`) and an output buffer of `n·m`
entries the call returns, and entry `i*m+j` of the new `C` is the sum over
`p = 0..k-1` of the complex products `A[i*k+p]·B[p*m+j]`, with
`(a+bi)(c+di) = (ac−bd)+(ad+bc)i`; the empty sum (`k = 0`) is `(0,0)`. -/
theorem multiply_complex_matrices_product (n k m : Nat) (A B C : Buf)
    (hA : n * k ≤ A.length) (hB : k * m ≤ B.length) (hC : n * m ≤ C.length) :
    ∃ C', multiply_complex_matrices n k m A B C = some C' ∧
      ∀ i j, i < n → j < m → rd C' (i * m + j) =
        some (∑ p ∈ Finset.range k,
          Vec2d.set_mul_cmplx (ent A (i * k + p)) (ent B (p * m + j))) := by
  obtain ⟨C', h1, h2, h3⟩ := multiply_spec n k m A B C hA hB hC
  refine ⟨C', h1, fun i j hi hj => ?_⟩
  have : i * m + j < C'.length := by
    rw [h2]; exact lt_of_lt_of_le (idx_lt hi hj) hC
  rw [rd_eq this, h3 i j hi hj]

/-- C5, witness: the `1×2` by `2×1` product of the spec, which is `(0,0)`. -/
theorem multiply_complex_matrices_product_witness :
    (1 * 2 ≤ ([⟨1, 0⟩, ⟨0, 1⟩] : Buf).length ∧ 2 * 1 ≤ ([⟨1, 0⟩, ⟨0, 1⟩] : Buf).length ∧
      1 * 1 ≤ ([⟨0, 0⟩] : Buf).length) ∧
    multiply_complex_matrices 1 2 1 [⟨1, 0⟩, ⟨0, 1⟩] [⟨1, 0⟩, ⟨0, 1⟩] [⟨0, 0⟩] =
      some [⟨0, 0⟩] ∧
    ∃ C', multiply_complex_matrices 1 2 1 [⟨1, 0⟩, ⟨0, 1⟩] [⟨1, 0⟩, ⟨0, 1⟩] [⟨0, 0⟩] = some C' ∧
      ∀ i j, i < 1 → j < 1 → rd C' (i * 1 + j) =
        some (∑ p ∈ Finset.range 2,
          Vec2d.set_mul_cmplx (ent [⟨1, 0⟩, ⟨0, 1⟩] (i * 2 + p))
            (ent [⟨1, 0⟩, ⟨0, 1⟩] (p * 1 + j))) :=
  ⟨⟨by decide, by decide, by decide⟩, by decide!,
    multiply_complex_matrices_product 1 2 1 _ _ _ (by decide) (by decide) (by decide)⟩

/-- C6: `find_pivot_partial` selects the first maximal row. For every `n`,
every step `i < n`, every stride and every buffer that holds the entries
`A[r*stride+i]` of rows `r < n`, the call returns `(r*, i)` with
`i ≤ r* < n`, `|A[r*][i]| ≥ |A[r][i]|` for every `r` in `[i, n)`, and
`|A[r][i]| < |A[r*][i]|` for every `r` in `[i, r*)`. -/
theorem find_pivot_partial_first_max (n i stride : Nat) (A : Buf) (hi : i < n)
    (hlen : (n - 1) * stride + i < A.length) :
    ∃ pivot_row, find_pivot_partial n i A stride = some (pivot_row, i) ∧
      i ≤ pivot_row ∧ pivot_row < n ∧
      (∀ r, i ≤ r → r < n →
        (ent A (r * stride + i)).norm ≤ (ent A (pivot_row * stride + i)).norm) ∧
      (∀ r, i ≤ r → r < pivot_row →
        (ent A (r * stride + i)).norm < (ent A (pivot_row * stride + i)).norm) :=
  find_pivot_spec n i stride A hi hlen

/-- C6, witness: a `3×3` matrix whose column 0 has magnitudes `1, 4, 4` from
row 0 down; the tie goes to row 1. -/
theorem find_pivot_partial_first_max_witness :
    (0 < 3 ∧ (3 - 1) * 3 + 0 <
      ([⟨1, 0⟩, ⟨0, 0⟩, ⟨0, 0⟩, ⟨0, 2⟩, ⟨0, 0⟩, ⟨0, 0⟩, ⟨-2, 0⟩, ⟨0, 0⟩, ⟨0, 0⟩] : Buf).length) ∧
    find_pivot_partial 3 0
      [⟨1, 0⟩, ⟨0, 0⟩, ⟨0, 0⟩, ⟨0, 2⟩, ⟨0, 0⟩, ⟨0, 0⟩, ⟨-2, 0⟩, ⟨0, 0⟩, ⟨0, 0⟩] 3 = some (1, 0) ∧
    ∃ pivot_row, find_pivot_partial 3 0
        [⟨1, 0⟩, ⟨0, 0⟩, ⟨0, 0⟩, ⟨0, 2⟩, ⟨0, 0⟩, ⟨0, 0⟩, ⟨-2, 0⟩, ⟨0, 0⟩, ⟨0, 0⟩] 3 =
          some (pivot_row, 0) ∧
      0 ≤ pivot_row ∧ pivot_row < 3 ∧
      (∀ r, 0 ≤ r → r < 3 →
        (ent [⟨1, 0⟩, ⟨0, 0⟩, ⟨0, 0⟩, ⟨0, 2⟩, ⟨0, 0⟩, ⟨0, 0⟩, ⟨-2, 0⟩, ⟨0, 0⟩, ⟨0, 0⟩]
          (r * 3 + 0)).norm ≤
        (ent [⟨1, 0⟩, ⟨0, 0⟩, ⟨0, 0⟩, ⟨0, 2⟩, ⟨0, 0⟩, ⟨0, 0⟩, ⟨-2, 0⟩, ⟨0, 0⟩, ⟨0, 0⟩]
          (pivot_row * 3 + 0)).norm) ∧
      (∀ r, 0 ≤ r → r < pivot_row →
        (ent [⟨1, 0⟩, ⟨0, 0⟩, ⟨0, 0⟩, ⟨0, 2⟩, ⟨0, 0⟩, ⟨0, 0⟩, ⟨-2, 0⟩, ⟨0, 0⟩, ⟨0, 0⟩]
          (r * 3 + 0)).norm <
        (ent [⟨1, 0⟩, ⟨0, 0⟩, ⟨0, 0⟩, ⟨0, 2⟩, ⟨0, 0⟩, ⟨0, 0⟩, ⟨-2, 0⟩, ⟨0, 0⟩, ⟨0, 0⟩]
          (pivot_row * 3 + 0)).norm) :=
  ⟨⟨by decide, by decide⟩, by decide!,
    find_pivot_partial_first_max 3 0 3 _ (by decide) (by decide)⟩

/-- C7: when `gauss_jordan_eliminate` takes the near-zero-pivot branch at step
`k`, every entry of rows `k .. n-1` of the final buffer (all `n+m` columns) is
`(0,0)`, and every row above `k` is the row as the run of the steps
`0 .. k-1` left it. -/
theorem gauss_jordan_eliminate_near_zero_frame (n m : Nat) (aug : Buf)
    (pivot_threshold : ℚ) (hlen : n * (n + m) ≤ aug.length) (out : Outcome) (k : Nat)
    (hrun : gauss_jordan_eliminate n m aug pivot_threshold = some out)
    (hk : out.singular_at = some k) :
    k < n ∧
    ∃ prev, gauss_jordan_loop n m pivot_threshold k 0 aug = some ⟨prev, none⟩ ∧
      (∀ r c, k ≤ r → r < n → c < n + m → rd out.aug (r * (n + m) + c) = some ⟨0, 0⟩) ∧
      (∀ r c, r < k → c < n + m →
        rd out.aug (r * (n + m) + c) = rd prev (r * (n + m) + c)) := by
  obtain ⟨out', h1, h2, _, h4⟩ := gauss_jordan_eliminate_spec n m aug pivot_threshold hlen
  rw [hrun] at h1
  simp only [Option.some.injEq] at h1
  subst h1
  obtain ⟨k1, prev, k2, hpl, k3, k4⟩ := h4 k hk
  have hb : ∀ r c, r < n → c < n + m → r * (n + m) + c < out.aug.length := fun r c hr hc => by
    rw [h2]; exact lt_of_lt_of_le (idx_lt hr hc) hlen
  refine ⟨k1, prev, k2, fun r c hkr hr hc => ?_, fun r c hr hc => ?_⟩
  · rw [rd_eq (hb r c hr hc), k3 r c hkr hr hc]; rfl
  · rw [rd_eq (hb r c (by omega) hc), k4 r c hr hc, rd_eq]
    rw [hpl]; exact lt_of_lt_of_le (idx_lt (by omega) hc) hlen

/-- C7, witness: `[A|I]` for `A = [[(1,0),(2,0)],[(3,0),(6,0)]]`; the rows are
exchanged and reduced at step 0, the pivot of step 1 is zero. -/
theorem gauss_jordan_eliminate_near_zero_frame_witness :
    (2 * (2 + 2) ≤ ([⟨1, 0⟩, ⟨2, 0⟩, ⟨1, 0⟩, ⟨0, 0⟩, ⟨3, 0⟩, ⟨6, 0⟩, ⟨0, 0⟩, ⟨1, 0⟩] : Buf).length ∧
      gauss_jordan_eliminate 2 2
          [⟨1, 0⟩, ⟨2, 0⟩, ⟨1, 0⟩, ⟨0, 0⟩, ⟨3, 0⟩, ⟨6, 0⟩, ⟨0, 0⟩, ⟨1, 0⟩] default_threshold =
        some ⟨[⟨1, 0⟩, ⟨2, 0⟩, ⟨0, 0⟩, ⟨1 / 3, 0⟩, ⟨0, 0⟩, ⟨0, 0⟩, ⟨0, 0⟩, ⟨0, 0⟩], some 1⟩) ∧
    (1 < 2 ∧
      ∃ prev, gauss_jordan_loop 2 2 default_threshold 1 0
          [⟨1, 0⟩, ⟨2, 0⟩, ⟨1, 0⟩, ⟨0, 0⟩, ⟨3, 0⟩, ⟨6, 0⟩, ⟨0, 0⟩, ⟨1, 0⟩] =
            some ⟨prev, none⟩ ∧
        (∀ r c, 1 ≤ r → r < 2 → c < 2 + 2 →
          rd [⟨1, 0⟩, ⟨2, 0⟩, ⟨0, 0⟩, ⟨1 / 3, 0⟩, ⟨0, 0⟩, ⟨0, 0⟩, ⟨0, 0⟩, ⟨0, 0⟩]
            (r * (2 + 2) + c) = some ⟨0, 0⟩) ∧
        (∀ r c, r < 1 → c < 2 + 2 →
          rd [⟨1, 0⟩, ⟨2, 0⟩, ⟨0, 0⟩, ⟨1 / 3, 0⟩, ⟨0, 0⟩, ⟨0, 0⟩, ⟨0, 0⟩, ⟨0, 0⟩]
            (r * (2 + 2) + c) = rd prev (r * (2 + 2) + c))) :=
  ⟨⟨by decide, by decide!⟩,
    gauss_jordan_eliminate_near_zero_frame 2 2 _ default_threshold (by decide)
      ⟨[⟨1, 0⟩, ⟨2, 0⟩, ⟨0, 0⟩, ⟨1 / 3, 0⟩, ⟨0, 0⟩, ⟨0, 0⟩, ⟨0, 0⟩, ⟨0, 0⟩], some 1⟩ 1
      (by decide!) rfl⟩

/-- C8: the near-singular test is on squared magnitude. At step `i`, with `p`
the entry `aug[i][i]` read after the row swap, `gauss_jordan_eliminate` takes
the zero-fill branch if and only if `p.x² + p.y² < pivot_threshold`. -/
theorem gauss_jordan_step_near_singular_iff (n m i : Nat) (aug : Buf) (pivot_threshold : ℚ)
    (hi : i < n) (hlen : n * (n + m) ≤ aug.length) :
    ∃ pivot_row swapped p result,
      find_pivot_partial n i aug (n + m) = some (pivot_row, i) ∧
      (if pivot_row ≠ i then swap_rows n i pivot_row aug (n + m) else some aug) =
        some swapped ∧
      rd swapped (i * (n + m) + i) = some p ∧
      gauss_jordan_step n m i aug pivot_threshold = some result ∧
      (result.2 = true ↔ p.x * p.x + p.y * p.y < pivot_threshold) := by
  have his : i < n + m := by omega
  have hb : (n - 1) * (n + m) + i < aug.length :=
    lt_of_lt_of_le (idx_lt (by omega) his) hlen
  obtain ⟨pr, f1, _, f3, _, _⟩ := find_pivot_spec n i (n + m) aug hi hb
  obtain ⟨aug1, s1, s2, _⟩ := pivot_swap_spec n i pr (n + m) aug hi f3 hlen
  obtain ⟨aug', _, t2, t3⟩ := step_tail_spec n m i aug1 pivot_threshold hi
    (by rw [s2]; exact hlen)
  have b : i * (n + m) + i < aug1.length := by
    rw [s2]; exact lt_of_lt_of_le (idx_lt hi his) hlen
  rw [← gauss_jordan_step_eq n m i aug pivot_threshold pr aug1 f1 s1] at t2 t3
  by_cases hs : (cells aug1 (n + m) i i).norm < pivot_threshold
  · exact ⟨pr, aug1, ent aug1 (i * (n + m) + i), (aug', true), f1, s1, rd_eq b, (t2 hs).1,
      ⟨fun _ => hs, fun _ => rfl⟩⟩
  · exact ⟨pr, aug1, ent aug1 (i * (n + m) + i), (aug', false), f1, s1, rd_eq b, (t3 hs).1,
      ⟨fun h => by simp at h, fun h => absurd h hs⟩⟩

/-- C8, witness: step 0 on `[A|I]` for `A = [[(0,0),(0,0)],[(0,1/100000),(0,0)]]`:
the pivot after the swap is `(0, 1e-5)`, of squared magnitude `1e-10`, which is
not below the default threshold, so the step completes; a magnitude test would
have rejected it. -/
theorem gauss_jordan_step_near_singular_iff_witness :
    (0 < 2 ∧ 2 * (2 + 2) ≤
      ([⟨0, 0⟩, ⟨0, 0⟩, ⟨1, 0⟩, ⟨0, 0⟩, ⟨0, 1 / 100000⟩, ⟨0, 0⟩, ⟨0, 0⟩, ⟨1, 0⟩] : Buf).length) ∧
    (gauss_jordan_step 2 2 0
      [⟨0, 0⟩, ⟨0, 0⟩, ⟨1, 0⟩, ⟨0, 0⟩, ⟨0, 1 / 100000⟩, ⟨0, 0⟩, ⟨0, 0⟩, ⟨1, 0⟩]
      default_threshold).map (fun r => r.2) = some false ∧
    ∃ pivot_row swapped p result,
      find_pivot_partial 2 0
        [⟨0, 0⟩, ⟨0, 0⟩, ⟨1, 0⟩, ⟨0, 0⟩, ⟨0, 1 / 100000⟩, ⟨0, 0⟩, ⟨0, 0⟩, ⟨1, 0⟩] (2 + 2) =
          some (pivot_row, 0) ∧
      (if pivot_row ≠ 0 then swap_rows 2 0 pivot_row
          [⟨0, 0⟩, ⟨0, 0⟩, ⟨1, 0⟩, ⟨0, 0⟩, ⟨0, 1 / 100000⟩, ⟨0, 0⟩, ⟨0, 0⟩, ⟨1, 0⟩] (2 + 2)
        else some [⟨0, 0⟩, ⟨0, 0⟩, ⟨1, 0⟩, ⟨0, 0⟩, ⟨0, 1 / 100000⟩, ⟨0, 0⟩, ⟨0, 0⟩, ⟨1, 0⟩]) =
        some swapped ∧
      rd swapped (0 * (2 + 2) + 0) = some p ∧
      gauss_jordan_step 2 2 0
        [⟨0, 0⟩, ⟨0, 0⟩, ⟨1, 0⟩, ⟨0, 0⟩, ⟨0, 1 / 100000⟩, ⟨0, 0⟩, ⟨0, 0⟩, ⟨1, 0⟩]
        default_threshold = some result ∧
      (result.2 = true ↔ p.x * p.x + p.y * p.y < default_threshold) :=
  ⟨⟨by decide, by decide⟩, by decide!,
    gauss_jordan_step_near_singular_iff 2 2 0 _ default_threshold (by decide) (by decide)⟩


/-- C9: inversion is an involution where it succeeds. For every `n`, every
`n×n` matrix `A` and every positive threshold (the default `1e-10` is one),
both inversions return, and if neither `invert(A)` nor `invert(invert(A))`
takes the near-zero-pivot branch then `invert(invert(A)) = A` entry for
entry. -/
theorem invert_complex_matrix_involutive (n : Nat) (A Ainv Ainv2 workspace workspace2 : Buf)
    (pivot_threshold : ℚ) (hthr : 0 < pivot_threshold)
    (hA : n * n ≤ A.length) (hAinv : n * n ≤ Ainv.length) (hAinv2 : n * n ≤ Ainv2.length)
    (hws : 2 * n * n ≤ workspace.length) (hws2 : 2 * n * n ≤ workspace2.length) :
    ∃ r1 r2, invert_complex_matrix n A Ainv workspace pivot_threshold = some r1 ∧
      invert_complex_matrix n r1.out Ainv2 workspace2 pivot_threshold = some r2 ∧
      (r1.singular_at = none → r2.singular_at = none →
        ∀ i j, i < n → j < n → rd r2.out (i * n + j) = rd A (i * n + j)) := by
  obtain ⟨r1, h1, h2, h3, _⟩ := invert_complex_matrix_spec n A Ainv workspace pivot_threshold
    hA hAinv (by rw [ws_size]; exact hws)
  obtain ⟨r2, k1, k2, k3, _⟩ := invert_complex_matrix_spec n r1.out Ainv2 workspace2
    pivot_threshold (by rw [h2]; exact hAinv) hAinv2 (by rw [ws_size]; exact hws2)
  refine ⟨r1, r2, h1, k1, fun hn1 hn2 i j hi hj => ?_⟩
  have hAX : toMatrix n A * toMatrix n r1.out = 1 := toMatrix_mul_eq_one (h3 hthr hn1)
  have hXZ : toMatrix n r1.out * toMatrix n r2.out = 1 := toMatrix_mul_eq_one (k3 hthr hn2)
  have hZA : toMatrix n r2.out = toMatrix n A := by
    calc toMatrix n r2.out = (toMatrix n A * toMatrix n r1.out) * toMatrix n r2.out := by
          rw [hAX, one_mul]
      _ = toMatrix n A * (toMatrix n r1.out * toMatrix n r2.out) := by rw [mul_assoc]
      _ = toMatrix n A := by rw [hXZ, mul_one]
  have b2 : i * n + j < r2.out.length := by
    rw [k2]; exact lt_of_lt_of_le (idx_lt hi hj) hAinv2
  rw [rd_eq b2, rd_eq (lt_of_lt_of_le (idx_lt hi hj) hA), toMatrix_ext hZA i j hi hj]

/-- C9, witness: `A = [[(0,1),(1,0)],[(1,0),(0,0)]]` at the default threshold;
`invert(A) = [[(0,0),(1,0)],[(1,0),(0,-1)]]` and its inverse is `A` again. -/
theorem invert_complex_matrix_involutive_witness :
    (0 < default_threshold ∧
      2 * 2 ≤ ([⟨0, 1⟩, ⟨1, 0⟩, ⟨1, 0⟩, ⟨0, 0⟩] : Buf).length ∧
      2 * 2 ≤ (List.replicate 4 ⟨0, 0⟩ : Buf).length ∧
      2 * 2 * 2 ≤ (List.replicate 8 ⟨0, 0⟩ : Buf).length) ∧
    (invert_complex_matrix 2 [⟨0, 0⟩, ⟨1, 0⟩, ⟨1, 0⟩, ⟨0, -1⟩] (List.replicate 4 ⟨0, 0⟩)
      (List.replicate 8 ⟨0, 0⟩) default_threshold).map (fun r => (r.out, r.singular_at)) =
        some ([⟨0, 1⟩, ⟨1, 0⟩, ⟨1, 0⟩, ⟨0, 0⟩], none) ∧
    ∃ r1 r2, invert_complex_matrix 2 [⟨0, 1⟩, ⟨1, 0⟩, ⟨1, 0⟩, ⟨0, 0⟩] (List.replicate 4 ⟨0, 0⟩)
        (List.replicate 8 ⟨0, 0⟩) default_threshold = some r1 ∧
      invert_complex_matrix 2 r1.out (List.replicate 4 ⟨0, 0⟩) (List.replicate 8 ⟨0, 0⟩)
        default_threshold = some r2 ∧
      (r1.singular_at = none → r2.singular_at = none →
        ∀ i j, i < 2 → j < 2 →
          rd r2.out (i * 2 + j) = rd [⟨0, 1⟩, ⟨1, 0⟩, ⟨1, 0⟩, ⟨0, 0⟩] (i * 2 + j)) :=
  ⟨⟨by decide!, by decide, by decide, by decide⟩, by decide!,
    invert_complex_matrix_involutive 2 _ _ _ _ _ default_threshold (by decide!) (by decide)
      (by decide) (by decide) (by decide) (by decide)⟩

/-- C10: pivoting does not change the result. For every `n`, every `n×n`
matrix `A` and every positive threshold (the default `1e-10` is one), the
inversion and the inversion through the eliminator without pivot search and
row swap both return, and if both complete without a near-zero pivot they
produce the same inverse, entry for entry. For `n = 2` and
`|A[0][0]| < |A[1][0]|` the pivot search at step 0 on `[A|I]` returns row 1,
the rows 0 and 1 are exchanged, and the step then scales and eliminates as the
step without pivoting does on the exchanged buffer. -/
theorem invert_complex_matrix_pivoting (n : Nat) (A Ainv workspace : Buf)
    (pivot_threshold : ℚ) (hthr : 0 < pivot_threshold)
    (hA : n * n ≤ A.length) (hAinv : n * n ≤ Ainv.length)
    (hws : 2 * n * n ≤ workspace.length) :
    (∃ r1 r2, invert_complex_matrix n A Ainv workspace pivot_threshold = some r1 ∧
      invert_complex_matrix_unpivoted n A Ainv workspace pivot_threshold = some r2 ∧
      (r1.singular_at = none → r2.singular_at = none →
        ∀ i j, i < n → j < n → rd r1.out (i * n + j) = rd r2.out (i * n + j))) ∧
    (n = 2 → (ent A 0).norm < (ent A 2).norm →
      ∃ aug swapped, augment_identity 2 A workspace = some aug ∧
        find_pivot_partial 2 0 aug (2 + 2) = some (1, 0) ∧
        swap_rows 2 0 1 aug (2 + 2) = some swapped ∧
        (∀ c, c < 2 + 2 → rd swapped c = rd aug (2 + 2 + c) ∧
          rd swapped (2 + 2 + c) = rd aug c) ∧
        gauss_jordan_step 2 2 0 aug pivot_threshold =
          gauss_jordan_step_unpivoted 2 2 0 swapped pivot_threshold) := by
  have hws' : n * (n + n) ≤ workspace.length := by rw [ws_size]; exact hws
  constructor
  · obtain ⟨r1, h1, h2, h3, _⟩ := invert_complex_matrix_spec n A Ainv workspace
      pivot_threshold hA hAinv hws'
    obtain ⟨r2, k1, k2, k3⟩ := invert_complex_matrix_unpivoted_spec n A Ainv workspace
      pivot_threshold hA hAinv hws'
    refine ⟨r1, r2, h1, k1, fun hn1 hn2 i j hi hj => ?_⟩
    have hAX : toMatrix n A * toMatrix n r1.out = 1 := toMatrix_mul_eq_one (h3 hthr hn1)
    have hAY : toMatrix n A * toMatrix n r2.out = 1 := toMatrix_mul_eq_one (k3 hthr hn2)
    have hXA : toMatrix n r1.out * toMatrix n A = 1 := Matrix.mul_eq_one_comm.1 hAX
    have hXY : toMatrix n r1.out = toMatrix n r2.out := by
      calc toMatrix n r1.out = toMatrix n r1.out * (toMatrix n A * toMatrix n r2.out) := by
            rw [hAY, mul_one]
        _ = (toMatrix n r1.out * toMatrix n A) * toMatrix n r2.out := by rw [mul_assoc]
        _ = toMatrix n r2.out := by rw [hXA, one_mul]
    have b1 : i * n + j < r1.out.length := by
      rw [h2]; exact lt_of_lt_of_le (idx_lt hi hj) hAinv
    have b2 : i * n + j < r2.out.length := by
      rw [k2]; exact lt_of_lt_of_le (idx_lt hi hj) hAinv
    rw [rd_eq b1, rd_eq b2, toMatrix_ext hXY i j hi hj]
  · intro hn hlt
    subst hn
    obtain ⟨aug, a1, a2, a3⟩ := augment_identity_spec 2 A workspace hA hws'
    have hal : 2 * (2 + 2) ≤ aug.length := by rw [a2]; exact hws'
    obtain ⟨pr, f1, _, f3, f4, _⟩ := find_pivot_spec 2 0 (2 + 2) aug (by omega)
      (by omega)
    have e0 : ent aug (0 * (2 + 2) + 0) = ent A 0 := by
      rw [a3 0 0 (by omega) (by omega)]; simp
    have e1 : ent aug (1 * (2 + 2) + 0) = ent A 2 := by
      rw [a3 1 0 (by omega) (by omega)]; simp
    have hpr : pr = 1 := by
      rcases Nat.lt_succ_iff_lt_or_eq.1 f3 with h | h
      · have h0 : pr = 0 := by omega
        subst h0
        have := f4 1 (by omega) (by omega)
        rw [e0, e1] at this
        exact absurd hlt (not_lt.2 this)
      · exact h
    subst hpr
    obtain ⟨swapped, s1, s2, s3⟩ := swap_rows_spec 2 0 1 (2 + 2) aug (by omega) (by omega) hal
    refine ⟨aug, swapped, a1, f1, s1, fun c hc => ?_, ?_⟩
    · have b1 : c < swapped.length := by omega
      have b2 : 2 + 2 + c < swapped.length := by omega
      have b3 : c < aug.length := by omega
      have b4 : 2 + 2 + c < aug.length := by omega
      have q0 := s3 0 c hc
      have q1 := s3 1 c hc
      simp only [Nat.zero_mul, Nat.zero_add, Nat.one_mul, if_true] at q0
      simp only [Nat.zero_mul, Nat.zero_add, Nat.one_mul, Nat.one_ne_zero, if_false,
        if_true] at q1
      rw [rd_eq b1, rd_eq b2, rd_eq b3, rd_eq b4, q0, q1]
      exact ⟨rfl, rfl⟩
    · exact gauss_jordan_step_eq 2 2 0 aug pivot_threshold 1 swapped f1 (by simp [s1])

/-- C10, witness: `A = [[(1,0),(1,0)],[(2,0),(1,0)]]` at the default
threshold: both eliminators complete, the inverse is
`[[(-1,0),(1,0)],[(2,0),(-1,0)]]`, and `|A[0][0]| = 1 < 4 = |A[1][0]|`. -/
theorem invert_complex_matrix_pivoting_witness :
    (0 < default_threshold ∧
      2 * 2 ≤ ([⟨1, 0⟩, ⟨1, 0⟩, ⟨2, 0⟩, ⟨1, 0⟩] : Buf).length ∧
      2 * 2 ≤ (List.replicate 4 ⟨0, 0⟩ : Buf).length ∧
      2 * 2 * 2 ≤ (List.replicate 8 ⟨0, 0⟩ : Buf).length) ∧
    ((invert_complex_matrix 2 [⟨1, 0⟩, ⟨1, 0⟩, ⟨2, 0⟩, ⟨1, 0⟩] (List.replicate 4 ⟨0, 0⟩)
      (List.replicate 8 ⟨0, 0⟩) default_threshold).map (fun r => (r.out, r.singular_at)) =
        some ([⟨-1, 0⟩, ⟨1, 0⟩, ⟨2, 0⟩, ⟨-1, 0⟩], none) ∧
      (invert_complex_matrix_unpivoted 2 [⟨1, 0⟩, ⟨1, 0⟩, ⟨2, 0⟩, ⟨1, 0⟩]
        (List.replicate 4 ⟨0, 0⟩) (List.replicate 8 ⟨0, 0⟩) default_threshold).map
          (fun r => (r.out, r.singular_at)) =
        some ([⟨-1, 0⟩, ⟨1, 0⟩, ⟨2, 0⟩, ⟨-1, 0⟩], none) ∧
      (ent [⟨1, 0⟩, ⟨1, 0⟩, ⟨2, 0⟩, ⟨1, 0⟩] 0).norm <
        (ent [⟨1, 0⟩, ⟨1, 0⟩, ⟨2, 0⟩, ⟨1, 0⟩] 2).norm) ∧
    ((∃ r1 r2, invert_complex_matrix 2 [⟨1, 0⟩, ⟨1, 0⟩, ⟨2, 0⟩, ⟨1, 0⟩]
          (List.replicate 4 ⟨0, 0⟩) (List.replicate 8 ⟨0, 0⟩) default_threshold = some r1 ∧
        invert_complex_matrix_unpivoted 2 [⟨1, 0⟩, ⟨1, 0⟩, ⟨2, 0⟩, ⟨1, 0⟩]
          (List.replicate 4 ⟨0, 0⟩) (List.replicate 8 ⟨0, 0⟩) default_threshold = some r2 ∧
        (r1.singular_at = none → r2.singular_at = none →
          ∀ i j, i < 2 → j < 2 → rd r1.out (i * 2 + j) = rd r2.out (i * 2 + j))) ∧
      (2 = 2 → (ent [⟨1, 0⟩, ⟨1, 0⟩, ⟨2, 0⟩, ⟨1, 0⟩] 0).norm <
          (ent [⟨1, 0⟩, ⟨1, 0⟩, ⟨2, 0⟩, ⟨1, 0⟩] 2).norm →
        ∃ aug swapped, augment_identity 2 [⟨1, 0⟩, ⟨1, 0⟩, ⟨2, 0⟩, ⟨1, 0⟩]
            (List.replicate 8 ⟨0, 0⟩) = some aug ∧
          find_pivot_partial 2 0 aug (2 + 2) = some (1, 0) ∧
          swap_rows 2 0 1 aug (2 + 2) = some swapped ∧
          (∀ c, c < 2 + 2 → rd swapped c = rd aug (2 + 2 + c) ∧
            rd swapped (2 + 2 + c) = rd aug c) ∧
          gauss_jordan_step 2 2 0 aug default_threshold =
            gauss_jordan_step_unpivoted 2 2 0 swapped default_threshold)) :=
  ⟨⟨by decide!, by decide, by decide, by decide⟩, ⟨by decide!, by decide!, by decide!⟩,
    invert_complex_matrix_pivoting 2 _ _ _ default_threshold (by decide!) (by decide)
      (by decide) (by decide)⟩


/-- C11: for every `n`, `invert_complex_matrix` applied to the `n×n` identity
matrix (entries `(1,0)` on the diagonal, `(0,0)` elsewhere) with the default
threshold meets no near-zero pivot and returns exactly the identity matrix. -/
theorem invert_complex_matrix_identity (n : Nat) (A Ainv workspace : Buf)
    (hA : n * n ≤ A.length) (hAinv : n * n ≤ Ainv.length)
    (hws : 2 * n * n ≤ workspace.length)
    (hI : ∀ i j, i < n → j < n →
      rd A (i * n + j) = some (if i = j then ⟨1, 0⟩ else ⟨0, 0⟩)) :
    ∃ r, invert_complex_matrix n A Ainv workspace default_threshold = some r ∧
      r.singular_at = none ∧
      ∀ i j, i < n → j < n →
        rd r.out (i * n + j) = some (if i = j then ⟨1, 0⟩ else ⟨0, 0⟩) := by
  have hthr : default_threshold ≤ 1 := by norm_num [default_threshold]
  obtain ⟨aug, out, X', _, a2, a3, g1, _, _, c2, c3, hinv⟩ :=
    invert_complex_matrix_unfold n A Ainv workspace default_threshold hA hAinv
      (by rw [ws_size]; exact hws)
  have hal : n * (n + n) ≤ aug.length := by rw [a2, ws_size]; exact hws
  have hIe : ∀ i j, i < n → j < n → ent A (i * n + j) = if i = j then 1 else 0 :=
    fun i j hi hj => ent_of_rd (hI i j hi hj)
  have hU : UnitCols n n (cells aug (n + n)) := by
    intro c hc r hr
    show ent aug (r * (n + n) + c) = _
    rw [a3 r c hr (by omega), if_pos hc, hIe r c hr hc]
  obtain ⟨o, o1, o2, _, o4⟩ :=
    gauss_jordan_loop_fixed n n default_threshold hthr n 0 aug (by omega) hal hU
  have ho : out = o := by
    unfold gauss_jordan_eliminate at g1
    rw [g1] at o1
    exact Option.some.inj o1
  subst ho
  refine ⟨⟨X', out.aug, out.singular_at⟩, hinv, o2, fun i j hi hj => ?_⟩
  have b : i * n + j < X'.length := by
    rw [c2]; exact lt_of_lt_of_le (idx_lt hi hj) hAinv
  show rd X' (i * n + j) = _
  rw [rd_eq b, c3 i j hi hj, o4 i (j + n) hi (by omega), a3 i (j + n) hi (by omega)]
  have e0 : ¬ (j + n < n) := by omega
  have e1 : j + n - n = j := by omega
  rw [if_neg e0, e1]
  rfl

/-- C11, witness: the `2×2` complex identity. -/
theorem invert_complex_matrix_identity_witness :
    (2 * 2 ≤ ([⟨1, 0⟩, ⟨0, 0⟩, ⟨0, 0⟩, ⟨1, 0⟩] : Buf).length ∧
      2 * 2 ≤ (List.replicate 4 ⟨0, 0⟩ : Buf).length ∧
      2 * 2 * 2 ≤ (List.replicate 8 ⟨0, 0⟩ : Buf).length ∧
      ∀ i j, i < 2 → j < 2 → rd [⟨1, 0⟩, ⟨0, 0⟩, ⟨0, 0⟩, ⟨1, 0⟩] (i * 2 + j) =
        some (if i = j then ⟨1, 0⟩ else ⟨0, 0⟩)) ∧
    (invert_complex_matrix 2 [⟨1, 0⟩, ⟨0, 0⟩, ⟨0, 0⟩, ⟨1, 0⟩] (List.replicate 4 ⟨0, 0⟩)
      (List.replicate 8 ⟨0, 0⟩) default_threshold).map (fun r => (r.out, r.singular_at)) =
        some ([⟨1, 0⟩, ⟨0, 0⟩, ⟨0, 0⟩, ⟨1, 0⟩], none) ∧
    ∃ r, invert_complex_matrix 2 [⟨1, 0⟩, ⟨0, 0⟩, ⟨0, 0⟩, ⟨1, 0⟩] (List.replicate 4 ⟨0, 0⟩)
        (List.replicate 8 ⟨0, 0⟩) default_threshold = some r ∧
      r.singular_at = none ∧
      ∀ i j, i < 2 → j < 2 →
        rd r.out (i * 2 + j) = some (if i = j then ⟨1, 0⟩ else ⟨0, 0⟩) :=
  have hI : ∀ i j, i < 2 → j < 2 → rd [⟨1, 0⟩, ⟨0, 0⟩, ⟨0, 0⟩, ⟨1, 0⟩] (i * 2 + j) =
      some (if i = j then ⟨1, 0⟩ else ⟨0, 0⟩) := by
    intro i j hi hj
    interval_cases i <;> interval_cases j <;> rfl
  ⟨⟨by decide, by decide, by decide, hI⟩, by decide!,
    invert_complex_matrix_identity 2 _ _ _ (by decide) (by decide) (by decide) hI⟩

/-- C12: for every `n ≥ 1` and every positive threshold,
`invert_complex_matrix` applied to the `n×n` all-zero matrix takes the
near-zero-pivot branch at step 0 and returns the `n×n` all-zero matrix; the
whole augmented buffer, identity block included, is zeroed. -/
theorem invert_complex_matrix_zero (n : Nat) (A Ainv workspace : Buf) (pivot_threshold : ℚ)
    (hn : 1 ≤ n) (hthr : 0 < pivot_threshold)
    (hA : n * n ≤ A.length) (hAinv : n * n ≤ Ainv.length)
    (hws : 2 * n * n ≤ workspace.length)
    (hZ : ∀ i j, i < n → j < n → rd A (i * n + j) = some ⟨0, 0⟩) :
    ∃ r, invert_complex_matrix n A Ainv workspace pivot_threshold = some r ∧
      r.singular_at = some 0 ∧
      (∀ i j, i < n → j < n → rd r.out (i * n + j) = some ⟨0, 0⟩) ∧
      (∀ i c, i < n → c < 2 * n → rd r.workspace (i * (2 * n) + c) = some ⟨0, 0⟩) := by
  obtain ⟨aug, out, X', _, a2, a3, g1, g2, _, c2, c3, hinv⟩ :=
    invert_complex_matrix_unfold n A Ainv workspace pivot_threshold hA hAinv
      (by rw [ws_size]; exact hws)
  have hal : n * (n + n) ≤ aug.length := by rw [a2, ws_size]; exact hws
  have hcol : ∀ r, r < n → ent aug (r * (n + n) + 0) = 0 := fun r hr => by
    rw [a3 r 0 hr (by omega), if_pos (by omega)]
    exact ent_of_rd (hZ r 0 hr (by omega))
  obtain ⟨o, o1, o2, _, o4⟩ :=
    gauss_jordan_eliminate_zero_column n n aug pivot_threshold hthr (by omega) hal hcol
  have ho : out = o := by
    rw [g1] at o1
    exact Option.some.inj o1
  subst ho
  refine ⟨⟨X', out.aug, out.singular_at⟩, hinv, o2, fun i j hi hj => ?_, fun i c hi hc => ?_⟩
  · have b : i * n + j < X'.length := by
      rw [c2]; exact lt_of_lt_of_le (idx_lt hi hj) hAinv
    show rd X' (i * n + j) = _
    rw [rd_eq b, c3 i j hi hj, o4 i (j + n) hi (by omega)]
    rfl
  · have e : 2 * n = n + n := two_mul n
    show rd out.aug (i * (2 * n) + c) = _
    rw [e]
    have b : i * (n + n) + c < out.aug.length := by
      rw [g2]; exact lt_of_lt_of_le (idx_lt hi (by omega)) (by rw [ws_size]; exact hws)
    rw [rd_eq b, o4 i c hi (by omega)]
    rfl

/-- C12, witness: the `2×2` zero matrix at the default threshold. -/
theorem invert_complex_matrix_zero_witness :
    (1 ≤ 2 ∧ 0 < default_threshold ∧
      2 * 2 ≤ (List.replicate 4 ⟨0, 0⟩ : Buf).length ∧
      2 * 2 ≤ (List.replicate 4 ⟨5, 5⟩ : Buf).length ∧
      2 * 2 * 2 ≤ (List.replicate 8 ⟨7, 7⟩ : Buf).length ∧
      ∀ i j, i < 2 → j < 2 → rd (List.replicate 4 ⟨0, 0⟩) (i * 2 + j) = some ⟨0, 0⟩) ∧
    invert_complex_matrix 2 (List.replicate 4 ⟨0, 0⟩) (List.replicate 4 ⟨5, 5⟩)
      (List.replicate 8 ⟨7, 7⟩) default_threshold =
        some ⟨List.replicate 4 ⟨0, 0⟩, List.replicate 8 ⟨0, 0⟩, some 0⟩ ∧
    ∃ r, invert_complex_matrix 2 (List.replicate 4 ⟨0, 0⟩) (List.replicate 4 ⟨5, 5⟩)
        (List.replicate 8 ⟨7, 7⟩) default_threshold = some r ∧
      r.singular_at = some 0 ∧
      (∀ i j, i < 2 → j < 2 → rd r.out (i * 2 + j) = some ⟨0, 0⟩) ∧
      (∀ i c, i < 2 → c < 2 * 2 → rd r.workspace (i * (2 * 2) + c) = some ⟨0, 0⟩) :=
  have hZ : ∀ i j, i < 2 → j < 2 →
      rd (List.replicate 4 ⟨0, 0⟩) (i * 2 + j) = some ⟨0, 0⟩ := by
    intro i j hi hj
    interval_cases i <;> interval_cases j <;> rfl
  ⟨⟨by decide, by decide!, by decide, by decide, by decide, hZ⟩, by decide!,
    invert_complex_matrix_zero 2 _ _ _ default_threshold (by decide) (by decide!) (by decide)
      (by decide) (by decide) hZ⟩

/-- C13: the loop invariant of `gauss_jordan_eliminate`. For a positive
threshold (the default `1e-10` is one) and every `k ≤ n`, the run of the steps
`0 .. k-1` returns, and when it completes without the near-zero-pivot branch,
each column `c < k` of the coefficient block is the unit column `e_c` (entry
`(1,0)` at row `c`, `(0,0)` at every other row). Hence on normal completion of
`gauss_jordan_eliminate` the left `n` columns are exactly the identity. -/
theorem gauss_jordan_eliminate_unit_columns (n m : Nat) (aug : Buf) (pivot_threshold : ℚ)
    (hthr : 0 < pivot_threshold) (hlen : n * (n + m) ≤ aug.length) :
    (∀ k, k ≤ n →
      ∃ out, gauss_jordan_loop n m pivot_threshold k 0 aug = some out ∧
        (out.singular_at = none → ∀ c r, c < k → r < n →
          rd out.aug (r * (n + m) + c) = some (if r = c then ⟨1, 0⟩ else ⟨0, 0⟩))) ∧
    ∃ out, gauss_jordan_eliminate n m aug pivot_threshold = some out ∧
      (out.singular_at = none → ∀ c r, c < n → r < n →
        rd out.aug (r * (n + m) + c) = some (if r = c then ⟨1, 0⟩ else ⟨0, 0⟩)) := by
  have key : ∀ k, k ≤ n →
      ∃ out, gauss_jordan_loop n m pivot_threshold k 0 aug = some out ∧
        (out.singular_at = none → ∀ c r, c < k → r < n →
          rd out.aug (r * (n + m) + c) = some (if r = c then ⟨1, 0⟩ else ⟨0, 0⟩)) := by
    intro k hk
    obtain ⟨out, o1, o2, o3⟩ :=
      gauss_jordan_loop_prefix n m pivot_threshold hthr k 0 aug (by omega) hlen
    refine ⟨out, o1, fun hnone c r hc hr => ?_⟩
    have hU := o3 hnone (fun c hc => absurd hc (Nat.not_lt_zero _))
    rw [Nat.zero_add] at hU
    have b : r * (n + m) + c < out.aug.length := by
      rw [o2]; exact lt_of_lt_of_le (idx_lt hr (by omega)) hlen
    rw [rd_eq b]
    have := hU c hc r hr
    simp only [cells] at this
    rw [this]
    rfl
  exact ⟨key, key n (le_refl _)⟩

/-- C13, witness: `[A|I]` for `A = [[(0,1),(1,0)],[(1,0),(0,0)]]` at the
default threshold; both steps complete. -/
theorem gauss_jordan_eliminate_unit_columns_witness :
    (0 < default_threshold ∧ 2 * (2 + 2) ≤
      ([⟨0, 1⟩, ⟨1, 0⟩, ⟨1, 0⟩, ⟨0, 0⟩, ⟨1, 0⟩, ⟨0, 0⟩, ⟨0, 0⟩, ⟨1, 0⟩] : Buf).length) ∧
    gauss_jordan_eliminate 2 2
        [⟨0, 1⟩, ⟨1, 0⟩, ⟨1, 0⟩, ⟨0, 0⟩, ⟨1, 0⟩, ⟨0, 0⟩, ⟨0, 0⟩, ⟨1, 0⟩] default_threshold =
      some ⟨[⟨1, 0⟩, ⟨0, 0⟩, ⟨0, 0⟩, ⟨1, 0⟩, ⟨0, 0⟩, ⟨1, 0⟩, ⟨1, 0⟩, ⟨0, -1⟩], none⟩ ∧
    ((∀ k, k ≤ 2 →
      ∃ out, gauss_jordan_loop 2 2 default_threshold k 0
          [⟨0, 1⟩, ⟨1, 0⟩, ⟨1, 0⟩, ⟨0, 0⟩, ⟨1, 0⟩, ⟨0, 0⟩, ⟨0, 0⟩, ⟨1, 0⟩] = some out ∧
        (out.singular_at = none → ∀ c r, c < k → r < 2 →
          rd out.aug (r * (2 + 2) + c) = some (if r = c then ⟨1, 0⟩ else ⟨0, 0⟩))) ∧
    ∃ out, gauss_jordan_eliminate 2 2
        [⟨0, 1⟩, ⟨1, 0⟩, ⟨1, 0⟩, ⟨0, 0⟩, ⟨1, 0⟩, ⟨0, 0⟩, ⟨0, 0⟩, ⟨1, 0⟩] default_threshold =
          some out ∧
      (out.singular_at = none → ∀ c r, c < 2 → r < 2 →
        rd out.aug (r * (2 + 2) + c) = some (if r = c then ⟨1, 0⟩ else ⟨0, 0⟩))) :=
  ⟨⟨by decide!, by decide⟩, by decide!,
    gauss_jordan_eliminate_unit_columns 2 2 _ default_threshold (by decide!) (by decide)⟩

/-- C14: right-hand sides are solved independently. For every `n`, `m`, `A`
(`n×n`), `B` (`n×m`), every threshold and every column `j < m`, with `Bj`
column `j` of `B`: both solves return, they report the near-zero pivot at the
same step or not at all, and column `j` of `solve_complex_system(n, m, A, B)`
equals the single-column result `solve_complex_system(n, 1, A, Bj)`, on the
near-zero-pivot branch as on normal completion. -/
theorem solve_complex_system_columnwise (n m j : Nat) (A B X workspace Bj Xj workspacej : Buf)
    (pivot_threshold : ℚ) (hj : j < m)
    (hA : n * n ≤ A.length) (hB : n * m ≤ B.length) (hX : n * m ≤ X.length)
    (hws : n * (n + m) ≤ workspace.length)
    (hBj : n ≤ Bj.length) (hXj : n ≤ Xj.length) (hwsj : n * (n + 1) ≤ workspacej.length)
    (hcol : ∀ i, i < n → rd Bj i = rd B (i * m + j)) :
    ∃ r rj, solve_complex_system n m A B X workspace pivot_threshold = some r ∧
      solve_complex_system n 1 A Bj Xj workspacej pivot_threshold = some rj ∧
      r.singular_at = rj.singular_at ∧
      ∀ i, i < n → rd r.out (i * m + j) = rd rj.out i := by
  obtain ⟨aug, out, X', _, a2, a3, g1, g2, _, c2, c3, hsolve⟩ :=
    solve_complex_system_unfold n m A B X workspace pivot_threshold hA hB hX hws
  obtain ⟨augj, outj, Xj', _, b2, b3, k1, k2, _, d2, d3, hsolvej⟩ :=
    solve_complex_system_unfold n 1 A Bj Xj workspacej pivot_threshold hA
      (by omega) (by omega) hwsj
  have hcolE : ∀ i, i < n → ent Bj (i * 1 + (n - n)) = ent B (i * m + j) := fun i hi => by
    have e : i * 1 + (n - n) = i := by omega
    rw [e]
    have h1 := hcol i hi
    rw [rd_eq (lt_of_lt_of_le hi hBj), rd_eq (lt_of_lt_of_le (idx_lt hi hj) hB)] at h1
    exact Option.some.inj h1
  have hR : ColumnOf n m j aug augj := by
    intro r c hr hc
    show ent augj (r * (n + 1) + c) = ent aug (r * (n + m) + colMap n j c)
    rw [b3 r c hr hc, a3 r (colMap n j c) hr (colMap_lt c hj)]
    by_cases e : c < n
    · rw [colMap_coef e, if_pos e, if_pos e]
    · have ec : c = n := by omega
      subst ec
      have e2 : colMap c j c = c + j := by simp [colMap]
      have e3 : ¬ (c + j < c) := by omega
      have e4 : c + j - c = j := by omega
      rw [e2, if_neg e, if_neg e3, e4]
      exact hcolE r hr
  obtain ⟨o, oj, o1, o2, o3, o4⟩ := gauss_jordan_loop_sim n m j pivot_threshold hj n 0 aug augj
    (by omega) (by rw [a2]; exact hws) (by rw [b2]; exact hwsj) hR
  have ho : out = o := by
    unfold gauss_jordan_eliminate at g1
    rw [g1] at o1
    exact Option.some.inj o1
  have hoj : outj = oj := by
    unfold gauss_jordan_eliminate at k1
    rw [k1] at o2
    exact Option.some.inj o2
  subst ho hoj
  refine ⟨⟨X', out.aug, out.singular_at⟩, ⟨Xj', outj.aug, outj.singular_at⟩, hsolve, hsolvej,
    o3, fun i hi => ?_⟩
  have p1 : i * m + j < X'.length := by
    rw [c2]; exact lt_of_lt_of_le (idx_lt hi hj) hX
  have p2 : i < Xj'.length := by rw [d2]; omega
  show rd X' (i * m + j) = rd Xj' i
  rw [rd_eq p1, rd_eq p2, c3 i j hi hj]
  have := d3 i 0 hi (by omega)
  have e : i * 1 + 0 = i := by omega
  rw [e] at this
  rw [this]
  have hrel := o4 i n hi (by omega)
  simp only [cells] at hrel
  have e2 : colMap n j n = n + j := by simp [colMap]
  rw [e2] at hrel
  rw [Nat.add_comm j n, Nat.zero_add, hrel]

/-- C14, witness: a `2×2` system with two right-hand sides at the default
threshold, and its column 1 alone. -/
theorem solve_complex_system_columnwise_witness :
    (1 < 2 ∧ 2 * 2 ≤ ([⟨0, 1⟩, ⟨1, 0⟩, ⟨1, 0⟩, ⟨0, 0⟩] : Buf).length ∧
      2 * 2 ≤ ([⟨1, 0⟩, ⟨2, 0⟩, ⟨0, 1⟩, ⟨3, 0⟩] : Buf).length ∧
      2 * 2 ≤ (List.replicate 4 ⟨0, 0⟩ : Buf).length ∧
      2 * (2 + 2) ≤ (List.replicate 8 ⟨0, 0⟩ : Buf).length ∧
      2 ≤ ([⟨2, 0⟩, ⟨3, 0⟩] : Buf).length ∧
      2 ≤ (List.replicate 2 ⟨0, 0⟩ : Buf).length ∧
      2 * (2 + 1) ≤ (List.replicate 6 ⟨0, 0⟩ : Buf).length ∧
      ∀ i, i < 2 → rd [⟨2, 0⟩, ⟨3, 0⟩] i = rd [⟨1, 0⟩, ⟨2, 0⟩, ⟨0, 1⟩, ⟨3, 0⟩] (i * 2 + 1)) ∧
    (solve_complex_system 2 1 [⟨0, 1⟩, ⟨1, 0⟩, ⟨1, 0⟩, ⟨0, 0⟩] [⟨2, 0⟩, ⟨3, 0⟩]
      (List.replicate 2 ⟨0, 0⟩) (List.replicate 6 ⟨0, 0⟩) default_threshold).map
        (fun r => (r.out, r.singular_at)) = some ([⟨3, 0⟩, ⟨2, -3⟩], none) ∧
    ∃ r rj, solve_complex_system 2 2 [⟨0, 1⟩, ⟨1, 0⟩, ⟨1, 0⟩, ⟨0, 0⟩]
        [⟨1, 0⟩, ⟨2, 0⟩, ⟨0, 1⟩, ⟨3, 0⟩] (List.replicate 4 ⟨0, 0⟩) (List.replicate 8 ⟨0, 0⟩)
        default_threshold = some r ∧
      solve_complex_system 2 1 [⟨0, 1⟩, ⟨1, 0⟩, ⟨1, 0⟩, ⟨0, 0⟩] [⟨2, 0⟩, ⟨3, 0⟩]
        (List.replicate 2 ⟨0, 0⟩) (List.replicate 6 ⟨0, 0⟩) default_threshold = some rj ∧
      r.singular_at = rj.singular_at ∧
      ∀ i, i < 2 → rd r.out (i * 2 + 1) = rd rj.out i :=
  have hcol : ∀ i, i < 2 →
      rd [⟨2, 0⟩, ⟨3, 0⟩] i = rd [⟨1, 0⟩, ⟨2, 0⟩, ⟨0, 1⟩, ⟨3, 0⟩] (i * 2 + 1) := by
    intro i hi
    interval_cases i <;> rfl
  ⟨⟨by decide, by decide, by decide, by decide, by decide, by decide, by decide, by decide,
      hcol⟩, by decide!,
    solve_complex_system_columnwise 2 2 1 _ _ _ _ _ _ _ default_threshold (by decide)
      (by decide) (by decide) (by decide) (by decide) (by decide) (by decide) (by decide) hcol⟩

/-- C15: bounds discipline. With `A` of length `n·n`, `B` and `X` of length
`n·m` and a workspace of length exactly `n·(n+m)`, `solve_complex_system`
returns for every threshold: no read or write of the call (those of
`find_pivot_partial`, `swap_rows` and `gauss_jordan_eliminate` included) falls
outside its buffer. Likewise `invert_complex_matrix` with a workspace of
length `2·n·n`. -/
theorem solve_and_invert_in_bounds (n m : Nat) (A B X workspace A2 Ainv workspace2 : Buf)
    (pivot_threshold : ℚ)
    (hA : A.length = n * n) (hB : B.length = n * m) (hX : X.length = n * m)
    (hws : workspace.length = n * (n + m))
    (hA2 : A2.length = n * n) (hAinv : Ainv.length = n * n)
    (hws2 : workspace2.length = 2 * n * n) :
    (solve_complex_system n m A B X workspace pivot_threshold).isSome = true ∧
    (invert_complex_matrix n A2 Ainv workspace2 pivot_threshold).isSome = true := by
  obtain ⟨r, h1, _⟩ := solve_complex_system_spec n m A B X workspace pivot_threshold
    (le_of_eq hA.symm) (le_of_eq hB.symm) (le_of_eq hX.symm) (le_of_eq hws.symm)
  obtain ⟨r2, h2, _⟩ := invert_complex_matrix_spec n A2 Ainv workspace2 pivot_threshold
    (le_of_eq hA2.symm) (le_of_eq hAinv.symm) (by rw [ws_size, hws2])
  rw [h1, h2]
  exact ⟨rfl, rfl⟩

/-- C15, witness: a `2×2` system with one right-hand side and the inversion of
its matrix, on buffers of exactly the documented lengths. -/
theorem solve_and_invert_in_bounds_witness :
    (([⟨0, 1⟩, ⟨1, 0⟩, ⟨1, 0⟩, ⟨0, 0⟩] : Buf).length = 2 * 2 ∧
      ([⟨1, 0⟩, ⟨0, 1⟩] : Buf).length = 2 * 1 ∧
      (List.replicate 2 ⟨0, 0⟩ : Buf).length = 2 * 1 ∧
      (List.replicate 6 ⟨0, 0⟩ : Buf).length = 2 * (2 + 1) ∧
      (List.replicate 4 ⟨0, 0⟩ : Buf).length = 2 * 2 ∧
      (List.replicate 8 ⟨0, 0⟩ : Buf).length = 2 * 2 * 2) ∧
    ((solve_complex_system 2 1 [⟨0, 1⟩, ⟨1, 0⟩, ⟨1, 0⟩, ⟨0, 0⟩] [⟨1, 0⟩, ⟨0, 1⟩]
        (List.replicate 2 ⟨0, 0⟩) (List.replicate 6 ⟨0, 0⟩) default_threshold).isSome = true ∧
      (invert_complex_matrix 2 [⟨0, 1⟩, ⟨1, 0⟩, ⟨1, 0⟩, ⟨0, 0⟩] (List.replicate 4 ⟨0, 0⟩)
        (List.replicate 8 ⟨0, 0⟩) default_threshold).isSome = true) :=
  ⟨⟨by decide, by decide, by decide, by decide, by decide, by decide⟩,
    solve_and_invert_in_bounds 2 1 _ _ _ _ _ _ _ default_threshold (by decide) (by decide)
      (by decide) (by decide) (by decide) (by decide) (by decide)⟩

/-- C16: the reciprocal is guarded. For every positive threshold, at every
step `i` of `gauss_jordan_eliminate`, when the step goes on to compute
`pivot_inv = (x/denom, −y/denom)` for the pivot `p = (x, y)` read after the
swap, the divisor `denom = x² + y²` is not zero and `p·pivot_inv = (1,0)`. The
threshold test is the only guard: at threshold `0` the zero pivot of `[0|1]`
goes on to the division. -/
theorem gauss_jordan_step_reciprocal_guarded (n m i : Nat) (aug : Buf) (pivot_threshold : ℚ)
    (hthr : 0 < pivot_threshold) (hi : i < n) (hlen : n * (n + m) ≤ aug.length) :
    (∃ pivot_row swapped p result,
      find_pivot_partial n i aug (n + m) = some (pivot_row, i) ∧
      (if pivot_row ≠ i then swap_rows n i pivot_row aug (n + m) else some aug) =
        some swapped ∧
      rd swapped (i * (n + m) + i) = some p ∧
      gauss_jordan_step n m i aug pivot_threshold = some result ∧
      (result.2 = false →
        p.x * p.x + p.y * p.y ≠ 0 ∧
        Vec2d.set_mul_cmplx p
          ⟨p.x / (p.x * p.x + p.y * p.y), -p.y / (p.x * p.x + p.y * p.y)⟩ = ⟨1, 0⟩)) ∧
    (∃ result, gauss_jordan_step 1 1 0 [⟨0, 0⟩, ⟨1, 0⟩] 0 = some result ∧
      result.2 = false) := by
  refine ⟨?_, ⟨([⟨0, 0⟩, ⟨0, 0⟩], false), by decide!, rfl⟩⟩
  have his : i < n + m := by omega
  have hb : (n - 1) * (n + m) + i < aug.length :=
    lt_of_lt_of_le (idx_lt (by omega) his) hlen
  obtain ⟨pr, f1, _, f3, _, _⟩ := find_pivot_spec n i (n + m) aug hi hb
  obtain ⟨aug1, s1, s2, _⟩ := pivot_swap_spec n i pr (n + m) aug hi f3 hlen
  obtain ⟨aug', _, t2, t3⟩ := step_tail_spec n m i aug1 pivot_threshold hi
    (by rw [s2]; exact hlen)
  have b : i * (n + m) + i < aug1.length := by
    rw [s2]; exact lt_of_lt_of_le (idx_lt hi his) hlen
  rw [← gauss_jordan_step_eq n m i aug pivot_threshold pr aug1 f1 s1] at t2 t3
  by_cases hs : (cells aug1 (n + m) i i).norm < pivot_threshold
  · exact ⟨pr, aug1, ent aug1 (i * (n + m) + i), (aug', true), f1, s1, rd_eq b, (t2 hs).1,
      fun h => by simp at h⟩
  · refine ⟨pr, aug1, ent aug1 (i * (n + m) + i), (aug', false), f1, s1, rd_eq b, (t3 hs).1,
      fun _ => ?_⟩
    have hp : ent aug1 (i * (n + m) + i) ≠ 0 := ne_zero_of_norm hthr hs
    refine ⟨fun h => hp ((Vec2d.norm_eq_zero_iff _).1 h), ?_⟩
    rw [Vec2d.pivot_inv_def, Vec2d.mul_def, mul_inv_cancel₀ hp]
    rfl

/-- C16, witness: step 0 on `[A|I]` for `A = [[(0,3),(0,0)],[(4,0),(1,0)]]` at
the default threshold; the pivot after the swap is `(4,0)`. -/
theorem gauss_jordan_step_reciprocal_guarded_witness :
    (0 < default_threshold ∧ 0 < 2 ∧ 2 * (2 + 2) ≤
      ([⟨0, 3⟩, ⟨0, 0⟩, ⟨1, 0⟩, ⟨0, 0⟩, ⟨4, 0⟩, ⟨1, 0⟩, ⟨0, 0⟩, ⟨1, 0⟩] : Buf).length) ∧
    (gauss_jordan_step 2 2 0
      [⟨0, 3⟩, ⟨0, 0⟩, ⟨1, 0⟩, ⟨0, 0⟩, ⟨4, 0⟩, ⟨1, 0⟩, ⟨0, 0⟩, ⟨1, 0⟩]
      default_threshold).map (fun r => r.2) = some false ∧
    ((∃ pivot_row swapped p result,
      find_pivot_partial 2 0
        [⟨0, 3⟩, ⟨0, 0⟩, ⟨1, 0⟩, ⟨0, 0⟩, ⟨4, 0⟩, ⟨1, 0⟩, ⟨0, 0⟩, ⟨1, 0⟩] (2 + 2) =
          some (pivot_row, 0) ∧
      (if pivot_row ≠ 0 then swap_rows 2 0 pivot_row
          [⟨0, 3⟩, ⟨0, 0⟩, ⟨1, 0⟩, ⟨0, 0⟩, ⟨4, 0⟩, ⟨1, 0⟩, ⟨0, 0⟩, ⟨1, 0⟩] (2 + 2)
        else some [⟨0, 3⟩, ⟨0, 0⟩, ⟨1, 0⟩, ⟨0, 0⟩, ⟨4, 0⟩, ⟨1, 0⟩, ⟨0, 0⟩, ⟨1, 0⟩]) =
        some swapped ∧
      rd swapped (0 * (2 + 2) + 0) = some p ∧
      gauss_jordan_step 2 2 0
        [⟨0, 3⟩, ⟨0, 0⟩, ⟨1, 0⟩, ⟨0, 0⟩, ⟨4, 0⟩, ⟨1, 0⟩, ⟨0, 0⟩, ⟨1, 0⟩]
        default_threshold = some result ∧
      (result.2 = false →
        p.x * p.x + p.y * p.y ≠ 0 ∧
        Vec2d.set_mul_cmplx p
          ⟨p.x / (p.x * p.x + p.y * p.y), -p.y / (p.x * p.x + p.y * p.y)⟩ = ⟨1, 0⟩)) ∧
    (∃ result, gauss_jordan_step 1 1 0 [⟨0, 0⟩, ⟨1, 0⟩] 0 = some result ∧
      result.2 = false)) :=
  ⟨⟨by decide!, by decide, by decide⟩, by decide!,
    gauss_jordan_step_reciprocal_guarded 2 2 0 _ default_threshold (by decide!) (by decide)
      (by decide)⟩

/-- C17: `swap_rows(n, r1, r2, A, stride)` exchanges exactly two rows. For
rows `r1, r2 < n` of a buffer that holds `n` rows of length `stride` the call
returns; for every column `j < stride` the new `A[r1][j]` is the old
`A[r2][j]` and the new `A[r2][j]` is the old `A[r1][j]`; every entry of every
other row reads as before; the same swap applied again gives back the
original buffer; and with `r1 = r2` the buffer is returned as it was. -/
theorem swap_rows_exchange (n r1 r2 stride : Nat) (A : Buf) (h1 : r1 < n) (h2 : r2 < n)
    (hlen : n * stride ≤ A.length) :
    ∃ A', swap_rows n r1 r2 A stride = some A' ∧
      (∀ j, j < stride → rd A' (r1 * stride + j) = rd A (r2 * stride + j) ∧
        rd A' (r2 * stride + j) = rd A (r1 * stride + j)) ∧
      (∀ r j, r ≠ r1 → r ≠ r2 → j < stride →
        rd A' (r * stride + j) = rd A (r * stride + j)) ∧
      swap_rows n r1 r2 A' stride = some A ∧
      (r1 = r2 → A' = A) := by
  obtain ⟨A', s1, s2, s3⟩ := swap_rows_spec n r1 r2 stride A h1 h2 hlen
  obtain ⟨A'', t1, t2, t3⟩ := swap_rows_spec n r1 r2 stride A' h1 h2 (by rw [s2]; exact hlen)
  have hb : ∀ r j, r < n → j < stride → r * stride + j < A.length := fun r j hr hj =>
    lt_of_lt_of_le (idx_lt hr hj) hlen
  have hb' : ∀ r j, r < n → j < stride → r * stride + j < A'.length := fun r j hr hj => by
    rw [s2]; exact hb r j hr hj
  rcases Nat.eq_zero_or_pos stride with hz | hpos
  · subst hz
    have e1 : swap_rows n r1 r2 A 0 = some A := rfl
    rw [e1] at s1
    simp only [Option.some.injEq] at s1
    subst s1
    exact ⟨A, rfl, fun j hj => absurd hj (Nat.not_lt_zero _),
      fun r j _ _ hj => absurd hj (Nat.not_lt_zero _), rfl, fun _ => rfl⟩
  · have hback : A'' = A := by
      apply buf_eq_of_cells hpos (by rw [t2, s2])
      intro r c hc
      rw [t3 r c hc]
      by_cases e1 : r = r1
      · rw [if_pos e1, s3 r2 c hc, e1]
        by_cases e2 : r2 = r1
        · rw [if_pos e2, e2]
        · rw [if_neg e2, if_pos rfl]
      · rw [if_neg e1]
        by_cases e2 : r = r2
        · rw [if_pos e2, s3 r1 c hc, if_pos rfl, e2]
        · rw [if_neg e2, s3 r c hc, if_neg e1, if_neg e2]
    refine ⟨A', s1, fun j hj => ⟨?_, ?_⟩, fun r j e1 e2 hj => ?_, by rw [t1, hback],
      fun e => ?_⟩
    · rw [rd_eq (hb' r1 j h1 hj), rd_eq (hb r2 j h2 hj), s3 r1 j hj, if_pos rfl]
    · rw [rd_eq (hb' r2 j h2 hj), rd_eq (hb r1 j h1 hj), s3 r2 j hj]
      by_cases e : r2 = r1
      · rw [if_pos e, e]
      · rw [if_neg e, if_pos rfl]
    · apply rd_congr s2
      rw [s3 r j hj, if_neg e1, if_neg e2]
    · subst e
      apply buf_eq_of_cells hpos s2
      intro r c hc
      rw [s3 r c hc]
      by_cases e1 : r = r1
      · rw [if_pos e1, e1]
      · rw [if_neg e1, if_neg e1]

/-- C17, witness: rows 0 and 2 of a `3×2` buffer. -/
theorem swap_rows_exchange_witness :
    (0 < 3 ∧ 2 < 3 ∧
      3 * 2 ≤ ([⟨1, 0⟩, ⟨2, 0⟩, ⟨3, 0⟩, ⟨4, 0⟩, ⟨5, 0⟩, ⟨6, 0⟩] : Buf).length) ∧
    swap_rows 3 0 2 [⟨1, 0⟩, ⟨2, 0⟩, ⟨3, 0⟩, ⟨4, 0⟩, ⟨5, 0⟩, ⟨6, 0⟩] 2 =
      some [⟨5, 0⟩, ⟨6, 0⟩, ⟨3, 0⟩, ⟨4, 0⟩, ⟨1, 0⟩, ⟨2, 0⟩] ∧
    ∃ A', swap_rows 3 0 2 [⟨1, 0⟩, ⟨2, 0⟩, ⟨3, 0⟩, ⟨4, 0⟩, ⟨5, 0⟩, ⟨6, 0⟩] 2 = some A' ∧
      (∀ j, j < 2 →
        rd A' (0 * 2 + j) = rd [⟨1, 0⟩, ⟨2, 0⟩, ⟨3, 0⟩, ⟨4, 0⟩, ⟨5, 0⟩, ⟨6, 0⟩] (2 * 2 + j) ∧
        rd A' (2 * 2 + j) = rd [⟨1, 0⟩, ⟨2, 0⟩, ⟨3, 0⟩, ⟨4, 0⟩, ⟨5, 0⟩, ⟨6, 0⟩] (0 * 2 + j)) ∧
      (∀ r j, r ≠ 0 → r ≠ 2 → j < 2 →
        rd A' (r * 2 + j) = rd [⟨1, 0⟩, ⟨2, 0⟩, ⟨3, 0⟩, ⟨4, 0⟩, ⟨5, 0⟩, ⟨6, 0⟩] (r * 2 + j)) ∧
      swap_rows 3 0 2 A' 2 = some [⟨1, 0⟩, ⟨2, 0⟩, ⟨3, 0⟩, ⟨4, 0⟩, ⟨5, 0⟩, ⟨6, 0⟩] ∧
      (0 = 2 → A' = [⟨1, 0⟩, ⟨2, 0⟩, ⟨3, 0⟩, ⟨4, 0⟩, ⟨5, 0⟩, ⟨6, 0⟩]) :=
  ⟨⟨by decide, by decide, by decide⟩, by decide!,
    swap_rows_exchange 3 0 2 2 _ (by decide) (by decide) (by decide)⟩

/-- C18: partial pivoting is complete for invertible matrices. For every `n`
and every `n×n` matrix `A` with `det A ≠ 0` there is a `t0 > 0` such that for
every threshold `t` with `0 < t ≤ t0`, `invert_complex_matrix` never takes the
near-zero-pivot branch (every pivot it selects is nonzero, of squared
magnitude at least `t`) and returns `Ainv` with `multiply(A, Ainv) = I`. -/
theorem invert_complex_matrix_complete (n : Nat) (A Ainv workspace C : Buf)
    (hA : n * n ≤ A.length) (hAinv : n * n ≤ Ainv.length)
    (hws : 2 * n * n ≤ workspace.length) (hC : n * n ≤ C.length)
    (hdet : (toMatrix n A).det ≠ 0) :
    ∃ t0 : ℚ, 0 < t0 ∧ ∀ t, 0 < t → t ≤ t0 →
      ∃ r, invert_complex_matrix n A Ainv workspace t = some r ∧ r.singular_at = none ∧
        ∃ C', multiply_complex_matrices n n n A r.out C = some C' ∧
          ∀ i j, i < n → j < n →
            rd C' (i * n + j) = some (if i = j then ⟨1, 0⟩ else ⟨0, 0⟩) := by
  have hws' : n * (n + n) ≤ workspace.length := by rw [ws_size]; exact hws
  obtain ⟨aug, a1, a2, a3⟩ := augment_identity_spec n A workspace hA hws'
  have hI : Inj n (cells aug (n + n)) := Inj_of_det_ne_zero hdet (fun r c hr hc => by
    show ent aug (r * (n + n) + c) = _
    rw [a3 r c hr (by omega), if_pos hc])
  obtain ⟨t0, ht0, hrun⟩ := gauss_jordan_loop_floor n n n 0 aug (by omega)
    (by rw [a2]; exact hws') (fun c hc => absurd hc (Nat.not_lt_zero _)) hI
  refine ⟨t0, ht0, fun t ht htle => ?_⟩
  obtain ⟨o, o1, o2⟩ := hrun t ht htle
  obtain ⟨aug2, out, X', b1, _, _, g1, _, _, c2, _, hinv⟩ :=
    invert_complex_matrix_unfold n A Ainv workspace t hA hAinv hws'
  rw [a1] at b1
  have hb := Option.some.inj b1
  subst hb
  have ho : out = o := by
    unfold gauss_jordan_eliminate at g1
    rw [g1] at o1
    exact Option.some.inj o1
  subst ho
  obtain ⟨r, h1, h2, h3, _⟩ := invert_complex_matrix_spec n A Ainv workspace t hA hAinv hws'
  rw [hinv] at h1
  have hr := Option.some.inj h1
  subst hr
  have hnone : (⟨X', out.aug, out.singular_at⟩ : Solved).singular_at = none := o2
  obtain ⟨C', m1, m2⟩ := multiply_eq_of_sums n n A X' C
    (fun i j => if i = j then ⟨1, 0⟩ else ⟨0, 0⟩) hA (by rw [c2]; exact hAinv) hC
    (fun i j hi hj => by
      rw [h3 ht hnone i j hi hj]
      by_cases e : i = j
      · simp [e]; rfl
      · simp [e]; rfl)
  exact ⟨⟨X', out.aug, out.singular_at⟩, hinv, o2, C', m1, m2⟩

/-- C18, witness: `A = [[(0,1),(1,0)],[(1,0),(0,0)]]`, whose determinant is
`(-1,0)`. -/
theorem invert_complex_matrix_complete_witness :
    (2 * 2 ≤ ([⟨0, 1⟩, ⟨1, 0⟩, ⟨1, 0⟩, ⟨0, 0⟩] : Buf).length ∧
      2 * 2 ≤ (List.replicate 4 ⟨0, 0⟩ : Buf).length ∧
      2 * 2 * 2 ≤ (List.replicate 8 ⟨0, 0⟩ : Buf).length ∧
      (toMatrix 2 [⟨0, 1⟩, ⟨1, 0⟩, ⟨1, 0⟩, ⟨0, 0⟩]).det ≠ 0) ∧
    ∃ t0 : ℚ, 0 < t0 ∧ ∀ t, 0 < t → t ≤ t0 →
      ∃ r, invert_complex_matrix 2 [⟨0, 1⟩, ⟨1, 0⟩, ⟨1, 0⟩, ⟨0, 0⟩] (List.replicate 4 ⟨0, 0⟩)
          (List.replicate 8 ⟨0, 0⟩) t = some r ∧ r.singular_at = none ∧
        ∃ C', multiply_complex_matrices 2 2 2 [⟨0, 1⟩, ⟨1, 0⟩, ⟨1, 0⟩, ⟨0, 0⟩] r.out
            (List.replicate 4 ⟨0, 0⟩) = some C' ∧
          ∀ i j, i < 2 → j < 2 →
            rd C' (i * 2 + j) = some (if i = j then ⟨1, 0⟩ else ⟨0, 0⟩) :=
  have hdet : (toMatrix 2 [⟨0, 1⟩, ⟨1, 0⟩, ⟨1, 0⟩, ⟨0, 0⟩]).det ≠ 0 := by
    rw [Matrix.det_fin_two]
    simp only [toMatrix, Matrix.of_apply]
    decide!
  ⟨⟨by decide, by decide, by decide, hdet⟩,
    invert_complex_matrix_complete 2 _ _ _ _ (by decide) (by decide) (by decide) (by decide)
      hdet⟩

/-- C19: failure is detectable from the last row. For every `n ≥ 1`, every
`n×n` matrix `A` and every positive threshold, `invert_complex_matrix`
returns, and row `n−1` of its output is all `(0,0)` if and only if the
elimination took the near-zero-pivot branch. In particular every singular `A`
(`det A = 0`) yields an output whose last row is all zero. -/
theorem invert_complex_matrix_last_row (n : Nat) (A Ainv workspace : Buf)
    (pivot_threshold : ℚ) (hn : 1 ≤ n) (hthr : 0 < pivot_threshold)
    (hA : n * n ≤ A.length) (hAinv : n * n ≤ Ainv.length)
    (hws : 2 * n * n ≤ workspace.length) :
    ∃ r, invert_complex_matrix n A Ainv workspace pivot_threshold = some r ∧
      ((∀ j, j < n → rd r.out ((n - 1) * n + j) = some ⟨0, 0⟩) ↔ r.singular_at ≠ none) ∧
      ((toMatrix n A).det = 0 →
        ∀ j, j < n → rd r.out ((n - 1) * n + j) = some ⟨0, 0⟩) := by
  obtain ⟨r, h1, h2, h3, h4⟩ := invert_complex_matrix_spec n A Ainv workspace pivot_threshold
    hA hAinv (by rw [ws_size]; exact hws)
  have hb : ∀ j, j < n → (n - 1) * n + j < r.out.length := fun j hj => by
    rw [h2]; exact lt_of_lt_of_le (idx_lt (by omega) hj) hAinv
  have hzero : r.singular_at ≠ none →
      ∀ j, j < n → rd r.out ((n - 1) * n + j) = some ⟨0, 0⟩ := by
    intro hne j hj
    cases hs : r.singular_at with
    | none => exact absurd hs hne
    | some k =>
      obtain ⟨k1, k2⟩ := h4 k hs
      rw [rd_eq (hb j hj), k2 (n - 1) j (by omega) (by omega) hj]
      rfl
  have hsucc : r.singular_at = none → toMatrix n A * toMatrix n r.out = 1 :=
    fun hnone => toMatrix_mul_eq_one (h3 hthr hnone)
  refine ⟨r, h1, ⟨fun hrow hnone => ?_, hzero⟩, fun hdet => hzero (fun hnone => ?_)⟩
  · have hXA : toMatrix n r.out * toMatrix n A = 1 := Matrix.mul_eq_one_comm.1 (hsucc hnone)
    have := toMatrix_entries_of_mul_eq_one hXA (n - 1) (n - 1) (by omega) (by omega)
    rw [if_pos rfl] at this
    have hz : ∑ p ∈ Finset.range n, ent r.out ((n - 1) * n + p) * ent A (p * n + (n - 1)) = 0 := by
      apply Finset.sum_eq_zero
      intro p hp
      have hp' : p < n := Finset.mem_range.1 hp
      have e : ent r.out ((n - 1) * n + p) = 0 := ent_of_rd (hrow p hp')
      rw [e, zero_mul]
    rw [hz] at this
    exact zero_ne_one this
  · exact absurd hdet (det_ne_zero_of_mul_eq_one (hsucc hnone))

/-- C19, witness: the singular `A = [[(1,0),(2,0)],[(3,0),(6,0)]]` at the
default threshold; the branch is taken at step 1 and the last row of the
output is zero while row 0 is not. -/
theorem invert_complex_matrix_last_row_witness :
    (1 ≤ 2 ∧ 0 < default_threshold ∧
      2 * 2 ≤ ([⟨1, 0⟩, ⟨2, 0⟩, ⟨3, 0⟩, ⟨6, 0⟩] : Buf).length ∧
      2 * 2 ≤ (List.replicate 4 ⟨0, 0⟩ : Buf).length ∧
      2 * 2 * 2 ≤ (List.replicate 8 ⟨0, 0⟩ : Buf).length) ∧
    (invert_complex_matrix 2 [⟨1, 0⟩, ⟨2, 0⟩, ⟨3, 0⟩, ⟨6, 0⟩] (List.replicate 4 ⟨0, 0⟩)
      (List.replicate 8 ⟨0, 0⟩) default_threshold).map (fun r => (r.out, r.singular_at)) =
        some ([⟨0, 0⟩, ⟨1 / 3, 0⟩, ⟨0, 0⟩, ⟨0, 0⟩], some 1) ∧
    ∃ r, invert_complex_matrix 2 [⟨1, 0⟩, ⟨2, 0⟩, ⟨3, 0⟩, ⟨6, 0⟩] (List.replicate 4 ⟨0, 0⟩)
        (List.replicate 8 ⟨0, 0⟩) default_threshold = some r ∧
      ((∀ j, j < 2 → rd r.out ((2 - 1) * 2 + j) = some ⟨0, 0⟩) ↔ r.singular_at ≠ none) ∧
      ((toMatrix 2 [⟨1, 0⟩, ⟨2, 0⟩, ⟨3, 0⟩, ⟨6, 0⟩]).det = 0 →
        ∀ j, j < 2 → rd r.out ((2 - 1) * 2 + j) = some ⟨0, 0⟩) :=
  ⟨⟨by decide, by decide!, by decide, by decide, by decide⟩, by decide!,
    invert_complex_matrix_last_row 2 _ _ _ default_threshold (by decide) (by decide!)
      (by decide) (by decide) (by decide)⟩

/-- C20: the code does not do what the claim (and the comment above the
routine) says. On the augmented buffer `[[1,2|1,0],[3,4|0,1]]` the call
`swap_columns_and_rows(2, 0, 1, aug, 4)` exchanges columns 0 and 1 of the left
part, and leaves the right part as it was: rows 0 and 1 of the right part are
not exchanged. -/
theorem swap_columns_and_rows_right_part_untouched :
    swap_columns_and_rows 2 0 1
        [⟨1, 0⟩, ⟨2, 0⟩, ⟨1, 0⟩, ⟨0, 0⟩, ⟨3, 0⟩, ⟨4, 0⟩, ⟨0, 0⟩, ⟨1, 0⟩] 4 =
      some [⟨2, 0⟩, ⟨1, 0⟩, ⟨1, 0⟩, ⟨0, 0⟩, ⟨4, 0⟩, ⟨3, 0⟩, ⟨0, 0⟩, ⟨1, 0⟩] ∧
    swap_columns_and_rows 2 0 1
        [⟨1, 0⟩, ⟨2, 0⟩, ⟨1, 0⟩, ⟨0, 0⟩, ⟨3, 0⟩, ⟨4, 0⟩, ⟨0, 0⟩, ⟨1, 0⟩] 4 ≠
      some [⟨2, 0⟩, ⟨1, 0⟩, ⟨0, 0⟩, ⟨1, 0⟩, ⟨4, 0⟩, ⟨3, 0⟩, ⟨1, 0⟩, ⟨0, 0⟩] :=
  ⟨by decide!, by decide!⟩

end ComplexAlgebra
